import Mathlib

/-!
# Header cache of the mail index

A shallow embedding of the header extraction pipeline and of the header lookup
service (lib-storage/index/index-mail-headers.c), of the cache administration
commands (doveadm/doveadm-mail-mailbox-cache.c) and of the mailbox name checks of the
mbox storage (lib-storage/index/mbox/mbox-storage.c).  C buffers are lists of bytes
(natural numbers), the mail handle is a
record that is passed through every operation, and the calls into the cache
library (`mail_cache_add`, `mail_cache_register_lookup`, ...) are modelled by
their contract, since that library is not part of the translated sources.
-/

namespace Dovecot

/-! ## Bytes and buffers -/

/-- Bytes of a C string literal, one number per character. -/
def cstr (s : String) : List Nat := s.data.map Char.toNat

/-- The value `(unsigned int)-1`. -/
def UINT_MAX : Nat := 4294967295

/-- Memory image of a `uint32_t` (least significant byte first), the four bytes
that `buffer_append (buf, &x, sizeof (x))` copies. -/
def uint32_bytes (n : Nat) : List Nat :=
  [n % 256, n / 256 % 256, n / 65536 % 256, n / 16777216 % 256]

/-- The call `buffer_append (buf, data, size)`: the bytes are added at the end. -/
def buffer_append (buf data : List Nat) : List Nat := buf ++ data

/-- The `size` bytes found at `header + pos`. -/
def buffer_slice (header : List Nat) (pos size : Nat) : List Nat :=
  (header.drop pos).take size

/-- The call `buffer_write (buf, pos, &v, 1)`: one byte is stored at offset `pos`;
a buffer that is too short grows, and the bytes in between are zero. -/
def buffer_write (buf : List Nat) (pos v : Nat) : List Nat :=
  if pos < buf.length then buf.set pos v
  else buf ++ List.replicate (pos - buf.length) 0 ++ [v]

/-! ## Data model -/

/-- One staging line, `struct index_mail_line`. -/
structure index_mail_line where
  field_idx : Nat
  start_pos : Nat
  end_pos : Nat
  line_num : Nat
  cache : Bool
deriving DecidableEq

/-- One call of `mail_cache_add (cache_trans, seq, field, data, data_size)`; an
empty `data` is a negative record. -/
structure cache_record where
  seq : Nat
  field : Nat
  data : List Nat
deriving DecidableEq

/-- Modelled from the spec: `mail_cache_add` of the cache library appends the
record to the transaction. -/
def mail_cache_add (tx : List cache_record) (seq field : Nat) (data : List Nat) :
    List cache_record :=
  tx ++ [cache_record.mk seq field data]

/-- Modelled from the spec: the decision of a field without its `FORCED` flag,
`enum mail_cache_decision_type` of the cache library. -/
inductive mail_cache_decision_type where
  | NO
  | TEMP
  | YES
deriving DecidableEq

/-- Modelled from the spec: a decision together with the `FORCED` flag. -/
structure mail_cache_decision where
  base : mail_cache_decision_type
  forced : Bool
deriving DecidableEq

/-- Modelled from the spec: the kind of a field, `enum mail_cache_field_type`. -/
inductive mail_cache_field_type where
  | FIXED_SIZE
  | VARIABLE
  | HEADER
  | SYNTHETIC
deriving DecidableEq

/-- Modelled from the spec: a field descriptor of the registry; its index is its
position in the registry. -/
structure mail_cache_field where
  name : List Nat
  type : mail_cache_field_type
  decision : mail_cache_decision
deriving DecidableEq

/-- Modelled from the spec: `mail_cache_register_lookup`, the index of the field of
that name, or `(unsigned int)-1` when the name is not registered. -/
def mail_cache_register_lookup : List mail_cache_field → List Nat → Nat
  | [], _ => UINT_MAX
  | f :: fs, name =>
    if f.name = name then 0
    else if mail_cache_register_lookup fs name = UINT_MAX then UINT_MAX
    else mail_cache_register_lookup fs name + 1

/-- Modelled from the spec: `mail_cache_field_get_decision`. -/
def mail_cache_field_get_decision (cache : List mail_cache_field) (field_idx : Nat) :
    mail_cache_decision :=
  match cache.get? field_idx with
  | some f => f.decision
  | none => mail_cache_decision.mk mail_cache_decision_type.NO false

/-- One header line event of the message parser, `struct message_header_line`. -/
structure message_header_line where
  name : List Nat
  value : List Nat
  full_value : List Nat
  continues : Bool
  continued : Bool
  no_newline : Bool
  use_full_value : Bool
deriving DecidableEq

/-- The part of `struct index_mail_data` that the header code reads and writes.  The
message stream `stream` is `none` while the pointer is NULL and is otherwise given by
the header lines that the message parser will read from it. -/
structure index_mail_data where
  seq : Nat
  parse_line_num : Nat
  parse_line : index_mail_line
  save_sent_date : Bool
  sent_date_time : Int
  sent_date_timezone : Int
  save_envelope : Bool
  save_bodystructure_header : Bool
  envelope_data : List (Option message_header_line)
  envelope : Option (List Nat)
  stream : Option (List message_header_line)
  hdr_size_set : Bool
  parse_header : Bool

/-- The mail handle, `struct index_mail`, with the objects its pointers lead to:
`cache` is the registry `mail->ibox->cache`, `cache_view` answers
`mail_cache_field_exists (mail->trans->cache_view, seq, field)`, `cache_trans` is the
list of records added to `mail->trans->cache_trans`.  `header_data` is `none` while the
pointer is NULL.  `header_lines_past` is what the memory right after the used part of
`header_lines` holds.  `wanted_headers` is a pointer to a lookup context. -/
structure index_mail where
  data : index_mail_data
  header_data : Option (List Nat)
  header_lines : List index_mail_line
  header_lines_past : index_mail_line
  header_match : List Nat
  header_match_value : Nat
  wanted_headers : Option Nat
  cache : List mail_cache_field
  cache_view : Nat → Nat → Int
  cache_trans : List cache_record

/-- What the collaborators outside the translated sources compute: the date parser,
the envelope serializer, the indices of the two fixed cache fields, the memory image
of `struct mail_sent_date`, the `idx` array of the lookup context at an address, and
`mail_cache_lookup_headers` (its return value and the bytes it adds to `dest`). -/
structure collaborators where
  message_date_parse : List Nat → Option (Int × Int)
  imap_envelope_write_part_data : List (Option message_header_line) → List Nat
  MAIL_CACHE_ENVELOPE : Nat
  MAIL_CACHE_SENT_DATE : Nat
  sent_date_bytes : Int → Int → List Nat
  lookup_ctx_idx : Nat → List Nat
  mail_cache_lookup_headers : index_mail → List Nat → Int × List Nat

/-- Result of a function that can stop in `i_assert`. -/
inductive outcome (α : Type) where
  | returned (a : α)
  | assert_failed
deriving DecidableEq

/-! ## header_line_cmp and the sort -/

/-- The conversion `(int)x` of an `unsigned int`. -/
def int_cast (x : Nat) : Int :=
  if x % 4294967296 < 2147483648 then (x % 4294967296 : Nat) else (x % 4294967296 : Nat) - 4294967296

/-- A difference of two `int`, wrapped into the range of `int`. -/
def int_sub (a b : Int) : Int :=
  if (a - b) % 4294967296 < 2147483648 then (a - b) % 4294967296
  else (a - b) % 4294967296 - 4294967296

/-- The comparison function `header_line_cmp`. -/
def header_line_cmp (l1 l2 : index_mail_line) : Int :=
  if int_sub (int_cast l1.field_idx) (int_cast l2.field_idx) ≠ 0 then
    int_sub (int_cast l1.field_idx) (int_cast l2.field_idx)
  else int_sub (int_cast l1.line_num) (int_cast l2.line_num)

/-- The libc call `qsort (lines, size, sizeof (*lines), header_line_cmp)`, modelled as
an insertion sort: `a` stays before `b` when the comparison is not positive. -/
def qsort_lines (lines : List index_mail_line) : List index_mail_line :=
  lines.insertionSort (fun a b => header_line_cmp a b ≤ 0)

/-! ## index_mail_parse_header_finish -/

/-- The `while` loop of lines 60-69: a negative record for every wanted field index
from `match_idx` up to the field of the current line.  Returns the new `match_idx`
and the transaction. -/
def finish_missing (hmatch : List Nat) (match_value seq field_idx : Nat) :
    Nat → Nat → List cache_record → Nat × List cache_record
  | 0, match_idx, tx => (match_idx, tx)
  | fuel + 1, match_idx, tx =>
    if match_idx < field_idx ∧ match_idx < hmatch.length then
      finish_missing hmatch match_value seq field_idx fuel (match_idx + 1)
        (if hmatch.getD match_idx 0 = match_value then mail_cache_add tx seq match_idx []
         else tx)
    else (match_idx, tx)

/-- The `for (j = i+1; ...)` loop of lines 77-85: finds the end `j` of the run that
starts at `i`, notes whether a line does not start where the previous one ends, and
appends the line numbers.  Returns `j`, `noncontiguous` and `buf`. -/
def finish_scan (lines : List index_mail_line) (past : index_mail_line) (i : Nat) :
    Nat → Nat → Bool → List Nat → Nat × Bool × List Nat
  | 0, j, noncontiguous, buf => (j, noncontiguous, buf)
  | fuel + 1, j, noncontiguous, buf =>
    if j < lines.length then
      if (lines.getD j past).field_idx ≠ (lines.getD i past).field_idx then
        (j, noncontiguous, buf)
      else
        finish_scan lines past i fuel (j + 1)
          (noncontiguous || decide ((lines.getD j past).start_pos ≠ (lines.getD (j - 1) past).end_pos))
          (buffer_append buf (uint32_bytes (lines.getD j past).line_num))
    else (j, noncontiguous, buf)

/-- The `for (; i < j; i++)` loop of lines 89-93: appends the bytes of each line of
the run.  Returns the final `i` and `buf`. -/
def finish_copy (lines : List index_mail_line) (past : index_mail_line) (header : List Nat)
    (j : Nat) : Nat → Nat → List Nat → Nat × List Nat
  | 0, i, buf => (i, buf)
  | fuel + 1, i, buf =>
    if i < j then
      finish_copy lines past header j fuel (i + 1)
        (buffer_append buf (buffer_slice header (lines.getD i past).start_pos
          ((lines.getD i past).end_pos - (lines.getD i past).start_pos)))
    else (i, buf)

/-- Lines 88-97: the header bytes are appended, line by line when the run is not
contiguous (which moves `i` to `j`), in one piece otherwise.  Returns `i` and `buf`. -/
def finish_bytes (lines : List index_mail_line) (past : index_mail_line) (header : List Nat)
    (i j : Nat) (noncontiguous : Bool) (buf : List Nat) : Nat × List Nat :=
  if noncontiguous then finish_copy lines past header j (j - i) i buf
  else
    (i, buffer_append buf (buffer_slice header (lines.getD i past).start_pos
      ((lines.getD (j - 1) past).end_pos - (lines.getD i past).start_pos)))

/-- One turn of the outer loop without its `while` loop, lines 72-101: the payload of
the run that starts at `i` is built in `buf`.  Returns `j`, the field index that is
handed to `mail_cache_add` (`lines[i].field_idx` for the value `i` has by then) and
the payload. -/
def finish_run (lines : List index_mail_line) (past : index_mail_line) (header : List Nat)
    (i : Nat) : Nat × Nat × List Nat :=
  let buf := buffer_append [] (uint32_bytes (lines.getD i past).line_num)
  let s := finish_scan lines past i lines.length (i + 1) false buf
  let b := finish_bytes lines past header i s.1 s.2.1 (buffer_append s.2.2 (uint32_bytes 0))
  (s.1, (lines.getD b.1 past).field_idx, b.2)

/-- The outer loop of lines 59-102, `for (i = match_idx = 0; i < size; i = j)`, over
the sorted lines.  `lines[size]` reads `past`. -/
def finish_loop (lines : List index_mail_line) (past : index_mail_line) (header hmatch : List Nat)
    (match_value seq : Nat) : Nat → Nat → Nat → List cache_record → List cache_record
  | 0, _, _, tx => tx
  | fuel + 1, i, match_idx, tx =>
    if i < lines.length then
      let m := finish_missing hmatch match_value seq (lines.getD i past).field_idx
        hmatch.length match_idx tx
      let r := finish_run lines past header i
      finish_loop lines past header hmatch match_value seq fuel r.1 (m.1 + 1)
        (mail_cache_add m.2 seq r.2.1 r.2.2)
    else tx

/-- The function `index_mail_parse_header_finish`: the staging lines are sorted in
place and the records of the message are added to the transaction. -/
def index_mail_parse_header_finish (mail : index_mail) : index_mail :=
  { mail with
    header_lines := qsort_lines mail.header_lines
    cache_trans :=
      finish_loop (qsort_lines mail.header_lines) mail.header_lines_past
        (mail.header_data.getD []) mail.header_match mail.header_match_value mail.data.seq
        (qsort_lines mail.header_lines).length 0 0 mail.cache_trans }

/-! ## index_mail_parse_header_init -/

/-- The loop `for (i = 0; i < headers->count; i++) buffer_write (header_match,
headers->idx[i], &header_match_value, 1)`. -/
def match_mark (hmatch : List Nat) (match_value : Nat) : List Nat → List Nat
  | [] => hmatch
  | idx :: rest => match_mark (buffer_write hmatch idx match_value) match_value rest

/-- Lines 114-124: the three buffers are created on first use, and the staging area is
emptied otherwise. -/
def init_buffers (mail : index_mail) : index_mail :=
  match mail.header_data with
  | none => { mail with header_data := some [], header_lines := [], header_match := [] }
  | some _ => { mail with header_data := some [], header_lines := [] }

/-- Lines 126-131: the 8-bit `header_match_value` is incremented; when it wraps to
zero the whole bitmap is cleared and the value becomes 1. -/
def init_match_value (mail : index_mail) : index_mail :=
  if (mail.header_match_value + 1) % 256 = 0 then
    { mail with
      header_match := mail.header_match.map (fun _ => 0)
      header_match_value := 1 }
  else { mail with header_match_value := (mail.header_match_value + 1) % 256 }

/-- Lines 133-138: the fields of the requested lookup context are marked. -/
def init_headers (ext : collaborators) (headers : Option Nat) (mail : index_mail) : index_mail :=
  match headers with
  | some p =>
    { mail with
      header_match := match_mark mail.header_match mail.header_match_value (ext.lookup_ctx_idx p) }
  | none => mail

/-- Lines 140-146: the fields of `mail->wanted_headers` are marked, unless that is the
context that was just marked. -/
def init_wanted (ext : collaborators) (headers : Option Nat) (mail : index_mail) : index_mail :=
  match mail.wanted_headers with
  | some w =>
    if some w ≠ headers then
      { mail with
        header_match := match_mark mail.header_match mail.header_match_value (ext.lookup_ctx_idx w) }
    else mail
  | none => mail

/-- The function `index_mail_parse_header_init`; `headers` is the pointer to the
requested lookup context (`none` for NULL). -/
def index_mail_parse_header_init (ext : collaborators) (mail : index_mail)
    (headers : Option Nat) : index_mail :=
  init_wanted ext headers (init_headers ext headers (init_match_value (init_buffers mail)))

/-! ## index_mail_parse_header -/

/-- The libc function `tolower` on ASCII. -/
def i_tolower (c : Nat) : Nat := if 65 ≤ c ∧ c ≤ 90 then c + 32 else c

/-- The libc function `strcasecmp`: the difference of the first two bytes that differ
after lowering, zero when the strings end before that.  The end of the list is the
terminating NUL, and a NUL byte inside the list ends the string as well. -/
def strcasecmp : List Nat → List Nat → Int
  | [], [] => 0
  | [], b :: _ => 0 - (i_tolower b : Int)
  | a :: _, [] => (i_tolower a : Int)
  | a :: s1, b :: s2 =>
    if i_tolower a ≠ i_tolower b then (i_tolower a : Int) - (i_tolower b : Int)
    else if i_tolower a = 0 then 0
    else strcasecmp s1 s2

/-- Length of the string `mail->header_data`. -/
def header_data_len (mail : index_mail) : Nat := (mail.header_data.getD []).length

/-- The calls `str_append (mail->header_data, ...)` and `str_append_n`. -/
def header_data_append (mail : index_mail) (bytes : List Nat) : index_mail :=
  { mail with header_data := some (mail.header_data.getD [] ++ bytes) }

/-- Stores `line` in `mail->data.parse_line`. -/
def set_parse_line (mail : index_mail) (line : index_mail_line) : index_mail :=
  { mail with data := { mail.data with parse_line := line } }

/-- The function `index_mail_parse_finish_imap_envelope`. -/
def index_mail_parse_finish_imap_envelope (ext : collaborators) (mail : index_mail) : index_mail :=
  { mail with
    data := { mail.data with
      envelope := some (ext.imap_envelope_write_part_data mail.data.envelope_data) }
    cache_trans := mail_cache_add mail.cache_trans mail.data.seq ext.MAIL_CACHE_ENVELOPE
      (ext.imap_envelope_write_part_data mail.data.envelope_data) }

/-- Lines 178-184: the event is handed to the envelope builder, which is finished at
the end of the headers. -/
def parse_header_envelope (ext : collaborators) (hdr : Option message_header_line)
    (mail : index_mail) : index_mail :=
  if mail.data.save_envelope then
    match hdr with
    | none =>
      index_mail_parse_finish_imap_envelope ext
        { mail with data := { mail.data with envelope_data := mail.data.envelope_data ++ [hdr] } }
    | some _ =>
      { mail with data := { mail.data with envelope_data := mail.data.envelope_data ++ [hdr] } }
  else mail

/-- Lines 188-193: no Date header was seen. -/
def parse_header_date_missing (mail : index_mail) : index_mail :=
  if mail.data.save_sent_date then
    { mail with data := { mail.data with
        sent_date_time := 0
        sent_date_timezone := 0
        save_sent_date := false } }
  else mail

/-- Lines 194-198: the sent date is added to the cache unless its time is
`(time_t)-1`. -/
def parse_header_date_add (ext : collaborators) (mail : index_mail) : index_mail :=
  if mail.data.sent_date_time ≠ -1 then
    { mail with
      cache_trans := mail_cache_add mail.cache_trans mail.data.seq ext.MAIL_CACHE_SENT_DATE
        (ext.sent_date_bytes mail.data.sent_date_time mail.data.sent_date_timezone) }
  else mail

/-- Lines 186-202, the end of the headers (`hdr == NULL`). -/
def parse_header_end (ext : collaborators) (mail : index_mail) : index_mail :=
  { index_mail_parse_header_finish (parse_header_date_add ext (parse_header_date_missing mail)) with
    data := { (index_mail_parse_header_finish
        (parse_header_date_add ext (parse_header_date_missing mail))).data with
      save_bodystructure_header := false } }

/-- Lines 204-219, the Date header: the new handle and the header line, whose
`use_full_value` may have been set. -/
def parse_header_date (ext : collaborators) (hdr : message_header_line) (mail : index_mail) :
    index_mail × message_header_line :=
  if mail.data.save_sent_date ∧ strcasecmp hdr.name (cstr "Date") = 0 then
    if hdr.continues then (mail, { hdr with use_full_value := true })
    else
      match ext.message_date_parse hdr.full_value with
      | some (time, timezone) =>
        ({ mail with data := { mail.data with
            sent_date_time := time
            sent_date_timezone := timezone
            save_sent_date := false } }, hdr)
      | none =>
        ({ mail with data := { mail.data with
            sent_date_time := 0
            sent_date_timezone := 0
            save_sent_date := false } }, hdr)
  else (mail, hdr)

/-- Lines 221-229: the registry is asked for the field of a line that is not a
continuation. -/
def parse_header_lookup (hdr : message_header_line) (mail : index_mail) : index_mail :=
  if hdr.continued = false then
    set_parse_line mail { mail.data.parse_line with
      field_idx := mail_cache_register_lookup mail.cache (cstr "hdr." ++ hdr.name) }
  else mail

/-- Lines 236-248: the cache flag of a line that is not a continuation. -/
def parse_header_decide (hdr : message_header_line) (mail : index_mail) : index_mail :=
  if hdr.continued = false then
    set_parse_line mail { mail.data.parse_line with
      cache :=
        if (mail_cache_field_get_decision mail.cache mail.data.parse_line.field_idx).base
            ≠ mail_cache_decision_type.NO then
          if mail.cache_view mail.data.seq mail.data.parse_line.field_idx > 0 then false
          else true
        else false }
  else mail

/-- Lines 262-275: the line is put into the staging area. -/
def parse_header_stage (hdr : message_header_line) (mail : index_mail) : index_mail :=
  let m1 :=
    if hdr.continued = false then
      header_data_append
        (header_data_append
          (set_parse_line mail { mail.data.parse_line with
            start_pos := header_data_len mail
            line_num := mail.data.parse_line_num })
          hdr.name)
        (cstr ": ")
    else mail
  let m2 := header_data_append m1 hdr.value
  let m3 := if hdr.no_newline = false then header_data_append m2 (cstr "\n") else m2
  if hdr.continues = false then
    { set_parse_line m3 { m3.data.parse_line with end_pos := header_data_len m3 } with
      header_lines := m3.header_lines ++ [{ m3.data.parse_line with end_pos := header_data_len m3 }] }
  else m3

/-- Lines 221-276, a header line event after the builders and the Date parser. -/
def parse_header_line (hdr : message_header_line) (mail : index_mail) : index_mail :=
  let m1 := parse_header_lookup hdr mail
  if m1.data.parse_line.field_idx = UINT_MAX then m1
  else
    let m2 := parse_header_decide hdr m1
    if m2.data.parse_line.cache = false ∧
        (m2.data.parse_line.field_idx ≥ m2.header_match.length ∨
          m2.header_match.getD m2.data.parse_line.field_idx 0 ≠ m2.header_match_value) then m2
    else parse_header_stage hdr m2

/-- The function `index_mail_parse_header`.  `part` tells whether the `part` argument
is not NULL, `hdr` is `none` for the end of the headers.  The result is the handle and
the header line after the call; `i_assert (part != NULL)` can stop the call. -/
def index_mail_parse_header (ext : collaborators) (part : Bool)
    (hdr : Option message_header_line) (mail : index_mail) :
    outcome (index_mail × Option message_header_line) :=
  let m0 := { mail with data := { mail.data with
    parse_line_num := (mail.data.parse_line_num + 1) % 4294967296 } }
  if m0.data.save_bodystructure_header ∧ part = false then outcome.assert_failed
  else
    let m1 := parse_header_envelope ext hdr m0
    match hdr with
    | none => outcome.returned (parse_header_end ext m1, none)
    | some h =>
      outcome.returned
        (parse_header_line (parse_header_date ext h m1).2 (parse_header_date ext h m1).1,
          some (parse_header_date ext h m1).2)

/-- The header parser driving a callback (`message_parse_header`, and the filter
stream with `header_cache_callback`): `index_mail_parse_header` is called for every
header line in turn and then once with NULL. -/
def parse_header_events (ext : collaborators) (part : Bool) :
    List message_header_line → index_mail → outcome index_mail
  | [], mail =>
    match index_mail_parse_header ext part none mail with
    | outcome.returned r => outcome.returned r.1
    | outcome.assert_failed => outcome.assert_failed
  | h :: hs, mail =>
    match index_mail_parse_header ext part (some h) mail with
    | outcome.returned r => parse_header_events ext part hs r.1
    | outcome.assert_failed => outcome.assert_failed

/-- One extraction pass as `index_mail_get_headers` starts it on a cache miss:
`index_mail_parse_header_init` with the requested context, then the events of the
message through `header_cache_callback`, whose `part` is NULL. -/
def extraction_pass (ext : collaborators) (headers : Option Nat)
    (hdrs : List message_header_line) (mail : index_mail) : outcome index_mail :=
  parse_header_events ext false hdrs (index_mail_parse_header_init ext mail headers)

/-! ## index_mail_parse_headers and index_mail_get_header -/

/-- The function `index_mail_parse_headers`.  `get_stream` is what
`mail->mail.get_stream` finds (`none` for NULL), `part` tells whether the parser hands
a part to the callback.  Both parser entry points call `index_mail_parse_header_cb` for
every header line and then with NULL.  Returns `FALSE` (0) or `TRUE` (1). -/
def index_mail_parse_headers (ext : collaborators)
    (get_stream : Option (List message_header_line)) (part : Bool) (mail : index_mail) :
    outcome (Int × index_mail) :=
  match (if mail.data.stream = none then get_stream else mail.data.stream) with
  | none => outcome.returned (0, mail)
  | some hdrs =>
    match parse_header_events ext part hdrs
        (index_mail_parse_header_init ext
          { mail with data := { mail.data with stream := some hdrs } } none) with
    | outcome.returned m =>
      outcome.returned
        (1, { m with data := { m.data with hdr_size_set := true, parse_header := false } })
    | outcome.assert_failed => outcome.assert_failed

/-- Modelled from the spec: `mail_cache_register_fields` for one field, which gives a
name that is not registered the next index and leaves a registered one as it is.
Returns the index and the registry. -/
def mail_cache_register_field (cache : List mail_cache_field) (field : mail_cache_field) :
    Nat × List mail_cache_field :=
  if mail_cache_register_lookup cache field.name = UINT_MAX then (cache.length, cache ++ [field])
  else (mail_cache_register_lookup cache field.name, cache)

/-- The function `get_header_field_idx`. -/
def get_header_field_idx (cache : List mail_cache_field) (field : List Nat) :
    Nat × List mail_cache_field :=
  if mail_cache_register_lookup cache (cstr "hdr." ++ field) = UINT_MAX then
    mail_cache_register_field cache
      (mail_cache_field.mk (cstr "hdr." ++ field) mail_cache_field_type.HEADER
        (mail_cache_decision.mk mail_cache_decision_type.TEMP false))
  else (mail_cache_register_lookup cache (cstr "hdr." ++ field), cache)

/-- The first loop of `index_mail_get_header`, lines 397-402: the position after the
first colon and one space.  Returns `i`. -/
def get_header_skip (data : List Nat) : Nat → Nat → Nat
  | 0, i => i
  | fuel + 1, i =>
    if i < data.length then
      if data.getD i 0 = 58 then
        if i + 1 ≠ data.length then
          if data.getD (i + 1) 0 = 32 then i + 2 else i + 1
        else i
      else get_header_skip data fuel (i + 1)
    else i

/-- The second loop of `index_mail_get_header`, lines 406-414: the used size of `dest`
after the loop, which is the position of the first newline that ends the buffer or is
not followed by a space or a tab. -/
def get_header_cut (data : List Nat) : Nat → Nat → Nat
  | 0, _ => data.length
  | fuel + 1, i =>
    if i < data.length then
      if data.getD i 0 = 10 then
        if i + 1 = data.length ∨ (data.getD (i + 1) 0 ≠ 32 ∧ data.getD (i + 1) 0 ≠ 9) then i
        else get_header_cut data fuel (i + 1)
      else get_header_cut data fuel (i + 1)
    else data.length

/-- Lines 394-416 of `index_mail_get_header`, what is returned once `dest` holds the
cached bytes: the bytes of `dest` from `value_pos` up to its used size, which is the
string that the returned pointer `str_c (dest) + value_pos` addresses. -/
def get_header_value (dest : List Nat) : List Nat :=
  (dest.take (get_header_cut dest dest.length (get_header_skip dest dest.length 0))).drop
    (get_header_skip dest dest.length 0)

/-- The mail handle as `index_mail_get_header` passes it to the cache lookup: the
field has been registered by `get_header_field_idx`. -/
def get_header_mail (mail : index_mail) (field : List Nat) : index_mail :=
  { mail with cache := (get_header_field_idx mail.cache field).2 }

/-- The function `index_mail_get_header`.  The result is `none` for NULL; the call
stops in `i_assert (ret != 0)` when the second lookup misses. -/
def index_mail_get_header (ext : collaborators)
    (get_stream : Option (List message_header_line)) (part : Bool) (mail : index_mail)
    (field : List Nat) : outcome (Option (List Nat)) :=
  if (ext.mail_cache_lookup_headers (get_header_mail mail field)
      [(get_header_field_idx mail.cache field).1]).1 ≤ 0 then
    match index_mail_parse_headers ext get_stream part (get_header_mail mail field) with
    | outcome.assert_failed => outcome.assert_failed
    | outcome.returned r =>
      if r.1 < 0 then outcome.returned none
      else if (ext.mail_cache_lookup_headers r.2 [(get_header_field_idx mail.cache field).1]).1 = 0
        then outcome.assert_failed
      else if (ext.mail_cache_lookup_headers r.2 [(get_header_field_idx mail.cache field).1]).1 < 0
        then outcome.returned none
      else
        outcome.returned (some (get_header_value
          ((ext.mail_cache_lookup_headers (get_header_mail mail field)
              [(get_header_field_idx mail.cache field).1]).2 ++
            (ext.mail_cache_lookup_headers r.2 [(get_header_field_idx mail.cache field).1]).2)))
  else
    outcome.returned (some (get_header_value
      (ext.mail_cache_lookup_headers (get_header_mail mail field)
        [(get_header_field_idx mail.cache field).1]).2))


/-! ## A description of the finalize loop by runs -/

/-- The order that `header_line_cmp` computes on lines whose `field_idx` and
`line_num` fit into an `int`: by field, then by line number. -/
def line_le (a b : index_mail_line) : Prop :=
  a.field_idx < b.field_idx ∨ (a.field_idx = b.field_idx ∧ a.line_num ≤ b.line_num)

instance line_le_decidable : DecidableRel line_le := fun a b =>
  inferInstanceAs (Decidable (a.field_idx < b.field_idx ∨ (a.field_idx = b.field_idx ∧ a.line_num ≤ b.line_num)))

/-- The lines on which the `(int)` casts of `header_line_cmp` change nothing. -/
def lines_in_range (lines : List index_mail_line) : Prop :=
  ∀ l ∈ lines, l.field_idx < 2147483648 ∧ l.line_num < 2147483648

/-- The runs of a list of lines: the maximal groups of consecutive lines that share
their `field_idx`. -/
def field_runs : List index_mail_line → List (List index_mail_line)
  | [] => []
  | l :: ls =>
    match field_runs ls with
    | [] => [[l]]
    | run :: runs =>
      if run.head?.map index_mail_line.field_idx = some l.field_idx then (l :: run) :: runs
      else [l] :: run :: runs

/-- The bytes `header_data[start_pos..end_pos)` of a line. -/
def line_bytes (header : List Nat) (l : index_mail_line) : List Nat :=
  buffer_slice header l.start_pos (l.end_pos - l.start_pos)

/-- Whether some line of `ls` does not start where the line before it ends, `prev`
being the line before the first. -/
def noncontiguous_from (prev : index_mail_line) : List index_mail_line → Bool
  | [] => false
  | l :: ls => decide (l.start_pos ≠ prev.end_pos) || noncontiguous_from l ls

/-- Whether the run is not contiguous in `header_data`. -/
def run_noncontiguous : List index_mail_line → Bool
  | [] => false
  | l :: ls => noncontiguous_from l ls

/-- The header bytes that finalize appends for a run: line by line when the run is
not contiguous, and otherwise the one piece from the start of the first line to the
end of the last. -/
def run_bytes (header : List Nat) (run : List index_mail_line) : List Nat :=
  match run with
  | [] => []
  | l :: ls =>
    if noncontiguous_from l ls then (l :: ls).flatMap (line_bytes header)
    else buffer_slice header l.start_pos (((l :: ls).getLast?.getD l).end_pos - l.start_pos)

/-- The payload of a run: the line numbers, a zero, the header bytes. -/
def run_payload (header : List Nat) (run : List index_mail_line) : List Nat :=
  run.flatMap (fun l => uint32_bytes l.line_num) ++ uint32_bytes 0 ++ run_bytes header run

/-- The `field_idx` of the first line of the first run, and of `past` when there is
no run. -/
def first_field (past : index_mail_line) : List (List index_mail_line) → Nat
  | (l :: _) :: _ => l.field_idx
  | _ => past.field_idx

/-- The negative records that the `while` loop adds between `match_idx` and the field
`field_idx` of the next line. -/
def missing_records (hmatch : List Nat) (match_value seq field_idx match_idx : Nat) :
    List cache_record :=
  ((List.range' match_idx (min field_idx hmatch.length - match_idx)).filter
    (fun m => hmatch.getD m 0 = match_value)).map (fun m => cache_record.mk seq m [])

/-- The records of the finalize loop, run by run; `finish_loop_eq` proves that this is
what `finish_loop` adds.  The record of a run that is not contiguous goes to the field
of the line after the run. -/
def finish_runs (past : index_mail_line) (header hmatch : List Nat) (match_value seq : Nat) :
    List (List index_mail_line) → Nat → List cache_record
  | [], _ => []
  | run :: runs, match_idx =>
    missing_records hmatch match_value seq (first_field past (run :: runs)) match_idx ++
      cache_record.mk seq
        (if run_noncontiguous run then first_field past runs else first_field past (run :: runs))
        (run_payload header run) ::
      finish_runs past header hmatch match_value seq runs
        (max match_idx (min (first_field past (run :: runs)) hmatch.length) + 1)


/-- Every line of the first run has a smaller `field_idx` than every line of the
second. -/
def runs_lt (r1 r2 : List index_mail_line) : Prop :=
  ∀ a ∈ r1, ∀ b ∈ r2, a.field_idx < b.field_idx

/-- The records that finalize adds to the transaction of the handle, run by run. -/
def finish_added (mail : index_mail) : List cache_record :=
  finish_runs mail.header_lines_past (mail.header_data.getD []) mail.header_match
    mail.header_match_value mail.data.seq (field_runs (qsort_lines mail.header_lines)) 0


/-! ## Handles and collaborators of the examples -/

/-- A staging line whose fields are all zero. -/
def zero_line : index_mail_line := index_mail_line.mk 0 0 0 0 false

/-- A fresh mail handle for message `seq`: nothing is allocated, nothing is being
saved, the sent date is unset; `cache` is the registry and `view` the cache view. -/
def fresh_mail (seq : Nat) (cache : List mail_cache_field) (view : Nat → Nat → Int) :
    index_mail :=
  index_mail.mk
    (index_mail_data.mk seq 0 zero_line false (-1) 0 false false [] none none false false)
    none [] zero_line [] 0 none cache view []

/-- The handle of message 1 right before finalize, with the given staging area and
match bitmap. -/
def staged_mail (header : List Nat) (lines : List index_mail_line) (hmatch : List Nat)
    (match_value : Nat) : index_mail :=
  { fresh_mail 1 [] (fun _ _ => 0) with
    header_data := some header
    header_lines := lines
    header_match := hmatch
    header_match_value := match_value }

/-- Collaborators of the examples: the lookup context at address `p` asks for the
single field index `p`, the cache lookup always misses, no date parses. -/
def example_ext : collaborators :=
  collaborators.mk (fun _ => none) (fun _ => []) 1000 1001 (fun _ _ => []) (fun p => [p])
    (fun _ _ => (0, []))

/-- A header field of the registry with decision `d`, not forced. -/
def header_field (name : String) (d : mail_cache_decision_type) : mail_cache_field :=
  mail_cache_field.mk (cstr name) mail_cache_field_type.HEADER (mail_cache_decision.mk d false)

/-- A complete header line event (neither continued nor continuing). -/
def header_line (name value : String) : message_header_line :=
  message_header_line.mk (cstr name) (cstr value) (cstr value) false false false false

/-- The records in the transaction after a pass. -/
def pass_records : outcome index_mail → Option (List cache_record)
  | outcome.returned m => some m.cache_trans
  | outcome.assert_failed => none

/-- Two `Received` lines (field 2, line numbers 3 and 7, the bytes 0-12 and 23-35) with
a `Subject` line (field 3, line number 5) staged between them. -/
def received_mail : index_mail :=
  staged_mail (cstr "Received: a\nSubject: s\nReceived: b\n")
    [index_mail_line.mk 2 0 12 3 true, index_mail_line.mk 3 12 23 5 true,
      index_mail_line.mk 2 23 35 7 true]
    [0, 1, 1, 1] 1


/-- Collaborators whose cache lookup hits and materializes `bytes`. -/
def hit_ext (bytes : List Nat) : collaborators :=
  { example_ext with mail_cache_lookup_headers := fun _ _ => (1, bytes) }

/-- A sequence of `index_mail_parse_header_init` calls on one handle; each call is given
by the pointer to the requested context and by the value that `mail->wanted_headers`
has at that time. -/
def init_calls (ext : collaborators) : List (Option Nat × Option Nat) → index_mail → index_mail
  | [], mail => mail
  | call :: rest, mail =>
    init_calls ext rest
      (index_mail_parse_header_init ext { mail with wanted_headers := call.2 } call.1)

/-- The field indices of the lookup context behind a pointer, none for NULL. -/
def ctx_idx (ext : collaborators) : Option Nat → List Nat
  | none => []
  | some p => ext.lookup_ctx_idx p

/-- Collaborators whose cache lookup misses before the headers have been parsed and
fails afterwards. -/
def retry_error_ext : collaborators :=
  { example_ext with
    mail_cache_lookup_headers := fun m _ => if m.data.hdr_size_set then (-1, []) else (0, []) }

/-- The handle that a call of `index_mail_parse_headers` leaves behind. -/
def pass_mail : outcome (Int × index_mail) → index_mail → index_mail
  | outcome.returned r, _ => r.2
  | outcome.assert_failed, m => m


/-! ## Predicates on a pass -/

/-- The field `f` is wanted in the pass: its cell of the match bitmap holds the match
value (line 255-256 of `index_mail_parse_header`). -/
def field_wanted (mail : index_mail) (f : Nat) : Prop :=
  f < mail.header_match.length ∧ mail.header_match.getD f 0 = mail.header_match_value

/-- What a pass never changes, together with the staging area between two events:
`m2` has the registry, the cache view, the match bitmap, the message and the flag
`save_bodystructure_header` of `m1`. -/
def same_frame (m1 m2 : index_mail) : Prop :=
  m2.cache = m1.cache ∧ m2.cache_view = m1.cache_view ∧ m2.header_match = m1.header_match ∧
    m2.header_match_value = m1.header_match_value ∧ m2.data.seq = m1.data.seq ∧
    m2.header_lines_past = m1.header_lines_past ∧
    m2.data.save_bodystructure_header = m1.data.save_bodystructure_header

/-- The step from `m1` to `m2` keeps the staging lines, the registry, the cache view,
the message data and the transaction. -/
def init_keeps (m1 m2 : index_mail) : Prop :=
  m2.header_lines = m1.header_lines ∧ m2.cache = m1.cache ∧ m2.cache_view = m1.cache_view ∧
    m2.data = m1.data ∧ m2.header_lines_past = m1.header_lines_past ∧
    m2.cache_trans = m1.cache_trans


/-! ## index_header_lookup_init -/

/-- The lookup context, `struct index_header_lookup_ctx`. -/
structure index_header_lookup_ctx where
  count : Nat
  idx : List Nat
  name : List (List Nat)
deriving DecidableEq

/-- The libc call `qsort (sorted_headers, size, sizeof (*sorted_headers), strcasecmp_p)`,
modelled as an insertion sort: `a` stays before `b` when `strcasecmp` is not positive. -/
def qsort_names (names : List (List Nat)) : List (List Nat) :=
  names.insertionSort (fun a b => strcasecmp a b ≤ 0)

/-- Modelled from the spec: `mail_cache_register_fields`, which registers the fields in
turn and stores the index of each in its `idx`.  Returns the indices and the registry. -/
def mail_cache_register_fields :
    List mail_cache_field → List mail_cache_field → List Nat × List mail_cache_field
  | cache, [] => ([], cache)
  | cache, f :: fs =>
    ((mail_cache_register_field cache f).1 ::
        (mail_cache_register_fields (mail_cache_register_field cache f).2 fs).1,
      (mail_cache_register_fields (mail_cache_register_field cache f).2 fs).2)

/-- The template `header_field` of `index_header_lookup_init` with its name set to
`"hdr." + name`. -/
def header_template (name : List Nat) : mail_cache_field :=
  mail_cache_field.mk (cstr "hdr." ++ name) mail_cache_field_type.HEADER
    (mail_cache_decision.mk mail_cache_decision_type.TEMP false)

/-- The function `index_header_lookup_init` on the NULL-terminated array `headers`.
Returns the context, the registry, and the array of the caller after the call (the
sort works on the copy `sorted_headers`). -/
def index_header_lookup_init (cache : List mail_cache_field) (headers : List (List Nat)) :
    index_header_lookup_ctx × List mail_cache_field × List (List Nat) :=
  (index_header_lookup_ctx.mk
      ((if headers.length > 0 then qsort_names headers else headers).map header_template).length
      (mail_cache_register_fields cache
        ((if headers.length > 0 then qsort_names headers else headers).map header_template)).1
      (if headers.length > 0 then qsort_names headers else headers),
    (mail_cache_register_fields cache
      ((if headers.length > 0 then qsort_names headers else headers).map header_template)).2,
    headers)

/-! ## doveadm mailbox cache -/

/-- A field of the cache in the administration commands,
`struct mail_cache_field_private`: name, decision and last-used time of `field`, and
the flag `decision_dirty`. -/
structure mail_cache_field_private where
  name : List Nat
  decision : mail_cache_decision
  last_used : Int
  decision_dirty : Bool
deriving DecidableEq

/-- The command context, `struct mailbox_cache_cmd_context`, with the exit code of its
`struct doveadm_mail_cmd_context`. -/
structure mailbox_cache_cmd_context where
  exit_code : Nat
  boxes : List (List Nat)
  fields : Option (List (List Nat))
  last_used : Nat
  decision : mail_cache_decision
  all_fields : Bool
  set_decision : Bool
  set_last_used : Bool
  remove : Bool
deriving DecidableEq

/-- What the library functions used by the commands compute: `str_to_uint64` (`none`
for a failure), `p_strsplit_spaces (pool, optarg, ", ")`, `t_strflocaltime ("%F %T %Z",
t)` and `dec2str`. -/
structure doveadm_lib where
  str_to_uint64 : List Nat → Option Nat
  p_strsplit_spaces : List Nat → List (List Nat)
  t_strflocaltime : Int → List Nat
  dec2str : Nat → List Nat

/-- The exit code `EX_TEMPFAIL`. -/
def EX_TEMPFAIL : Nat := 75

/-- The function `cmd_mailbox_cache_parse_arg` for the option character `c` with the
argument `optarg`.  Returns the result and the context. -/
def cmd_mailbox_cache_parse_arg (lib : doveadm_lib) (ctx : mailbox_cache_cmd_context)
    (c : Char) (optarg : List Nat) : Bool × mailbox_cache_cmd_context :=
  if c = 'a' then (true, { ctx with all_fields := true })
  else if c = 'f' then (true, { ctx with fields := some (lib.p_strsplit_spaces optarg) })
  else if c = 'l' then
    match lib.str_to_uint64 optarg with
    | none => (false, ctx)
    | some n => (true, { ctx with last_used := n, set_last_used := true })
  else if c = 'd' then
    if ctx.set_decision then (false, ctx)
    else if optarg = cstr "no" then
      (true, { ctx with
        decision := mail_cache_decision.mk mail_cache_decision_type.NO false
        set_decision := true })
    else if optarg = cstr "temp" then
      (true, { ctx with
        decision := mail_cache_decision.mk mail_cache_decision_type.TEMP false
        set_decision := true })
    else if optarg = cstr "yes" then
      (true, { ctx with
        decision := mail_cache_decision.mk mail_cache_decision_type.YES false
        set_decision := true })
    else (false, ctx)
  else (false, ctx)

/-- The function `cmd_mailbox_cache_decision_to_str`. -/
def cmd_mailbox_cache_decision_to_str (decision : mail_cache_decision) : List Nat :=
  match decision.base with
  | mail_cache_decision_type.NO => cstr "no"
  | mail_cache_decision_type.TEMP => cstr "temp"
  | mail_cache_decision_type.YES => cstr "yes"

/-- The conversion `(time_t)x` of a `uint64_t`. -/
def time_cast (x : Nat) : Int :=
  if x % 18446744073709551616 < 9223372036854775808 then (x % 18446744073709551616 : Nat)
  else (x % 18446744073709551616 : Nat) - 18446744073709551616

/-- The function `cmd_mailbox_cache_decision_process_field`.  Returns the field and the
two cells it prints. -/
def cmd_mailbox_cache_decision_process_field (lib : doveadm_lib)
    (ctx : mailbox_cache_cmd_context) (field : mail_cache_field_private) :
    mail_cache_field_private × List (List Nat) :=
  let f1 :=
    if ctx.set_decision then { field with decision := ctx.decision, decision_dirty := true }
    else field
  let f2 :=
    if ctx.set_last_used then
      { f1 with last_used := time_cast ctx.last_used, decision_dirty := true }
    else f1
  (f2, [cmd_mailbox_cache_decision_to_str f2.decision, lib.t_strflocaltime f2.last_used])

/-- Modelled from the spec: `mail_cache_register_lookup` on the fields of the
administration commands; `UINT_MAX` when the name is not registered. -/
def admin_register_lookup : List mail_cache_field_private → List Nat → Nat
  | [], _ => UINT_MAX
  | f :: fs, name =>
    if f.name = name then 0
    else if admin_register_lookup fs name = UINT_MAX then UINT_MAX
    else admin_register_lookup fs name + 1

/-- The function `cmd_mailbox_cache_decision_run_per_field` on the names that are left
in `ctx->fields`.  Returns the fields of the cache and the printed cells. -/
def cmd_mailbox_cache_decision_run_per_field (lib : doveadm_lib)
    (ctx : mailbox_cache_cmd_context) :
    List (List Nat) → List mail_cache_field_private →
      List mail_cache_field_private × List (List Nat)
  | [], cache => (cache, [])
  | field_name :: rest, cache =>
    if admin_register_lookup cache field_name = UINT_MAX then
      ((cmd_mailbox_cache_decision_run_per_field lib ctx rest cache).1,
        field_name :: cstr "<not found>" :: [] ::
          (cmd_mailbox_cache_decision_run_per_field lib ctx rest cache).2)
    else
      match cache.get? (admin_register_lookup cache field_name) with
      | none =>
        ((cmd_mailbox_cache_decision_run_per_field lib ctx rest cache).1,
          field_name :: (cmd_mailbox_cache_decision_run_per_field lib ctx rest cache).2)
      | some field =>
        ((cmd_mailbox_cache_decision_run_per_field lib ctx rest
            (cache.set (admin_register_lookup cache field_name)
              (cmd_mailbox_cache_decision_process_field lib ctx field).1)).1,
          field_name :: (cmd_mailbox_cache_decision_process_field lib ctx field).2 ++
            (cmd_mailbox_cache_decision_run_per_field lib ctx rest
              (cache.set (admin_register_lookup cache field_name)
                (cmd_mailbox_cache_decision_process_field lib ctx field).1)).2)

/-- The function `cmd_mailbox_cache_decision_run_all_fields`.  Returns the fields of the
cache and the printed cells. -/
def cmd_mailbox_cache_decision_run_all_fields (lib : doveadm_lib)
    (ctx : mailbox_cache_cmd_context) :
    List mail_cache_field_private → List mail_cache_field_private × List (List Nat)
  | [] => ([], [])
  | field :: rest =>
    ((cmd_mailbox_cache_decision_process_field lib ctx field).1 ::
        (cmd_mailbox_cache_decision_run_all_fields lib ctx rest).1,
      field.name :: (cmd_mailbox_cache_decision_process_field lib ctx field).2 ++
        (cmd_mailbox_cache_decision_run_all_fields lib ctx rest).2)

/-- The processing of the fields of one mailbox, lines 196-199 of
`cmd_mailbox_cache_decision_run_box`. -/
def decision_process_fields (lib : doveadm_lib) (ctx : mailbox_cache_cmd_context)
    (cache : List mail_cache_field_private) :
    List mail_cache_field_private × List (List Nat) :=
  if ctx.all_fields then cmd_mailbox_cache_decision_run_all_fields lib ctx cache
  else cmd_mailbox_cache_decision_run_per_field lib ctx (ctx.fields.getD []) cache

/-- A mailbox as the commands see it: its name, whether `mailbox_open` and
`mailbox_sync` succeed, whether the cache opens and is usable, whether the transaction
commits, the exit code that `doveadm_mail_failed_mailbox` derives from its error, the
fields of its cache, and whether `mail_cache_header_fields_update` has been called. -/
structure admin_mailbox where
  vname : List Nat
  open_ok : Bool
  cache_ok : Bool
  commit_ok : Bool
  failed_code : Nat
  fields : List mail_cache_field_private
  header_updated : Bool
deriving DecidableEq

/-- The state of a run of the decision command: the return value so far, the context,
the printed cells and the mailboxes that were opened or tried, in order. -/
structure decision_run_state where
  ret : Int
  ctx : mailbox_cache_cmd_context
  printed : List (List Nat)
  visited : List admin_mailbox
deriving DecidableEq

/-- The function `cmd_mailbox_cache_decision_run_box` on an open mailbox.  Returns the
result, the context, the printed cells and the mailbox. -/
def cmd_mailbox_cache_decision_run_box (lib : doveadm_lib) (ctx : mailbox_cache_cmd_context)
    (box : admin_mailbox) : decision_run_state :=
  if box.cache_ok = false then
    decision_run_state.mk (-1) { ctx with exit_code := EX_TEMPFAIL } [] [box]
  else if box.commit_ok = false then
    decision_run_state.mk (-1) { ctx with exit_code := box.failed_code }
      (decision_process_fields lib ctx box.fields).2
      [{ box with
        fields := (decision_process_fields lib ctx box.fields).1
        header_updated := box.header_updated || ctx.set_decision || ctx.set_last_used }]
  else
    decision_run_state.mk 0 ctx (decision_process_fields lib ctx box.fields).2
      [{ box with
        fields := (decision_process_fields lib ctx box.fields).1
        header_updated := box.header_updated || ctx.set_decision || ctx.set_last_used }]

/-- The loop of `cmd_mailbox_cache_decision_run`, `for (boxname = ctx->boxes; ret == 0
&& *boxname != NULL; boxname++)`, over the mailboxes that the names stand for. -/
def decision_run_loop (lib : doveadm_lib) :
    List admin_mailbox → decision_run_state → decision_run_state
  | [], st => st
  | box :: rest, st =>
    if st.ret = 0 then
      if box.open_ok = false then
        { st with
          ret := -1
          ctx := { st.ctx with exit_code := box.failed_code }
          visited := st.visited ++ [box] }
      else
        decision_run_loop lib rest
          (decision_run_state.mk (cmd_mailbox_cache_decision_run_box lib st.ctx box).ret
            (cmd_mailbox_cache_decision_run_box lib st.ctx box).ctx
            (st.printed ++ box.vname :: (cmd_mailbox_cache_decision_run_box lib st.ctx box).printed)
            (st.visited ++ (cmd_mailbox_cache_decision_run_box lib st.ctx box).visited))
    else st

/-- The function `cmd_mailbox_cache_decision_run` on the mailboxes named by
`ctx->boxes`. -/
def cmd_mailbox_cache_decision_run (lib : doveadm_lib) (ctx : mailbox_cache_cmd_context)
    (boxes : List admin_mailbox) : decision_run_state :=
  decision_run_loop lib boxes (decision_run_state.mk 0 ctx [] [])

/-- A matched message: its uid and its sequence. -/
structure admin_mail where
  uid : Nat
  seq : Nat
deriving DecidableEq

/-- What a call of `cmd_mailbox_cache_remove_box` does: its result, the printed cells,
the sequences whose cache pointer extension is cleared in the index transaction, and
the arguments of the `mail_cache_expunge_count` calls. -/
structure remove_box_result where
  ret : Int
  printed : List (List Nat)
  ext_cleared : List Nat
  expunge_counts : List Int
deriving DecidableEq

/-- An addition of two `int`, wrapped into the range of `int`. -/
def int_add (a b : Int) : Int :=
  if (a + b) % 4294967296 < 2147483648 then (a + b) % 4294967296
  else (a + b) % 4294967296 - 4294967296

/-- The loop `while (doveadm_mail_iter_next (iter, &mail))` of
`cmd_mailbox_cache_remove_box`.  Returns `count`, the printed cells and the cleared
sequences. -/
def remove_box_loop (lib : doveadm_lib) (vname : List Nat) :
    List admin_mail → Int → List (List Nat) → List Nat → Int × List (List Nat) × List Nat
  | [], count, printed, cleared => (count, printed, cleared)
  | mail :: rest, count, printed, cleared =>
    remove_box_loop lib vname rest (int_add count 1)
      (printed ++ [vname, lib.dec2str mail.uid, cstr "ok"]) (cleared ++ [mail.seq])

/-- The function `cmd_mailbox_cache_remove_box`.  `iter` is `none` when
`doveadm_mail_iter_init` fails and holds the matched messages otherwise; `commit_ok`
and `deinit_ok` tell whether `mail_index_transaction_commit` and
`doveadm_mail_iter_deinit` succeed. -/
def cmd_mailbox_cache_remove_box (lib : doveadm_lib) (vname : List Nat)
    (iter : Option (List admin_mail)) (commit_ok deinit_ok : Bool) : remove_box_result :=
  match iter with
  | none => remove_box_result.mk (-1) [] [] []
  | some mails =>
    remove_box_result.mk
      (if deinit_ok = false then -1 else if commit_ok = false then -1 else 0)
      (remove_box_loop lib vname mails 0 [] []).2.1
      (remove_box_loop lib vname mails 0 [] []).2.2
      (if commit_ok = false then [] else [(remove_box_loop lib vname mails 0 [] []).1])

/-- A decimal printer for the examples. -/
def dec_digits : Nat → Nat → List Nat → List Nat
  | 0, _, acc => acc
  | fuel + 1, n, acc =>
    if n < 10 then (48 + n) :: acc else dec_digits fuel (n / 10) ((48 + n % 10) :: acc)

/-- Library functions for the examples: numbers are read and printed in decimal by
`dec_digits`, times are printed like numbers, nothing is split. -/
def example_lib : doveadm_lib :=
  doveadm_lib.mk (fun _ => none) (fun s => [s]) (fun t => dec_digits 20 t.toNat [])
    (fun n => dec_digits 20 n [])

/-- The staging line `parse_line` of the handle after an event. -/
def parsed_line : outcome (index_mail × Option message_header_line) → Option index_mail_line
  | outcome.returned r => some r.1.data.parse_line
  | outcome.assert_failed => none

/-- The cache flag of lines 239-247 for the field `field_idx`: the decision without its
FORCED flag is not NO, and the field does not exist yet for the message. -/
def cache_flag (mail : index_mail) (field_idx : Nat) : Bool :=
  if (mail_cache_field_get_decision mail.cache field_idx).base ≠ mail_cache_decision_type.NO then
    if mail.cache_view mail.data.seq field_idx > 0 then false else true
  else false

/-- A mailbox on which the decision command succeeds: it opens and syncs, its cache is
usable, and the transaction commits. -/
def box_ok (b : admin_mailbox) : Bool := b.open_ok && b.cache_ok && b.commit_ok

/-- A mailbox for the examples, without cache fields. -/
def example_box (vname : String) (open_ok cache_ok commit_ok : Bool) : admin_mailbox :=
  admin_mailbox.mk (cstr vname) open_ok cache_ok commit_ok 70 [] false

/-- A context of the decision command for the examples: all fields, nothing to set. -/
def example_ctx : mailbox_cache_cmd_context :=
  mailbox_cache_cmd_context.mk 0 [] none 0
    (mail_cache_decision.mk mail_cache_decision_type.NO false) true false false false


/-! ## Header line events -/

instance field_wanted_decidable (mail : index_mail) (f : Nat) : Decidable (field_wanted mail f) :=
  inferInstanceAs (Decidable (f < mail.header_match.length ∧
    mail.header_match.getD f 0 = mail.header_match_value))

/-- The field index that `parse_line` holds when the staging decision of lines 250-260
is taken: the answer of the registry for a first fragment, and what `parse_line` held
before for a continuation. -/
def event_field (h : message_header_line) (mail : index_mail) : Nat :=
  if h.continued = false then mail_cache_register_lookup mail.cache (cstr "hdr." ++ h.name)
  else mail.data.parse_line.field_idx

/-- The cache flag that `parse_line` holds when the staging decision is taken. -/
def event_cache (h : message_header_line) (mail : index_mail) : Bool :=
  if h.continued = false then cache_flag mail (event_field h mail)
  else mail.data.parse_line.cache

/-- The event is staged: its field is registered, and its cache flag is true or its
field is wanted. -/
def event_staged (h : message_header_line) (mail : index_mail) : Prop :=
  event_field h mail ≠ UINT_MAX ∧
    (event_cache h mail = true ∨ field_wanted mail (event_field h mail))

instance event_staged_decidable (h : message_header_line) (mail : index_mail) :
    Decidable (event_staged h mail) :=
  inferInstanceAs (Decidable (event_field h mail ≠ UINT_MAX ∧
    (event_cache h mail = true ∨ field_wanted mail (event_field h mail))))

/-- The bytes of a fragment in the staging buffer: the name and `": "` in front of a
first fragment, the value, and a newline unless the fragment is flagged `no_newline`. -/
def event_bytes (h : message_header_line) : List Nat :=
  (if h.continued = false then h.name ++ cstr ": " else []) ++ h.value ++
    (if h.no_newline = false then cstr "\n" else [])

/-- The staging line `parse_line` of a staged event numbered `num`, before its
`end_pos` is set: a first fragment starts at the end of the staging buffer and takes
the number of the event, a continuation keeps both. -/
def event_line (h : message_header_line) (mail : index_mail) (num : Nat) : index_mail_line :=
  index_mail_line.mk (event_field h mail)
    (if h.continued = false then header_data_len mail else mail.data.parse_line.start_pos)
    mail.data.parse_line.end_pos
    (if h.continued = false then num else mail.data.parse_line.line_num)
    (event_cache h mail)

/-- The calls of `index_mail_parse_header` that the header parser makes for a sequence
of header line events, before the end of the headers. -/
def parse_header_lines (ext : collaborators) (part : Bool) :
    List message_header_line → index_mail → outcome index_mail
  | [], mail => outcome.returned mail
  | h :: hs, mail =>
    match index_mail_parse_header ext part (some h) mail with
    | outcome.returned r => parse_header_lines ext part hs r.1
    | outcome.assert_failed => outcome.assert_failed

/-- The events of a header parser: an event is marked `continued` exactly when the
event before it `continues`; `prev` is the `continues` flag of the event before the
first. -/
def events_chained : Bool → List message_header_line → Bool
  | _, [] => true
  | prev, h :: hs => (h.continued == prev) && events_chained h.continues hs

/-- The fragments of a folded header after the first one: each is a continuation, and
all but the last continue. -/
def continuation_fragments : List message_header_line → Bool
  | [] => false
  | [h] => h.continued && !h.continues
  | h :: h2 :: hs => h.continued && h.continues && continuation_fragments (h2 :: hs)

/-- The fragments of one header: the first is not a continuation, and it continues
exactly when fragments follow. -/
def header_fragments (first : message_header_line) (rest : List message_header_line) : Bool :=
  !first.continued &&
    (if rest = [] then !first.continues else first.continues && continuation_fragments rest)

/-- The value bytes of a fragment in the staging buffer, with the newline unless the
fragment is flagged `no_newline`. -/
def fragment_bytes (h : message_header_line) : List Nat :=
  h.value ++ (if h.no_newline = false then cstr "\n" else [])

/-- The staging area of the handle after a sequence of events: `header_data` and
`header_lines`. -/
def staging_area : outcome index_mail → Option (Option (List Nat) × List index_mail_line)
  | outcome.returned m => some (m.header_data, m.header_lines)
  | outcome.assert_failed => none

/-- One fragment of a folded header: the event `name`, `value` with the two flags. -/
def fragment (name value : String) (continued continues : Bool) : message_header_line :=
  message_header_line.mk (cstr name) (cstr value) (cstr value) continues continued false false

/-! ## Mailbox names of the mbox storage -/

/-- The loop of lines 366-371 of `mbox_is_valid_mask` with `p` at the head of the list
and the flag `newdir`; the end of the list is the terminating NUL, so `p[1]` and `p[2]`
read 0 there. -/
def mbox_mask_loop : List Nat → Bool → Bool
  | [], _ => true
  | c :: rest, newdir =>
    if c = 0 then true
    else if newdir = true ∧ c = 46 ∧ rest.getD 0 0 = 46 ∧ rest.getD 1 0 = 47 then false
    else mbox_mask_loop rest (decide (c = 47))

/-- The function `mbox_is_valid_mask`; `full_fs_access` tells whether the storage has
the flag `MAIL_STORAGE_FLAG_FULL_FS_ACCESS`. -/
def mbox_is_valid_mask (full_fs_access : Bool) (mask : List Nat) : Bool :=
  if full_fs_access = true then true
  else if mask.getD 0 0 = 47 ∨ mask.getD 0 0 = 126 then false
  else mbox_mask_loop mask true

/-- The libc function `strlen`. -/
def strlen (s : List Nat) : Nat := (s.takeWhile (fun c => decide (c ≠ 0))).length

/-- The test `strchr (s, c) != NULL` for a byte `c` that is not NUL. -/
def strchr (s : List Nat) (c : Nat) : Bool := (s.takeWhile (fun b => decide (b ≠ 0))).contains c

/-- The function `mbox_is_valid_create_name`. -/
def mbox_is_valid_create_name (full_fs_access : Bool) (name : List Nat) : Bool :=
  if name.getD 0 0 = 0 ∨ name.getD (strlen name - 1) 0 = 47 ∨ strchr name 42 = true ∨
      strchr name 37 = true then false
  else mbox_is_valid_mask full_fs_access name

/-- The function `mbox_is_valid_existing_name`. -/
def mbox_is_valid_existing_name (full_fs_access : Bool) (name : List Nat) : Bool :=
  if name.getD 0 0 = 0 ∨ name.getD (strlen name - 1) 0 = 47 then false
  else mbox_is_valid_mask full_fs_access name

/-- The components of a path, the pieces between its `/` bytes. -/
def path_components : List Nat → List (List Nat)
  | [] => [[]]
  | c :: rest =>
    if c = 47 then [] :: path_components rest
    else
      match path_components rest with
      | [] => [[c]]
      | comp :: comps => (c :: comp) :: comps


/-! ## The value that a lookup returns, in the words of its description -/

/-- The value that `index_mail_parse_headers` returns, none when it stops in an
assertion. -/
def pass_ret : outcome (Int × index_mail) → Option Int
  | outcome.returned r => some r.1
  | outcome.assert_failed => none


/-! ## The sort -/

theorem header_line_cmp_le (a b : index_mail_line)
    (ha : a.field_idx < 2147483648 ∧ a.line_num < 2147483648)
    (hb : b.field_idx < 2147483648 ∧ b.line_num < 2147483648) :
    header_line_cmp a b ≤ 0 ↔ line_le a b := by
  unfold header_line_cmp int_sub int_cast line_le
  obtain ⟨ha1, ha2⟩ := ha
  obtain ⟨hb1, hb2⟩ := hb
  have e1 : a.field_idx % 4294967296 = a.field_idx := Nat.mod_eq_of_lt (by omega)
  have e2 : a.line_num % 4294967296 = a.line_num := Nat.mod_eq_of_lt (by omega)
  have e3 : b.field_idx % 4294967296 = b.field_idx := Nat.mod_eq_of_lt (by omega)
  have e4 : b.line_num % 4294967296 = b.line_num := Nat.mod_eq_of_lt (by omega)
  rw [e1, e2, e3, e4]
  simp only [ha1, ha2, hb1, hb2, if_true]
  split_ifs <;> omega

theorem orderedInsert_congr {α : Type} (r r' : α → α → Prop) [DecidableRel r] [DecidableRel r']
    (a : α) (l : List α) (h : ∀ b ∈ l, (r a b ↔ r' a b)) :
    l.orderedInsert r a = l.orderedInsert r' a := by
  induction l with
  | nil => rfl
  | cons b l ih =>
    have hb : r a b ↔ r' a b := h b (List.mem_cons_self b l)
    have ih' := ih (fun c hc => h c (List.mem_cons_of_mem b hc))
    by_cases hr : r a b
    · simp [List.orderedInsert, hr, hb.mp hr]
    · have hr' : ¬ r' a b := fun x => hr (hb.mpr x)
      simp [List.orderedInsert, hr, hr', ih']

theorem qsort_lines_eq (lines : List index_mail_line) (h : lines_in_range lines) :
    qsort_lines lines = lines.insertionSort line_le := by
  unfold qsort_lines
  induction lines with
  | nil => rfl
  | cons a l ih =>
    have hl : lines_in_range l := fun x hx => h x (List.mem_cons_of_mem a hx)
    rw [List.insertionSort, List.insertionSort, ih hl]
    apply orderedInsert_congr
    intro b hb
    have hb' : b ∈ l := (List.perm_insertionSort line_le l).mem_iff.mp hb
    exact header_line_cmp_le a b (h a (List.mem_cons_self a l)) (hl b hb')

theorem qsort_lines_perm (lines : List index_mail_line) : (qsort_lines lines).Perm lines :=
  List.perm_insertionSort _ lines

theorem line_le_total (a b : index_mail_line) : line_le a b ∨ line_le b a := by
  unfold line_le; omega

theorem line_le_trans (a b c : index_mail_line) (h1 : line_le a b) (h2 : line_le b c) :
    line_le a c := by
  unfold line_le at *; omega

theorem qsort_lines_sorted (lines : List index_mail_line) (h : lines_in_range lines) :
    (qsort_lines lines).Sorted line_le := by
  rw [qsort_lines_eq lines h]
  haveI : IsTotal index_mail_line line_le := ⟨line_le_total⟩
  haveI : IsTrans index_mail_line line_le := ⟨line_le_trans⟩
  exact List.sorted_insertionSort line_le lines

/-! ## The loops of finalize -/

theorem finish_missing_eq (hmatch : List Nat) (v seq f : Nat) :
    ∀ (fuel midx : Nat) (tx : List cache_record), min f hmatch.length - midx ≤ fuel →
      finish_missing hmatch v seq f fuel midx tx =
        (max midx (min f hmatch.length), tx ++ missing_records hmatch v seq f midx) := by
  intro fuel
  induction fuel with
  | zero =>
    intro midx tx h
    have h0 : min f hmatch.length - midx = 0 := by omega
    have h1 : max midx (min f hmatch.length) = midx := by omega
    simp [finish_missing, missing_records, h0, h1]
  | succ n ih =>
    intro midx tx h
    unfold finish_missing
    by_cases hc : midx < f ∧ midx < hmatch.length
    · rw [if_pos hc, ih (midx + 1) _ (by omega)]
      have e : min f hmatch.length - midx = (min f hmatch.length - (midx + 1)) + 1 := by omega
      have h1 : max (midx + 1) (min f hmatch.length) = max midx (min f hmatch.length) := by omega
      simp only [missing_records]
      rw [e, List.range'_succ, h1]
      by_cases hv : hmatch.getD midx 0 = v
      · have hp : (fun m => decide (hmatch.getD m 0 = v)) midx = true := decide_eq_true hv
        rw [if_pos hv]
        simp only [List.filter_cons]
        rw [if_pos hp]
        simp [mail_cache_add]
      · have hp : ¬ (fun m => decide (hmatch.getD m 0 = v)) midx = true := by
          intro hx
          exact hv (of_decide_eq_true hx)
        rw [if_neg hv]
        simp only [List.filter_cons]
        rw [if_neg hp]
    · rw [if_neg hc]
      have h0 : min f hmatch.length - midx = 0 := by omega
      have h1 : max midx (min f hmatch.length) = midx := by omega
      simp [missing_records, h0, h1]

theorem getD_eq_of_drop (s : List index_mail_line) (past x : index_mail_line)
    (rest : List index_mail_line) (j : Nat) (h : s.drop j = x :: rest) :
    s.getD j past = x ∧ s.drop (j + 1) = rest ∧ j < s.length := by
  have hj : j < s.length := by
    by_contra hc
    rw [List.drop_eq_nil_of_le (by omega)] at h
    exact List.noConfusion h
  rw [List.drop_eq_getElem_cons hj] at h
  injection h with h1 h2
  refine ⟨?_, h2, hj⟩
  rw [List.getD_eq_getElem _ _ hj]
  exact h1

theorem finish_scan_eq (s : List index_mail_line) (past : index_mail_line) (i : Nat) :
    ∀ (fuel j : Nat) (nc : Bool) (buf : List Nat), s.length - j ≤ fuel →
      finish_scan s past i fuel j nc buf =
        (j + ((s.drop j).takeWhile (fun x => x.field_idx = (s.getD i past).field_idx)).length,
          nc || noncontiguous_from (s.getD (j - 1) past)
            ((s.drop j).takeWhile (fun x => x.field_idx = (s.getD i past).field_idx)),
          buf ++ ((s.drop j).takeWhile
            (fun x => x.field_idx = (s.getD i past).field_idx)).flatMap
              (fun l => uint32_bytes l.line_num)) := by
  intro fuel
  induction fuel with
  | zero =>
    intro j nc buf h
    have hd : s.drop j = [] := List.drop_eq_nil_of_le (by omega)
    simp [finish_scan, hd, noncontiguous_from]
  | succ n ih =>
    intro j nc buf h
    unfold finish_scan
    by_cases hj : j < s.length
    · rw [if_pos hj]
      have hd : s.drop j = s[j] :: s.drop (j + 1) := List.drop_eq_getElem_cons hj
      have hg : s.getD j past = s[j] := List.getD_eq_getElem _ _ hj
      by_cases hf : (s.getD j past).field_idx ≠ (s.getD i past).field_idx
      · rw [if_pos hf]
        rw [hg] at hf
        have hp : ¬ (fun x : index_mail_line =>
            decide (x.field_idx = (s.getD i past).field_idx)) s[j] = true := by
          intro hx
          exact hf (of_decide_eq_true hx)
        rw [hd]
        simp only [List.takeWhile_cons]
        rw [if_neg hp]
        simp [noncontiguous_from]
      · rw [if_neg hf, ih (j + 1) _ _ (by omega)]
        rw [hg] at hf
        have hf' : s[j].field_idx = (s.getD i past).field_idx := by
          by_contra hc; exact hf hc
        have hp : (fun x : index_mail_line =>
            decide (x.field_idx = (s.getD i past).field_idx)) s[j] = true := decide_eq_true hf'
        rw [hd]
        simp only [List.takeWhile_cons]
        rw [if_pos hp]
        simp only [List.length_cons, List.flatMap_cons, noncontiguous_from, buffer_append,
          Nat.add_sub_cancel, hg, Bool.or_assoc, List.append_assoc]
        rw [Nat.add_assoc, Nat.add_comm 1]
    · rw [if_neg hj]
      have hd : s.drop j = [] := List.drop_eq_nil_of_le (by omega)
      simp [hd, noncontiguous_from]

theorem finish_copy_eq (s : List index_mail_line) (past : index_mail_line) (header : List Nat)
    (j : Nat) (hjs : j ≤ s.length) :
    ∀ (fuel i : Nat) (buf : List Nat), j - i ≤ fuel →
      finish_copy s past header j fuel i buf =
        (max i j, buf ++ ((s.drop i).take (j - i)).flatMap (line_bytes header)) := by
  intro fuel
  induction fuel with
  | zero =>
    intro i buf h
    have h0 : j - i = 0 := by omega
    have h1 : max i j = i := by omega
    simp [finish_copy, h0, h1]
  | succ n ih =>
    intro i buf h
    unfold finish_copy
    by_cases hi : i < j
    · rw [if_pos hi, ih (i + 1) _ (by omega)]
      have his : i < s.length := by omega
      have hd : s.drop i = s[i] :: s.drop (i + 1) := List.drop_eq_getElem_cons his
      have hg : s.getD i past = s[i] := List.getD_eq_getElem _ _ his
      have e : j - i = (j - (i + 1)) + 1 := by omega
      have h1 : max (i + 1) j = max i j := by omega
      rw [hd, e, List.take_succ_cons, h1, hg]
      simp [buffer_append, line_bytes]
    · rw [if_neg hi]
      have h0 : j - i = 0 := by omega
      have h1 : max i j = i := by omega
      simp [h0, h1]

theorem takeWhile_eq_take {α : Type} (p : α → Bool) (l : List α) :
    l.takeWhile p = l.take (l.takeWhile p).length := by
  induction l with
  | nil => rfl
  | cons a l ih =>
    by_cases h : p a = true
    · rw [List.takeWhile_cons_of_pos h, List.length_cons, List.take_succ_cons, ← ih]
    · rw [List.takeWhile_cons_of_neg h]
      rfl

theorem dropWhile_eq_drop {α : Type} (p : α → Bool) (l : List α) :
    l.dropWhile p = l.drop (l.takeWhile p).length := by
  induction l with
  | nil => rfl
  | cons a l ih =>
    by_cases h : p a = true
    · rw [List.dropWhile_cons_of_pos h, List.takeWhile_cons_of_pos h, List.length_cons,
        List.drop_succ_cons, ← ih]
    · rw [List.dropWhile_cons_of_neg h, List.takeWhile_cons_of_neg h]
      rfl

theorem takeWhile_length_le {α : Type} (p : α → Bool) (l : List α) :
    (l.takeWhile p).length ≤ l.length := by
  induction l with
  | nil => simp
  | cons a l ih =>
    by_cases h : p a = true
    · rw [List.takeWhile_cons_of_pos h]
      simp only [List.length_cons]
      omega
    · rw [List.takeWhile_cons_of_neg h]
      simp

theorem takeWhile_pos {α : Type} (p : α → Bool) (a : α) (l : List α) (h : p a = true) :
    (a :: l).takeWhile p = a :: l.takeWhile p := List.takeWhile_cons_of_pos h

theorem takeWhile_neg {α : Type} (p : α → Bool) (a : α) (l : List α) (h : ¬ p a = true) :
    (a :: l).takeWhile p = [] := List.takeWhile_cons_of_neg h

theorem dropWhile_pos {α : Type} (p : α → Bool) (a : α) (l : List α) (h : p a = true) :
    (a :: l).dropWhile p = l.dropWhile p := List.dropWhile_cons_of_pos h

theorem dropWhile_neg {α : Type} (p : α → Bool) (a : α) (l : List α) (h : ¬ p a = true) :
    (a :: l).dropWhile p = a :: l := List.dropWhile_cons_of_neg h

theorem filter_pos {α : Type} (p : α → Bool) (a : α) (l : List α) (h : p a = true) :
    (a :: l).filter p = a :: l.filter p := List.filter_cons_of_pos h

theorem filter_neg {α : Type} (p : α → Bool) (a : α) (l : List α) (h : ¬ p a = true) :
    (a :: l).filter p = l.filter p := List.filter_cons_of_neg h

theorem getElem?_eq_getLast?_take {α : Type} :
    ∀ (rest : List α) (x : α) (n : Nat), n ≤ rest.length →
      (x :: rest)[n]? = (x :: rest.take n).getLast? := by
  intro rest
  induction rest with
  | nil =>
    intro x n h
    have hn : n = 0 := by simpa using h
    subst hn
    rfl
  | cons y ys ih =>
    intro x n h
    cases n with
    | zero => rfl
    | succ m =>
      have hm : m ≤ ys.length := by simpa using h
      rw [List.getElem?_cons_succ, ih y m hm, List.take_succ_cons, List.getLast?_cons_cons]

theorem field_runs_cons (x : index_mail_line) (rest : List index_mail_line) :
    field_runs (x :: rest) =
      (x :: rest.takeWhile (fun y => y.field_idx = x.field_idx)) ::
        field_runs (rest.dropWhile (fun y => y.field_idx = x.field_idx)) := by
  induction rest generalizing x with
  | nil => rfl
  | cons y ys ih =>
    have e : field_runs (x :: y :: ys) =
        match field_runs (y :: ys) with
        | [] => [[x]]
        | run :: runs =>
          if run.head?.map index_mail_line.field_idx = some x.field_idx then (x :: run) :: runs
          else [x] :: run :: runs := rfl
    rw [e, ih y]
    by_cases h : y.field_idx = x.field_idx
    · have hp : (fun z : index_mail_line => decide (z.field_idx = x.field_idx)) y = true :=
        decide_eq_true h
      rw [takeWhile_pos _ y ys hp, dropWhile_pos _ y ys hp]
      simp only [List.head?_cons, Option.map_some', h, if_true]
    · have hp : ¬ (fun z : index_mail_line => decide (z.field_idx = x.field_idx)) y = true := by
        intro hx
        exact h (of_decide_eq_true hx)
      rw [takeWhile_neg _ y ys hp, dropWhile_neg _ y ys hp, ih y]
      have h' : ¬ (some y.field_idx = some x.field_idx) := by
        intro hx
        exact h (Option.some.inj hx)
      simp only [List.head?_cons, Option.map_some', h', if_false]

theorem first_field_field_runs (past : index_mail_line) (l : List index_mail_line) :
    first_field past (field_runs l) = (l.head?.getD past).field_idx := by
  cases l with
  | nil => rfl
  | cons x rest =>
    rw [field_runs_cons]
    rfl

theorem finish_run_eq (s : List index_mail_line) (past : index_mail_line) (header : List Nat)
    (i : Nat) (x : index_mail_line) (rest : List index_mail_line) (h : s.drop i = x :: rest) :
    finish_run s past header i =
      (i + 1 + (rest.takeWhile (fun y => y.field_idx = x.field_idx)).length,
        if run_noncontiguous (x :: rest.takeWhile (fun y => y.field_idx = x.field_idx)) then
          (s.getD (i + 1 + (rest.takeWhile (fun y => y.field_idx = x.field_idx)).length)
            past).field_idx
        else x.field_idx,
        run_payload header (x :: rest.takeWhile (fun y => y.field_idx = x.field_idx))) := by
  obtain ⟨hx, hrest, hi⟩ := getD_eq_of_drop s past x rest i h
  have hlen : rest.length = s.length - (i + 1) := by
    rw [← hrest, List.length_drop]
  have htl := takeWhile_length_le (fun y : index_mail_line => decide (y.field_idx = x.field_idx)) rest
  unfold finish_run
  simp only []
  rw [finish_scan_eq s past i s.length (i + 1) false _ (by omega)]
  simp only [Nat.add_sub_cancel, hx, hrest, Bool.false_or, buffer_append, List.nil_append]
  unfold finish_bytes
  by_cases hn : noncontiguous_from x (rest.takeWhile (fun y => y.field_idx = x.field_idx)) = true
  · rw [if_pos hn, finish_copy_eq s past header _ (by omega) _ _ _ (by omega)]
    have e1 : i + 1 + (rest.takeWhile (fun y => decide (y.field_idx = x.field_idx))).length - i =
        (rest.takeWhile (fun y => decide (y.field_idx = x.field_idx))).length + 1 := by omega
    have e2 : max i (i + 1 + (rest.takeWhile (fun y => decide (y.field_idx = x.field_idx))).length)
        = i + 1 + (rest.takeWhile (fun y => decide (y.field_idx = x.field_idx))).length := by omega
    rw [h, e1, List.take_succ_cons, ← takeWhile_eq_take, e2]
    simp only [run_noncontiguous, hn, if_true, run_payload, run_bytes, List.flatMap_cons,
      List.append_assoc, uint32_bytes, List.cons_append, List.nil_append]
  · rw [if_neg hn]
    have hn' : noncontiguous_from x (rest.takeWhile (fun y => y.field_idx = x.field_idx)) = false := by
      simpa using hn
    have e1 : i + 1 + (rest.takeWhile (fun y => decide (y.field_idx = x.field_idx))).length - 1 =
        i + (rest.takeWhile (fun y => decide (y.field_idx = x.field_idx))).length := by omega
    have e2 : s.getD (i + (rest.takeWhile (fun y => decide (y.field_idx = x.field_idx))).length) past
        = ((x :: rest.takeWhile (fun y => decide (y.field_idx = x.field_idx))).getLast?).getD x := by
      rw [List.getD_eq_getElem?_getD, ← List.getElem?_drop, h,
        getElem?_eq_getLast?_take rest x _ htl, ← takeWhile_eq_take]
      cases hl : (x :: rest.takeWhile (fun y => decide (y.field_idx = x.field_idx))).getLast? with
      | none => simp at hl
      | some z => rfl
    rw [e1, e2]
    simp only [run_noncontiguous, hn', run_payload, run_bytes, List.flatMap_cons,
      List.append_assoc, uint32_bytes, List.cons_append, List.nil_append, hx]
    simp [buffer_append]

theorem finish_loop_eq (s : List index_mail_line) (past : index_mail_line)
    (header hmatch : List Nat) (v seq : Nat) :
    ∀ (fuel i midx : Nat) (tx : List cache_record), s.length - i ≤ fuel →
      finish_loop s past header hmatch v seq fuel i midx tx =
        tx ++ finish_runs past header hmatch v seq (field_runs (s.drop i)) midx := by
  intro fuel
  induction fuel with
  | zero =>
    intro i midx tx h
    have hd : s.drop i = [] := List.drop_eq_nil_of_le (by omega)
    simp [finish_loop, hd, field_runs, finish_runs]
  | succ n ih =>
    intro i midx tx h
    unfold finish_loop
    by_cases hi : i < s.length
    · rw [if_pos hi]
      have hd : s.drop i = s[i] :: s.drop (i + 1) := List.drop_eq_getElem_cons hi
      have hg : s.getD i past = s[i] := List.getD_eq_getElem _ _ hi
      have htl := takeWhile_length_le
        (fun y : index_mail_line => decide (y.field_idx = s[i].field_idx)) (s.drop (i + 1))
      simp only []
      rw [finish_run_eq s past header i _ _ hd, finish_missing_eq _ _ _ _ _ _ _ (by omega)]
      simp only []
      have e1 : (s.drop (i + 1)).drop ((s.drop (i + 1)).takeWhile
            (fun y => decide (y.field_idx = s[i].field_idx))).length =
          s.drop (i + 1 + ((s.drop (i + 1)).takeWhile
            (fun y => decide (y.field_idx = s[i].field_idx))).length) := by
        rw [List.drop_drop]
      rw [ih _ _ _ (by omega), hd, field_runs_cons, dropWhile_eq_drop, e1]
      have e2 : (s.getD (i + 1 + ((s.drop (i + 1)).takeWhile
            (fun y => decide (y.field_idx = s[i].field_idx))).length) past).field_idx =
          first_field past (field_runs (s.drop (i + 1 + ((s.drop (i + 1)).takeWhile
            (fun y => decide (y.field_idx = s[i].field_idx))).length))) := by
        rw [first_field_field_runs, List.head?_drop, List.getD_eq_getElem?_getD]
      rw [e2, hg]
      simp only [finish_runs, first_field, mail_cache_add, run_noncontiguous, List.append_assoc,
        List.singleton_append, List.cons_append, List.nil_append]
    · rw [if_neg hi]
      have hd : s.drop i = [] := List.drop_eq_nil_of_le (by omega)
      simp [hd, field_runs, finish_runs]

theorem finish_cache_trans (mail : index_mail) :
    (index_mail_parse_header_finish mail).cache_trans = mail.cache_trans ++ finish_added mail := by
  unfold index_mail_parse_header_finish finish_added
  simp only []
  rw [finish_loop_eq _ _ _ _ _ _ _ 0 0 _ (by omega)]
  rfl

/-! ## Properties of the runs -/

theorem field_runs_step (l : index_mail_line) (ls : List index_mail_line) :
    field_runs (l :: ls) =
      match field_runs ls with
      | [] => [[l]]
      | run :: runs =>
        if run.head?.map index_mail_line.field_idx = some l.field_idx then (l :: run) :: runs
        else [l] :: run :: runs := rfl

theorem field_runs_flatten (s : List index_mail_line) : (field_runs s).flatten = s := by
  induction s with
  | nil => rfl
  | cons l ls ih =>
    rw [field_runs_step]
    cases h : field_runs ls with
    | nil =>
      rw [h] at ih
      simp only [List.flatten_nil] at ih
      simp [← ih]
    | cons run runs =>
      rw [h] at ih
      simp only [List.flatten_cons] at ih
      by_cases hc : run.head?.map index_mail_line.field_idx = some l.field_idx
      · simp only [hc, if_true, List.flatten_cons, List.cons_append, ih]
      · simp only [hc, if_false, List.flatten_cons, List.cons_append, List.nil_append, ih]

theorem field_runs_shape (s : List index_mail_line) :
    ∀ run ∈ field_runs s, ∃ x tl, run = x :: tl ∧ ∀ y ∈ tl, y.field_idx = x.field_idx := by
  induction s with
  | nil => intro run h; simp [field_runs] at h
  | cons l ls ih =>
    intro run hrun
    rw [field_runs_step] at hrun
    cases h : field_runs ls with
    | nil =>
      rw [h] at hrun
      simp only [List.mem_singleton] at hrun
      exact ⟨l, [], hrun, by simp⟩
    | cons r rs =>
      rw [h] at hrun ih
      obtain ⟨x, tl, hx, htl⟩ := ih r (List.mem_cons_self r rs)
      by_cases hc : r.head?.map index_mail_line.field_idx = some l.field_idx
      · simp only [hc, if_true, List.mem_cons] at hrun
        rcases hrun with hrun1 | hrun1
        · refine ⟨l, r, hrun1, ?_⟩
          subst hx
          simp only [List.head?_cons, Option.map_some', Option.some.injEq] at hc
          intro y hy
          rcases List.mem_cons.mp hy with hy1 | hy1
          · rw [hy1, hc]
          · rw [htl y hy1, hc]
        · exact ih run (List.mem_cons_of_mem r hrun1)
      · simp only [hc, if_false, List.mem_cons] at hrun
        rcases hrun with hrun1 | hrun1 | hrun1
        · exact ⟨l, [], hrun1, by simp⟩
        · exact ih run (by rw [hrun1]; exact List.mem_cons_self r rs)
        · exact ih run (List.mem_cons_of_mem r hrun1)

theorem field_runs_increasing (s : List index_mail_line)
    (hs : s.Pairwise (fun a b => a.field_idx ≤ b.field_idx)) :
    (field_runs s).Pairwise runs_lt := by
  induction s with
  | nil => simp [field_runs]
  | cons l ls ih =>
    rw [List.pairwise_cons] at hs
    obtain ⟨hl, hls⟩ := hs
    have ih' := ih hls
    have hshape := field_runs_shape ls
    have hflat := field_runs_flatten ls
    rw [field_runs_step]
    cases h : field_runs ls with
    | nil => simp
    | cons r rs =>
      rw [h] at ih' hshape hflat
      rw [List.pairwise_cons] at ih'
      obtain ⟨hr, hrs⟩ := ih'
      obtain ⟨x, tl, hx, htl⟩ := hshape r (List.mem_cons_self r rs)
      have hxls : x ∈ ls := by
        rw [← hflat, hx]
        simp
      by_cases hc : r.head?.map index_mail_line.field_idx = some l.field_idx
      · simp only [hc, if_true]
        rw [List.pairwise_cons]
        refine ⟨?_, hrs⟩
        intro r' hr' a ha b hb
        rcases List.mem_cons.mp ha with ha1 | ha1
        · subst hx
          simp only [List.head?_cons, Option.map_some', Option.some.injEq] at hc
          rw [ha1, ← hc]
          exact hr r' hr' x (List.mem_cons_self x tl) b hb
        · exact hr r' hr' a ha1 b hb
      · simp only [hc, if_false]
        have hne : x.field_idx ≠ l.field_idx := by
          intro he
          apply hc
          subst hx
          simp [he]
        have hlt : l.field_idx < x.field_idx := by
          have := hl x hxls
          omega
        rw [List.pairwise_cons]
        refine ⟨?_, List.pairwise_cons.mpr ⟨hr, hrs⟩⟩
        intro r' hr' a ha b hb
        have ha' : a = l := by simpa using ha
        rw [ha']
        rcases List.mem_cons.mp hr' with hr1 | hr1
        · rw [hr1, hx] at hb
          rcases List.mem_cons.mp hb with hb1 | hb1
          · rw [hb1]; exact hlt
          · rw [htl b hb1]; exact hlt
        · have := hr r' hr1 x (by rw [hx]; exact List.mem_cons_self x tl) b hb
          omega

theorem sorted_field_le (s : List index_mail_line) (hs : s.Sorted line_le) :
    s.Pairwise (fun a b => a.field_idx ≤ b.field_idx) := by
  apply List.Pairwise.imp _ hs
  intro a b h
  unfold line_le at h
  omega

/-! ## What finalize adds -/

theorem mem_missing_records (hmatch : List Nat) (v seq f midx : Nat) (r : cache_record) :
    r ∈ missing_records hmatch v seq f midx ↔
      ∃ m, midx ≤ m ∧ m < f ∧ m < hmatch.length ∧ hmatch.getD m 0 = v ∧
        r = cache_record.mk seq m [] := by
  unfold missing_records
  rw [List.mem_map]
  constructor
  · rintro ⟨m, hm, rfl⟩
    rw [List.mem_filter, List.mem_range'_1] at hm
    obtain ⟨⟨h1, h2⟩, h3⟩ := hm
    exact ⟨m, h1, by omega, by omega, of_decide_eq_true h3, rfl⟩
  · rintro ⟨m, h1, h2, h3, h4, rfl⟩
    refine ⟨m, ?_, rfl⟩
    rw [List.mem_filter, List.mem_range'_1]
    exact ⟨⟨h1, by omega⟩, decide_eq_true h4⟩

theorem run_payload_ne_nil (header : List Nat) (run : List index_mail_line) :
    run_payload header run ≠ [] := by
  intro h
  have hl := congrArg List.length h
  simp [run_payload, uint32_bytes] at hl

theorem slice_split (header : List Nat) (a b c : Nat) (hab : a ≤ b) (hbc : b ≤ c) :
    buffer_slice header a (c - a) =
      buffer_slice header a (b - a) ++ buffer_slice header b (c - b) := by
  unfold buffer_slice
  have e : c - a = (b - a) + (c - b) := by omega
  rw [e, List.take_add, List.drop_drop]
  have e2 : a + (b - a) = b := by omega
  rw [e2]

theorem contiguous_bytes (header : List Nat) :
    ∀ (tl : List index_mail_line) (x : index_mail_line), noncontiguous_from x tl = false →
      (∀ l ∈ x :: tl, l.start_pos ≤ l.end_pos) →
      x.start_pos ≤ (((x :: tl).getLast?).getD x).end_pos ∧
        buffer_slice header x.start_pos ((((x :: tl).getLast?).getD x).end_pos - x.start_pos) =
          (x :: tl).flatMap (line_bytes header) := by
  intro tl
  induction tl with
  | nil =>
    intro x _ hv
    have := hv x (List.mem_cons_self x [])
    simp [line_bytes, this]
  | cons y ys ih =>
    intro x hn hv
    simp only [noncontiguous_from, Bool.or_eq_false_iff, decide_eq_false_iff_not, ne_eq,
      not_not] at hn
    obtain ⟨hxy, hn'⟩ := hn
    have hvy : ∀ l ∈ y :: ys, l.start_pos ≤ l.end_pos :=
      fun l hl => hv l (List.mem_cons_of_mem x hl)
    obtain ⟨h1, h2⟩ := ih y hn' hvy
    have hx := hv x (List.mem_cons_self x _)
    have hlast : ((x :: y :: ys).getLast?).getD x = ((y :: ys).getLast?).getD y := by
      rw [List.getLast?_cons_cons]
      cases hl : (y :: ys).getLast? with
      | none => simp at hl
      | some z => rfl
    rw [hlast]
    refine ⟨by omega, ?_⟩
    rw [slice_split header x.start_pos x.end_pos _ hx (by omega), List.flatMap_cons, ← h2, hxy]
    rfl

theorem run_bytes_eq (header : List Nat) (run : List index_mail_line)
    (hv : ∀ l ∈ run, l.start_pos ≤ l.end_pos) :
    run_bytes header run = run.flatMap (line_bytes header) := by
  cases run with
  | nil => rfl
  | cons x tl =>
    unfold run_bytes
    by_cases hn : noncontiguous_from x tl = true
    · simp only [hn, if_true]
    · have hn' : noncontiguous_from x tl = false := by simpa using hn
      simp only [hn', Bool.false_eq_true, if_false]
      exact (contiguous_bytes header tl x hn' hv).2

theorem finish_runs_payloads (past : index_mail_line) (header hmatch : List Nat) (v seq : Nat) :
    ∀ (runs : List (List index_mail_line)) (midx : Nat),
      ((finish_runs past header hmatch v seq runs midx).filter (fun r => decide (r.data ≠ []))).map
          cache_record.data = runs.map (run_payload header) := by
  intro runs
  induction runs with
  | nil => intro midx; rfl
  | cons run runs ih =>
    intro midx
    have hneg : (missing_records hmatch v seq (first_field past (run :: runs)) midx).filter
        (fun r => decide (r.data ≠ [])) = [] := by
      rw [List.filter_eq_nil_iff]
      intro r hr
      obtain ⟨m, _, _, _, _, rfl⟩ := (mem_missing_records _ _ _ _ _ r).mp hr
      simp
    have hpos : (fun r : cache_record => decide (r.data ≠ []))
        (cache_record.mk seq
          (if run_noncontiguous run then first_field past runs else first_field past (run :: runs))
          (run_payload header run)) = true := by
      simpa using run_payload_ne_nil header run
    simp only [finish_runs]
    rw [List.filter_append, hneg, List.nil_append, filter_pos (fun r : cache_record => decide (r.data ≠ [])) _ _ hpos, List.map_cons,
      ih, List.map_cons]

theorem finish_runs_negative (past : index_mail_line) (header hmatch : List Nat) (v seq : Nat) :
    ∀ (runs : List (List index_mail_line)) (midx : Nat), runs.Pairwise runs_lt →
      (∀ run ∈ runs, ∃ x tl, run = x :: tl ∧ ∀ y ∈ tl, y.field_idx = x.field_idx) →
      ∀ r ∈ finish_runs past header hmatch v seq runs midx, r.data = [] →
        midx ≤ r.field ∧ r.field < hmatch.length ∧ hmatch.getD r.field 0 = v ∧
          ∀ run ∈ runs, ∀ l ∈ run, l.field_idx ≠ r.field := by
  intro runs
  induction runs with
  | nil => intro midx _ _ r hr; simp [finish_runs] at hr
  | cons run runs ih =>
    intro midx hp hshape r hr hdata
    rw [List.pairwise_cons] at hp
    obtain ⟨hlt, hp'⟩ := hp
    obtain ⟨x, tl, hx, htl⟩ := hshape run (List.mem_cons_self run runs)
    have hfield : ∀ l ∈ run, l.field_idx = x.field_idx := by
      intro l hl
      rw [hx] at hl
      rcases List.mem_cons.mp hl with h1 | h1
      · rw [h1]
      · exact htl l h1
    have hxrun : x ∈ run := by rw [hx]; exact List.mem_cons_self x tl
    have hff : first_field past (run :: runs) = x.field_idx := by rw [hx]; rfl
    simp only [finish_runs, List.mem_append, List.mem_cons] at hr
    rw [hff] at hr
    rcases hr with hr1 | hr1 | hr1
    · obtain ⟨m, h1, h2, h3, h4, rfl⟩ := (mem_missing_records _ _ _ _ _ r).mp hr1
      refine ⟨h1, h3, h4, ?_⟩
      intro run' hrun' l hl
      simp only
      rcases List.mem_cons.mp hrun' with h5 | h5
      · rw [h5] at hl
        rw [hfield l hl]
        omega
      · have := hlt run' h5 x hxrun l hl
        omega
    · rw [hr1] at hdata
      exact absurd hdata (run_payload_ne_nil header run)
    · obtain ⟨h1, h2, h3, h4⟩ := ih _ hp'
        (fun run' hrun' => hshape run' (List.mem_cons_of_mem run hrun')) r hr1 hdata
      refine ⟨by omega, h2, h3, ?_⟩
      intro run' hrun' l hl
      rcases List.mem_cons.mp hrun' with h5 | h5
      · rw [h5] at hl
        rw [hfield l hl]
        omega
      · exact h4 run' h5 l hl

/-! ## Claims on finalize -/

/-- C5: for every run of sorted staging lines that share a field index, the payload
that finalize hands to `mail_cache_add` is the line numbers of the run in ascending
order, four little-endian bytes each, then four zero bytes, then the header bytes of
the lines of the run; the runs partition the sorted lines, which are the staged lines
reordered.  Assumes that every line has `start_pos ≤ end_pos` and that field indices
and line numbers fit into the `int` of `header_line_cmp`. -/
theorem finish_payload_layout (mail : index_mail)
    (hv : ∀ l ∈ mail.header_lines, l.start_pos ≤ l.end_pos)
    (hr : lines_in_range mail.header_lines) :
    ∃ added, (index_mail_parse_header_finish mail).cache_trans = mail.cache_trans ++ added ∧
      (added.filter (fun r => decide (r.data ≠ []))).map cache_record.data =
        (field_runs (qsort_lines mail.header_lines)).map (fun run =>
          run.flatMap (fun l => uint32_bytes l.line_num) ++ uint32_bytes 0 ++
            run.flatMap (line_bytes (mail.header_data.getD []))) ∧
      (field_runs (qsort_lines mail.header_lines)).flatten = qsort_lines mail.header_lines ∧
      (qsort_lines mail.header_lines).Perm mail.header_lines ∧
      ∀ run ∈ field_runs (qsort_lines mail.header_lines),
        (run.map index_mail_line.line_num).Sorted (fun a b => a ≤ b) := by
  refine ⟨finish_added mail, finish_cache_trans mail, ?_, field_runs_flatten _,
    qsort_lines_perm _, ?_⟩
  · unfold finish_added
    rw [finish_runs_payloads]
    apply List.map_congr_left
    intro run hrun
    have hsub : run.Sublist (qsort_lines mail.header_lines) := by
      have := List.sublist_flatten_of_mem hrun
      rwa [field_runs_flatten] at this
    have hvr : ∀ l ∈ run, l.start_pos ≤ l.end_pos := fun l hl =>
      hv l ((qsort_lines_perm mail.header_lines).mem_iff.mp (hsub.subset hl))
    unfold run_payload
    rw [run_bytes_eq _ run hvr]
  · intro run hrun
    have hsub : run.Sublist (qsort_lines mail.header_lines) := by
      have := List.sublist_flatten_of_mem hrun
      rwa [field_runs_flatten] at this
    have hsorted : run.Pairwise line_le := (qsort_lines_sorted _ hr).sublist hsub
    obtain ⟨x, tl, hx, htl⟩ := field_runs_shape _ run hrun
    have hfield : ∀ l ∈ run, l.field_idx = x.field_idx := by
      intro l hl
      rw [hx] at hl
      rcases List.mem_cons.mp hl with h1 | h1
      · rw [h1]
      · exact htl l h1
    unfold List.Sorted
    rw [List.pairwise_map]
    apply List.Pairwise.imp_of_mem _ hsorted
    intro a b ha hb hab
    unfold line_le at hab
    have h1 := hfield a ha
    have h2 := hfield b hb
    omega

/-- C5, witness: the two `Received` lines numbered 3 and 7 of `received_mail` give one
payload whose line number part is 3, 7, 0. -/
theorem finish_payload_layout_witness :
    (∀ l ∈ received_mail.header_lines, l.start_pos ≤ l.end_pos) ∧
    lines_in_range received_mail.header_lines ∧
    (∃ added, (index_mail_parse_header_finish received_mail).cache_trans =
        received_mail.cache_trans ++ added ∧
      (added.filter (fun r => decide (r.data ≠ []))).map cache_record.data =
        (field_runs (qsort_lines received_mail.header_lines)).map (fun run =>
          run.flatMap (fun l => uint32_bytes l.line_num) ++ uint32_bytes 0 ++
            run.flatMap (line_bytes (received_mail.header_data.getD []))) ∧
      (field_runs (qsort_lines received_mail.header_lines)).flatten =
        qsort_lines received_mail.header_lines ∧
      (qsort_lines received_mail.header_lines).Perm received_mail.header_lines ∧
      ∀ run ∈ field_runs (qsort_lines received_mail.header_lines),
        (run.map index_mail_line.line_num).Sorted (fun a b => a ≤ b)) ∧
    (index_mail_parse_header_finish received_mail).cache_trans.map cache_record.data =
      [[], uint32_bytes 3 ++ uint32_bytes 7 ++ uint32_bytes 0 ++ cstr "Received: a\nReceived: b\n",
        uint32_bytes 5 ++ uint32_bytes 0 ++ cstr "Subject: s\n"] :=
  ⟨by decide, by unfold lines_in_range; decide,
    finish_payload_layout received_mail (by decide) (by unfold lines_in_range; decide),
    by decide⟩

/-- C6: every negative (empty payload) record that finalize adds has a field index
that is marked in the match bitmap with the current match value and that no staging
line carries.  Assumes that field indices and line numbers fit into the `int` of
`header_line_cmp`. -/
theorem negative_records_wanted_unobserved (mail : index_mail)
    (hr : lines_in_range mail.header_lines) :
    ∃ added, (index_mail_parse_header_finish mail).cache_trans = mail.cache_trans ++ added ∧
      ∀ r ∈ added, r.data = [] →
        r.field < mail.header_match.length ∧
        mail.header_match.getD r.field 0 = mail.header_match_value ∧
        ∀ l ∈ mail.header_lines, l.field_idx ≠ r.field := by
  refine ⟨finish_added mail, finish_cache_trans mail, ?_⟩
  intro r hradd hdata
  have hp := field_runs_increasing _ (sorted_field_le _ (qsort_lines_sorted _ hr))
  obtain ⟨_, h2, h3, h4⟩ := finish_runs_negative _ _ _ _ _ _ 0 hp (field_runs_shape _) r hradd hdata
  refine ⟨h2, h3, ?_⟩
  intro l hl
  have hl' : l ∈ (field_runs (qsort_lines mail.header_lines)).flatten := by
    rw [field_runs_flatten]
    exact (qsort_lines_perm mail.header_lines).mem_iff.mpr hl
  obtain ⟨run, hrun, hlrun⟩ := List.mem_flatten.mp hl'
  exact h4 run hrun l hlrun

/-- C6, witness: in `received_mail` the bitmap marks the fields 1, 2 and 3 and the
lines carry the fields 2 and 3; the one negative record goes to field 1. -/
theorem negative_records_wanted_unobserved_witness :
    lines_in_range received_mail.header_lines ∧
    (∃ added, (index_mail_parse_header_finish received_mail).cache_trans =
        received_mail.cache_trans ++ added ∧
      ∀ r ∈ added, r.data = [] →
        r.field < received_mail.header_match.length ∧
        received_mail.header_match.getD r.field 0 = received_mail.header_match_value ∧
        ∀ l ∈ received_mail.header_lines, l.field_idx ≠ r.field) ∧
    (index_mail_parse_header_finish received_mail).cache_trans.filter
        (fun r => decide (r.data = [])) = [cache_record.mk 1 1 []] :=
  ⟨by unfold lines_in_range; decide,
    negative_records_wanted_unobserved received_mail (by unfold lines_in_range; decide),
    by decide⟩

/-! ## index_mail_get_header -/

theorem getD_at {α : Type} (done rest : List α) (x d : α) :
    (done ++ x :: rest).getD done.length d = x := by
  induction done with
  | nil => rfl
  | cons a l ih =>
    rw [List.cons_append, List.length_cons, List.getD_cons_succ]
    exact ih

theorem get_header_skip_colon (data : List Nat) (rest : List Nat) :
    ∀ (pre done : List Nat) (fuel : Nat), data = done ++ pre ++ 58 :: rest → 58 ∉ pre →
      pre.length < fuel →
      get_header_skip data fuel done.length =
        if rest = [] then done.length + pre.length
        else if rest.head? = some 32 then done.length + pre.length + 2
        else done.length + pre.length + 1 := by
  intro pre
  induction pre with
  | nil =>
    intro done fuel hd _ hf
    obtain ⟨n, rfl⟩ : ∃ n, fuel = n + 1 := ⟨fuel - 1, by omega⟩
    simp only [List.append_nil] at hd
    have hlen : data.length = done.length + 1 + rest.length := by
      rw [hd]; simp; omega
    have h58 : data.getD done.length 0 = 58 := by rw [hd]; exact getD_at done rest 58 0
    unfold get_header_skip
    rw [if_pos (by omega), if_pos h58]
    cases rest with
    | nil =>
      have : ¬ (done.length + 1 ≠ data.length) := by simp at hlen; omega
      simp [this]
    | cons y ys =>
      have h1 : done.length + 1 ≠ data.length := by simp at hlen; omega
      have hy : data.getD (done.length + 1) 0 = y := by
        have := getD_at (done ++ [58]) ys y 0
        simp only [List.length_append, List.length_singleton, List.append_assoc,
          List.singleton_append] at this
        rw [hd]; exact this
      rw [if_pos h1, hy]
      by_cases h32 : y = 32
      · simp [h32]
      · simp [h32]
  | cons a pre ih =>
    intro done fuel hd hno hf
    obtain ⟨n, rfl⟩ : ∃ n, fuel = n + 1 := ⟨fuel - 1, by omega⟩
    have ha : a ≠ 58 := fun h => hno (by rw [h]; exact List.mem_cons_self 58 pre)
    have hno' : 58 ∉ pre := fun h => hno (List.mem_cons_of_mem a h)
    have hd' : data = (done ++ [a]) ++ pre ++ 58 :: rest := by rw [hd]; simp
    have hlen : done.length < data.length := by rw [hd]; simp
    have hget : data.getD done.length 0 = a := by
      rw [hd, List.append_assoc]; exact getD_at done _ a 0
    have := ih (done ++ [a]) n hd' hno' (by simp at hf; omega)
    simp only [List.length_append, List.length_singleton] at this
    unfold get_header_skip
    rw [if_pos hlen, hget, if_neg ha, this]
    simp only [List.length_cons]
    split_ifs <;> omega

theorem get_header_cut_newline (data : List Nat) (rest : List Nat)
    (hrest : rest = [] ∨ (rest.head? ≠ some 32 ∧ rest.head? ≠ some 9)) :
    ∀ (v done : List Nat) (fuel : Nat), data = done ++ v ++ 10 :: rest → 10 ∉ v →
      v.length < fuel →
      get_header_cut data fuel done.length = done.length + v.length := by
  intro v
  induction v with
  | nil =>
    intro done fuel hd _ hf
    obtain ⟨n, rfl⟩ : ∃ n, fuel = n + 1 := ⟨fuel - 1, by omega⟩
    simp only [List.append_nil] at hd
    have hlen : data.length = done.length + 1 + rest.length := by
      rw [hd]; simp; omega
    have h10 : data.getD done.length 0 = 10 := by rw [hd]; exact getD_at done rest 10 0
    unfold get_header_cut
    rw [if_pos (by omega), if_pos h10]
    cases rest with
    | nil =>
      have : done.length + 1 = data.length := by simp at hlen; omega
      simp [this]
    | cons y ys =>
      have hy : data.getD (done.length + 1) 0 = y := by
        have := getD_at (done ++ [10]) ys y 0
        simp only [List.length_append, List.length_singleton, List.append_assoc,
          List.singleton_append] at this
        rw [hd]; exact this
      rcases hrest with h | ⟨h1, h2⟩
      · exact absurd h (List.cons_ne_nil y ys)
      · simp only [List.head?_cons, ne_eq, Option.some.injEq] at h1 h2
        rw [hy, if_pos (Or.inr ⟨h1, h2⟩)]
        simp
  | cons a v ih =>
    intro done fuel hd hno hf
    obtain ⟨n, rfl⟩ : ∃ n, fuel = n + 1 := ⟨fuel - 1, by omega⟩
    have ha : a ≠ 10 := fun h => hno (by rw [h]; exact List.mem_cons_self 10 v)
    have hno' : 10 ∉ v := fun h => hno (List.mem_cons_of_mem a h)
    have hd' : data = (done ++ [a]) ++ v ++ 10 :: rest := by rw [hd]; simp
    have hlen : done.length < data.length := by rw [hd]; simp
    have hget : data.getD done.length 0 = a := by
      rw [hd, List.append_assoc]; exact getD_at done _ a 0
    have := ih (done ++ [a]) n hd' hno' (by simp at hf; omega)
    simp only [List.length_append, List.length_singleton] at this
    unfold get_header_cut
    rw [if_pos hlen, hget, if_neg ha, this]
    simp only [List.length_cons]
    omega

theorem get_header_value_single (name v : List Nat) (hname : 58 ∉ name) (hv : 10 ∉ v) :
    get_header_value (name ++ cstr ": " ++ v ++ cstr "\n") = v := by
  have e : name ++ cstr ": " ++ v ++ cstr "\n" = name ++ 58 :: 32 :: (v ++ [10]) := by
    simp [cstr]
  rw [e]
  have hlen : (name ++ 58 :: 32 :: (v ++ [10])).length = name.length + v.length + 3 := by
    simp
    omega
  have hskip : get_header_skip (name ++ 58 :: 32 :: (v ++ [10])) (name.length + v.length + 3) 0
      = name.length + 2 := by
    have := get_header_skip_colon (name ++ 58 :: 32 :: (v ++ [10])) (32 :: (v ++ [10])) name []
      (name.length + v.length + 3) (by simp) hname (by omega)
    simpa using this
  have hcut : get_header_cut (name ++ 58 :: 32 :: (v ++ [10])) (name.length + v.length + 3)
      (name.length + 2) = name.length + 2 + v.length := by
    have := get_header_cut_newline (name ++ 58 :: 32 :: (v ++ [10])) [] (Or.inl rfl) v
      (name ++ [58, 32]) (name.length + v.length + 3) (by simp) hv (by omega)
    simpa using this
  unfold get_header_value
  rw [hlen, hskip, hcut]
  have e2 : name ++ 58 :: 32 :: (v ++ [10]) = ((name ++ [58, 32]) ++ v) ++ [10] := by simp
  rw [e2, List.take_left' (by simp; omega), List.drop_left' (by simp)]

/-- C7: when the cache lookup hits and materializes the bytes `H: v\n`, where `H` has no
colon and `v` has no newline, `index_mail_get_header` returns exactly `v`. -/
theorem get_header_round_trip (ext : collaborators) (get_stream : Option (List message_header_line))
    (part : Bool) (mail : index_mail) (H v : List Nat) (ret : Int)
    (hH : 58 ∉ H) (hv : 10 ∉ v) (hret : 0 < ret)
    (hit : ext.mail_cache_lookup_headers (get_header_mail mail H)
      [(get_header_field_idx mail.cache H).1] = (ret, H ++ cstr ": " ++ v ++ cstr "\n")) :
    index_mail_get_header ext get_stream part mail H = outcome.returned (some v) := by
  unfold index_mail_get_header
  rw [hit]
  have h : ¬ ret ≤ 0 := by omega
  simp only [h, if_false]
  rw [get_header_value_single H v hH hv]

/-- C7, witness: the header `Subject: hello` comes back as `hello`. -/
theorem get_header_round_trip_witness :
    58 ∉ cstr "Subject" ∧ 10 ∉ cstr "hello" ∧
    index_mail_get_header (hit_ext (cstr "Subject: hello\n")) none false
      (fresh_mail 1 [] (fun _ _ => 0)) (cstr "Subject") = outcome.returned (some (cstr "hello")) :=
  ⟨by decide, by decide,
    get_header_round_trip (hit_ext (cstr "Subject: hello\n")) none false
      (fresh_mail 1 [] (fun _ _ => 0)) (cstr "Subject") (cstr "hello") 1
      (by decide) (by decide) (by decide) rfl⟩

/-- When the cached bytes end with their first colon, as in `H:` (bytes that the staging
code does not write, since it puts `": "` after the name), the returned string starts
at the colon.  A colon that is followed by a byte is skipped, and a folded value keeps
its fold. -/
theorem get_header_keeps_final_colon :
    index_mail_get_header (hit_ext (cstr "H:")) none false (fresh_mail 1 [] (fun _ _ => 0))
      (cstr "H") = outcome.returned (some (cstr ":")) ∧
    index_mail_get_header (hit_ext (cstr "H:x")) none false (fresh_mail 1 [] (fun _ _ => 0))
      (cstr "H") = outcome.returned (some (cstr "x")) ∧
    index_mail_get_header (hit_ext (cstr "Subject: foo\n bar\n")) none false
      (fresh_mail 1 [] (fun _ _ => 0)) (cstr "Subject")
      = outcome.returned (some (cstr "foo\n bar")) := by
  decide

/-- C9 (the code at the failing inputs): the cache lookup misses every time.  When
the message stream cannot be obtained, `index_mail_parse_headers` returns FALSE, which
is 0 and not below 0, so the test of line 384 does not see the failure, the lookup is
retried, and the second miss stops the call in `i_assert (ret != 0)`.  When the stream
is obtained (a message without header lines) the pass returns TRUE and the second miss
stops the call in the same assertion.  NULL is returned in neither case. -/
theorem get_header_second_miss_asserts :
    pass_ret (index_mail_parse_headers example_ext none false
      (get_header_mail (fresh_mail 1 [] (fun _ _ => 0)) (cstr "Subject"))) = some 0 ∧
    index_mail_get_header example_ext none false (fresh_mail 1 [] (fun _ _ => 0))
      (cstr "Subject") = outcome.assert_failed ∧
    pass_ret (index_mail_parse_headers example_ext (some []) false
      (get_header_mail (fresh_mail 1 [] (fun _ _ => 0)) (cstr "Subject"))) = some 1 ∧
    index_mail_get_header example_ext (some []) false (fresh_mail 1 [] (fun _ _ => 0))
      (cstr "Subject") = outcome.assert_failed := by
  decide

/-- The retry of `index_mail_get_header`: when the first cache lookup does not hit and
the pass over the headers has run and returned TRUE, the call returns NULL if the
second lookup fails (`ret < 0`) and stops in `i_assert (ret != 0)` if it misses again
(`ret == 0`). -/
theorem get_header_retry (ext : collaborators) (get_stream : Option (List message_header_line))
    (part : Bool) (mail m' : index_mail) (field : List Nat)
    (hmiss : (ext.mail_cache_lookup_headers (get_header_mail mail field)
      [(get_header_field_idx mail.cache field).1]).1 ≤ 0)
    (hpass : index_mail_parse_headers ext get_stream part (get_header_mail mail field) =
      outcome.returned (1, m')) :
    ((ext.mail_cache_lookup_headers m' [(get_header_field_idx mail.cache field).1]).1 < 0 →
      index_mail_get_header ext get_stream part mail field = outcome.returned none) ∧
    ((ext.mail_cache_lookup_headers m' [(get_header_field_idx mail.cache field).1]).1 = 0 →
      index_mail_get_header ext get_stream part mail field = outcome.assert_failed) := by
  unfold index_mail_get_header
  rw [if_pos hmiss, hpass]
  simp only
  constructor
  · intro h
    have h1 : ¬ ((1 : Int) < 0) := by omega
    have h2 : ¬ ((ext.mail_cache_lookup_headers m'
      [(get_header_field_idx mail.cache field).1]).1 = 0) := by omega
    rw [if_neg h1, if_neg h2, if_pos h]
  · intro h
    have h1 : ¬ ((1 : Int) < 0) := by omega
    rw [if_neg h1, if_pos h]

/-- An example of the retry: the first lookup misses, the stream is obtained, the second
lookup fails, and NULL is returned. -/
theorem get_header_retry_witness :
    (retry_error_ext.mail_cache_lookup_headers
      (get_header_mail (fresh_mail 1 [] (fun _ _ => 0)) (cstr "Subject"))
      [(get_header_field_idx (fresh_mail 1 [] (fun _ _ => 0)).cache (cstr "Subject")).1]).1 ≤ 0 ∧
    index_mail_parse_headers retry_error_ext (some []) false
      (get_header_mail (fresh_mail 1 [] (fun _ _ => 0)) (cstr "Subject")) =
      outcome.returned (1, pass_mail (index_mail_parse_headers retry_error_ext (some []) false
        (get_header_mail (fresh_mail 1 [] (fun _ _ => 0)) (cstr "Subject")))
        (fresh_mail 1 [] (fun _ _ => 0))) ∧
    index_mail_get_header retry_error_ext (some []) false (fresh_mail 1 [] (fun _ _ => 0))
      (cstr "Subject") = outcome.returned none :=
  ⟨by decide, rfl,
    (get_header_retry retry_error_ext (some []) false (fresh_mail 1 [] (fun _ _ => 0))
      (pass_mail (index_mail_parse_headers retry_error_ext (some []) false
        (get_header_mail (fresh_mail 1 [] (fun _ _ => 0)) (cstr "Subject")))
        (fresh_mail 1 [] (fun _ _ => 0)))
      (cstr "Subject") (by decide) rfl).1 (by decide)⟩

/-! ## The code at the failing inputs of the finalize claims -/

/-- C1 (the code at the failing input): the registry holds `hdr.From`, `hdr.Date` and
`hdr.Subject` with the indices 0, 1 and 2, field 2 is requested, and the message has a
`From` and a `Date` line only.  The pass adds the records of the two lines and no
negative record for field 2, which lies after the last staged field.  With `hdr.Subject`
registered first (index 0) the negative record is added; with nothing staged at all no
record is added. -/
theorem negative_entry_missing_after_last_line :
    pass_records (extraction_pass example_ext (some 2)
      [header_line "From" "a", header_line "Date" "b"]
      (fresh_mail 1 [header_field "hdr.From" mail_cache_decision_type.TEMP,
        header_field "hdr.Date" mail_cache_decision_type.TEMP,
        header_field "hdr.Subject" mail_cache_decision_type.TEMP] (fun _ _ => 0))) =
      some [cache_record.mk 1 0 (uint32_bytes 1 ++ uint32_bytes 0 ++ cstr "From: a\n"),
        cache_record.mk 1 1 (uint32_bytes 2 ++ uint32_bytes 0 ++ cstr "Date: b\n")] ∧
    pass_records (extraction_pass example_ext (some 0)
      [header_line "From" "a", header_line "Date" "b"]
      (fresh_mail 1 [header_field "hdr.Subject" mail_cache_decision_type.TEMP,
        header_field "hdr.From" mail_cache_decision_type.TEMP,
        header_field "hdr.Date" mail_cache_decision_type.TEMP] (fun _ _ => 0))) =
      some [cache_record.mk 1 0 [],
        cache_record.mk 1 1 (uint32_bytes 1 ++ uint32_bytes 0 ++ cstr "From: a\n"),
        cache_record.mk 1 2 (uint32_bytes 2 ++ uint32_bytes 0 ++ cstr "Date: b\n")] ∧
    pass_records (extraction_pass example_ext (some 0)
      [header_line "From" "a", header_line "Date" "b"]
      (fresh_mail 1 [header_field "hdr.Subject" mail_cache_decision_type.TEMP]
        (fun _ _ => 0))) = some [] := by
  decide

/-- C4 (the code at the failing input): in `received_mail` the run of the two
`Received` lines (field 2) is not contiguous, and its record is added under field 3,
the field of the `Subject` line that follows the run in sorted order; no positive
record is added under field 2. -/
theorem noncontiguous_run_wrong_field :
    (index_mail_parse_header_finish received_mail).cache_trans =
      [cache_record.mk 1 1 [],
        cache_record.mk 1 3 (uint32_bytes 3 ++ uint32_bytes 7 ++ uint32_bytes 0 ++
          cstr "Received: a\nReceived: b\n"),
        cache_record.mk 1 3 (uint32_bytes 5 ++ uint32_bytes 0 ++ cstr "Subject: s\n")] := by
  decide

/-! ## The match bitmap -/

theorem buffer_write_getD (buf : List Nat) (pos v i : Nat) :
    (buffer_write buf pos v).getD i 0 = if i = pos then v else buf.getD i 0 := by
  unfold buffer_write
  by_cases hp : pos < buf.length
  · rw [if_pos hp]
    simp only [List.getD_eq_getElem?_getD, List.getElem?_set]
    by_cases hi : i = pos
    · subst hi
      simp [hp]
    · have : ¬ pos = i := fun h => hi h.symm
      simp [hi, this]
  · rw [if_neg hp]
    simp only [List.getD_eq_getElem?_getD]
    by_cases hi : i = pos
    · subst hi
      have hlen : (buf ++ List.replicate (i - buf.length) 0).length = i := by
        simp
        omega
      have := getD_at (buf ++ List.replicate (i - buf.length) 0) [] v 0
      rw [hlen, List.getD_eq_getElem?_getD] at this
      simpa using this
    · simp only [hi, if_false]
      by_cases hlt : i < buf.length
      · rw [List.append_assoc, List.getElem?_append_left hlt]
      · rw [List.getElem?_eq_none (by omega : buf.length ≤ i)]
        by_cases hlt2 : i < pos
        · rw [List.append_assoc, List.getElem?_append_right (by omega),
            List.getElem?_append_left (by simp; omega)]
          rw [List.getElem?_replicate]
          split_ifs <;> rfl
        · rw [List.getElem?_eq_none (by simp; omega)]

theorem match_mark_getD (v i : Nat) :
    ∀ (idxs buf : List Nat),
      (match_mark buf v idxs).getD i 0 = if i ∈ idxs then v else buf.getD i 0 := by
  intro idxs
  induction idxs with
  | nil => intro buf; simp [match_mark]
  | cons p rest ih =>
    intro buf
    unfold match_mark
    rw [ih, buffer_write_getD]
    by_cases h1 : i ∈ rest
    · simp [h1]
    · by_cases h2 : i = p
      · simp [h2]
      · simp [h1, h2]

theorem getD_lt_of_ne_zero (buf : List Nat) (i : Nat) (h : buf.getD i 0 ≠ 0) : i < buf.length := by
  by_contra hc
  apply h
  rw [List.getD_eq_getElem?_getD, List.getElem?_eq_none (by omega)]
  rfl

theorem getD_le_of_all_le (buf : List Nat) (v i : Nat) (h : ∀ x ∈ buf, x ≤ v) :
    buf.getD i 0 ≤ v := by
  by_cases hi : i < buf.length
  · rw [List.getD_eq_getElem _ _ hi]
    exact h _ (List.getElem_mem hi)
  · rw [List.getD_eq_getElem?_getD, List.getElem?_eq_none (by omega)]
    simp

theorem all_le_of_getD_le (buf : List Nat) (v : Nat) (h : ∀ i, buf.getD i 0 ≤ v) :
    ∀ x ∈ buf, x ≤ v := by
  intro x hx
  obtain ⟨i, hi, rfl⟩ := List.getElem_of_mem hx
  have := h i
  rwa [List.getD_eq_getElem _ _ hi] at this

/-- The state of the match bitmap between two passes: the match value fits into a
byte and no cell exceeds it. -/
theorem init_invariant (ext : collaborators) (mail : index_mail) (headers : Option Nat)
    (hv : mail.header_match_value ≤ 255)
    (hcells : ∀ x ∈ mail.header_match, x ≤ mail.header_match_value) :
    1 ≤ (index_mail_parse_header_init ext mail headers).header_match_value ∧
    (index_mail_parse_header_init ext mail headers).header_match_value ≤ 255 ∧
    ∀ i, (index_mail_parse_header_init ext mail headers).header_match.getD i 0 =
        (if i ∈ ctx_idx ext headers ∨ i ∈ ctx_idx ext mail.wanted_headers then
          (index_mail_parse_header_init ext mail headers).header_match_value
         else (init_match_value (init_buffers mail)).header_match.getD i 0) ∧
      (init_match_value (init_buffers mail)).header_match.getD i 0 <
        (index_mail_parse_header_init ext mail headers).header_match_value := by
  -- the buffers
  have hb1 : (init_buffers mail).header_match_value = mail.header_match_value := by
    unfold init_buffers; cases mail.header_data <;> rfl
  have hb2 : ∀ x ∈ (init_buffers mail).header_match, x ≤ mail.header_match_value := by
    unfold init_buffers
    cases mail.header_data with
    | none => intro x hx; simp at hx
    | some _ => exact hcells
  have hb3 : (init_buffers mail).wanted_headers = mail.wanted_headers := by
    unfold init_buffers; cases mail.header_data <;> rfl
  -- the match value
  have hm1 : 1 ≤ (init_match_value (init_buffers mail)).header_match_value ∧
      (init_match_value (init_buffers mail)).header_match_value ≤ 255 ∧
      ∀ i, (init_match_value (init_buffers mail)).header_match.getD i 0 <
        (init_match_value (init_buffers mail)).header_match_value := by
    unfold init_match_value
    rw [hb1]
    by_cases hw : (mail.header_match_value + 1) % 256 = 0
    · rw [if_pos hw]
      refine ⟨by simp, by simp, ?_⟩
      intro i
      simp only
      have : ∀ x ∈ (init_buffers mail).header_match.map (fun _ => 0), x ≤ 0 := by
        intro x hx
        simp only [List.mem_map] at hx
        obtain ⟨_, _, rfl⟩ := hx
        exact Nat.le_refl 0
      have := getD_le_of_all_le _ 0 i this
      omega
    · rw [if_neg hw]
      simp only
      refine ⟨by omega, by omega, ?_⟩
      intro i
      have := getD_le_of_all_le _ _ i hb2
      omega
  have hm2 : (init_match_value (init_buffers mail)).wanted_headers = mail.wanted_headers := by
    unfold init_match_value
    split_ifs <;> exact hb3
  obtain ⟨hm1a, hm1b, hm1c⟩ := hm1
  -- the value is not changed by the marking
  have hval : (index_mail_parse_header_init ext mail headers).header_match_value =
      (init_match_value (init_buffers mail)).header_match_value := by
    unfold index_mail_parse_header_init init_wanted init_headers
    cases headers <;> cases hw : mail.wanted_headers <;> simp only [hm2, hw] <;>
      split_ifs <;> rfl
  have hcell : ∀ i, (index_mail_parse_header_init ext mail headers).header_match.getD i 0 =
      if i ∈ ctx_idx ext headers ∨ i ∈ ctx_idx ext mail.wanted_headers then
        (init_match_value (init_buffers mail)).header_match_value
      else (init_match_value (init_buffers mail)).header_match.getD i 0 := by
    intro i
    unfold index_mail_parse_header_init init_wanted init_headers
    cases headers with
    | none =>
      cases hw : mail.wanted_headers with
      | none => simp [hm2, hw, ctx_idx]
      | some w =>
        simp only [hm2, hw, ctx_idx, ne_eq, reduceCtorEq, not_false_eq_true, if_true,
          List.not_mem_nil, false_or]
        rw [match_mark_getD]
    | some p =>
      cases hw : mail.wanted_headers with
      | none =>
        simp only [hm2, hw, ctx_idx, List.not_mem_nil, or_false]
        rw [match_mark_getD]
      | some w =>
        simp only [hm2, hw, ctx_idx, ne_eq, Option.some.injEq]
        by_cases hwp : w = p
        · subst hwp
          simp only [not_true_eq_false, if_false, or_self]
          rw [match_mark_getD]
        · simp only [hwp, not_false_eq_true, if_true]
          rw [match_mark_getD, match_mark_getD]
          by_cases h1 : i ∈ ext.lookup_ctx_idx w
          · simp [h1]
          · simp [h1]
  rw [hval]
  exact ⟨hm1a, hm1b, fun i => ⟨hcell i, hm1c i⟩⟩

theorem init_calls_snoc (ext : collaborators) (last : Option Nat × Option Nat) :
    ∀ (calls : List (Option Nat × Option Nat)) (mail : index_mail),
      init_calls ext (calls ++ [last]) mail =
        index_mail_parse_header_init ext
          { init_calls ext calls mail with wanted_headers := last.2 } last.1 := by
  intro calls
  induction calls with
  | nil => intro mail; rfl
  | cons c rest ih =>
    intro mail
    simp only [List.cons_append, init_calls]
    exact ih _

theorem init_calls_invariant (ext : collaborators) :
    ∀ (calls : List (Option Nat × Option Nat)) (mail : index_mail),
      mail.header_match_value ≤ 255 →
      (∀ x ∈ mail.header_match, x ≤ mail.header_match_value) →
      (init_calls ext calls mail).header_match_value ≤ 255 ∧
        ∀ x ∈ (init_calls ext calls mail).header_match,
          x ≤ (init_calls ext calls mail).header_match_value := by
  intro calls
  induction calls with
  | nil => intro mail hv hc; exact ⟨hv, hc⟩
  | cons c rest ih =>
    intro mail hv hc
    simp only [init_calls]
    obtain ⟨_, h2, h3⟩ := init_invariant ext { mail with wanted_headers := c.2 } c.1 hv hc
    apply ih _ h2
    apply all_le_of_getD_le
    intro i
    obtain ⟨h4, h5⟩ := h3 i
    rw [h4]
    split_ifs
    · exact Nat.le_refl _
    · omega

theorem init_exact (ext : collaborators) (mail : index_mail) (headers : Option Nat)
    (hv : mail.header_match_value ≤ 255)
    (hcells : ∀ x ∈ mail.header_match, x ≤ mail.header_match_value) :
    1 ≤ (index_mail_parse_header_init ext mail headers).header_match_value ∧
    (index_mail_parse_header_init ext mail headers).header_match_value ≤ 255 ∧
    ∀ i,
      (i < (index_mail_parse_header_init ext mail headers).header_match.length ∧
        (index_mail_parse_header_init ext mail headers).header_match.getD i 0 =
          (index_mail_parse_header_init ext mail headers).header_match_value) ↔
      (i ∈ ctx_idx ext headers ∨ i ∈ ctx_idx ext mail.wanted_headers) := by
  obtain ⟨h1, h2, h3⟩ := init_invariant ext mail headers hv hcells
  refine ⟨h1, h2, ?_⟩
  intro i
  obtain ⟨h4, h5⟩ := h3 i
  constructor
  · rintro ⟨_, hget⟩
    by_contra hno
    rw [h4, if_neg hno] at hget
    omega
  · intro hin
    have hget := h4
    rw [if_pos hin] at hget
    refine ⟨?_, hget⟩
    apply getD_lt_of_ne_zero
    rw [hget]
    omega

/-- C10: starting from a fresh mail handle, after any sequence of
`index_mail_parse_header_init` calls the match value lies in 1..255, and a cell of the
bitmap holds the match value exactly when its index belongs to the lookup context of
the last call or to the `wanted_headers` of the handle at that call.  This covers the
calls in which the 8-bit match value wraps. -/
theorem match_bitmap_exact (ext : collaborators) (seq : Nat) (cache : List mail_cache_field)
    (view : Nat → Nat → Int) (calls : List (Option Nat × Option Nat))
    (headers wanted : Option Nat) :
    1 ≤ (init_calls ext (calls ++ [(headers, wanted)])
      (fresh_mail seq cache view)).header_match_value ∧
    (init_calls ext (calls ++ [(headers, wanted)])
      (fresh_mail seq cache view)).header_match_value ≤ 255 ∧
    ∀ i,
      (i < (init_calls ext (calls ++ [(headers, wanted)])
          (fresh_mail seq cache view)).header_match.length ∧
        (init_calls ext (calls ++ [(headers, wanted)])
          (fresh_mail seq cache view)).header_match.getD i 0 =
        (init_calls ext (calls ++ [(headers, wanted)])
          (fresh_mail seq cache view)).header_match_value) ↔
      (i ∈ ctx_idx ext headers ∨ i ∈ ctx_idx ext wanted) := by
  rw [init_calls_snoc]
  obtain ⟨hv, hc⟩ := init_calls_invariant ext calls (fresh_mail seq cache view)
    (by simp [fresh_mail]) (by simp [fresh_mail])
  exact init_exact ext
    { init_calls ext calls (fresh_mail seq cache view) with wanted_headers := wanted } headers hv hc

/-- C10, the wrap: a handle whose match value is 255 and whose bitmap marks field 3
with it comes out of the next call, which requests field 5, with match value 1, field 3
cleared and field 5 marked. -/
theorem match_bitmap_wrap :
    (index_mail_parse_header_init example_ext (staged_mail [] [] [0, 0, 0, 255] 255)
      (some 5)).header_match_value = 1 ∧
    (index_mail_parse_header_init example_ext (staged_mail [] [] [0, 0, 0, 255] 255)
      (some 5)).header_match = [0, 0, 0, 0, 0, 1] := by
  decide

/-! ## The pass and a field that is neither cached nor wanted -/

theorem same_frame_trans (m1 m2 m3 : index_mail) (h12 : same_frame m1 m2)
    (h23 : same_frame m2 m3) : same_frame m1 m3 := by
  obtain ⟨a1, a2, a3, a4, a5, a6, a7⟩ := h12
  obtain ⟨b1, b2, b3, b4, b5, b6, b7⟩ := h23
  exact ⟨b1.trans a1, b2.trans a2, b3.trans a3, b4.trans a4, b5.trans a5, b6.trans a6,
    b7.trans a7⟩

theorem parse_header_stage_spec (h : message_header_line) (m : index_mail) :
    same_frame m (parse_header_stage h m) ∧
    (parse_header_stage h m).cache_trans = m.cache_trans ∧
    (parse_header_stage h m).data.parse_line.field_idx = m.data.parse_line.field_idx ∧
    (parse_header_stage h m).data.parse_line.cache = m.data.parse_line.cache ∧
    ((parse_header_stage h m).header_lines = m.header_lines ∨
      ∃ l, l.field_idx = m.data.parse_line.field_idx ∧
        (parse_header_stage h m).header_lines = m.header_lines ++ [l]) := by
  unfold parse_header_stage
  simp only []
  by_cases h1 : h.continued = false <;> by_cases h2 : h.no_newline = false <;>
    by_cases h3 : h.continues = false <;>
    simp [h1, h2, h3, same_frame, header_data_append, set_parse_line, header_data_len]

theorem parse_header_before_line (ext : collaborators) (h : message_header_line) (m : index_mail) :
    same_frame m (parse_header_date ext h (parse_header_envelope ext (some h)
      { m with data := { m.data with
        parse_line_num := (m.data.parse_line_num + 1) % 4294967296 } })).1 ∧
    (parse_header_date ext h (parse_header_envelope ext (some h)
      { m with data := { m.data with
        parse_line_num := (m.data.parse_line_num + 1) % 4294967296 } })).1.cache_trans
      = m.cache_trans ∧
    (parse_header_date ext h (parse_header_envelope ext (some h)
      { m with data := { m.data with
        parse_line_num := (m.data.parse_line_num + 1) % 4294967296 } })).1.header_lines
      = m.header_lines ∧
    (parse_header_date ext h (parse_header_envelope ext (some h)
      { m with data := { m.data with
        parse_line_num := (m.data.parse_line_num + 1) % 4294967296 } })).1.data.parse_line
      = m.data.parse_line ∧
    (parse_header_date ext h (parse_header_envelope ext (some h)
      { m with data := { m.data with
        parse_line_num := (m.data.parse_line_num + 1) % 4294967296 } })).2.continued
      = h.continued := by
  unfold parse_header_date parse_header_envelope same_frame
  by_cases h1 : m.data.save_envelope = true <;>
    by_cases h2 : m.data.save_sent_date = true ∧ strcasecmp h.name (cstr "Date") = 0 <;>
    by_cases h3 : h.continues = true <;>
    cases h4 : ext.message_date_parse h.full_value <;>
    simp [h1, h2, h3, h4]

theorem init_keeps_trans (m1 m2 m3 : index_mail) (h12 : init_keeps m1 m2)
    (h23 : init_keeps m2 m3) : init_keeps m1 m3 := by
  obtain ⟨a1, a2, a3, a4, a5, a6⟩ := h12
  obtain ⟨b1, b2, b3, b4, b5, b6⟩ := h23
  exact ⟨b1.trans a1, b2.trans a2, b3.trans a3, b4.trans a4, b5.trans a5, b6.trans a6⟩

theorem init_buffers_frame (mail : index_mail) :
    (init_buffers mail).header_lines = [] ∧ (init_buffers mail).cache = mail.cache ∧
    (init_buffers mail).cache_view = mail.cache_view ∧ (init_buffers mail).data = mail.data ∧
    (init_buffers mail).header_lines_past = mail.header_lines_past ∧
    (init_buffers mail).cache_trans = mail.cache_trans := by
  unfold init_buffers
  cases mail.header_data <;> exact ⟨rfl, rfl, rfl, rfl, rfl, rfl⟩

theorem init_match_value_keeps (mail : index_mail) : init_keeps mail (init_match_value mail) := by
  unfold init_match_value
  split_ifs <;> exact ⟨rfl, rfl, rfl, rfl, rfl, rfl⟩

theorem init_headers_keeps (ext : collaborators) (headers : Option Nat) (mail : index_mail) :
    init_keeps mail (init_headers ext headers mail) := by
  unfold init_headers
  cases headers <;> exact ⟨rfl, rfl, rfl, rfl, rfl, rfl⟩

theorem init_wanted_keeps (ext : collaborators) (headers : Option Nat) (mail : index_mail) :
    init_keeps mail (init_wanted ext headers mail) := by
  unfold init_wanted
  cases mail.wanted_headers with
  | none => exact ⟨rfl, rfl, rfl, rfl, rfl, rfl⟩
  | some w =>
    simp only []
    split_ifs <;> exact ⟨rfl, rfl, rfl, rfl, rfl, rfl⟩

theorem init_frame (ext : collaborators) (mail : index_mail) (headers : Option Nat) :
    (index_mail_parse_header_init ext mail headers).header_lines = [] ∧
    (index_mail_parse_header_init ext mail headers).cache = mail.cache ∧
    (index_mail_parse_header_init ext mail headers).cache_view = mail.cache_view ∧
    (index_mail_parse_header_init ext mail headers).data = mail.data ∧
    (index_mail_parse_header_init ext mail headers).header_lines_past = mail.header_lines_past ∧
    (index_mail_parse_header_init ext mail headers).cache_trans = mail.cache_trans := by
  obtain ⟨a1, a2, a3, a4, a5, a6⟩ := init_buffers_frame mail
  obtain ⟨b1, b2, b3, b4, b5, b6⟩ := init_keeps_trans _ _ _
    (init_match_value_keeps (init_buffers mail))
    (init_keeps_trans _ _ _ (init_headers_keeps ext headers _) (init_wanted_keeps ext headers _))
  unfold index_mail_parse_header_init
  exact ⟨b1.trans a1, b2.trans a2, b3.trans a3, b4.trans a4, b5.trans a5, b6.trans a6⟩

theorem strcasecmp_nil_le (c : List Nat) : strcasecmp [] c ≤ 0 := by
  cases c with
  | nil => simp [strcasecmp]
  | cons z c' =>
    simp only [strcasecmp]
    omega

theorem strcasecmp_total (a : List Nat) :
    ∀ b : List Nat, strcasecmp a b ≤ 0 ∨ strcasecmp b a ≤ 0 := by
  induction a with
  | nil => intro b; exact Or.inl (strcasecmp_nil_le b)
  | cons x a' ih =>
    intro b
    cases b with
    | nil => exact Or.inr (strcasecmp_nil_le _)
    | cons y b' =>
      simp only [strcasecmp]
      by_cases h1 : i_tolower x = i_tolower y
      · have h2 : i_tolower y = i_tolower x := h1.symm
        by_cases h3 : i_tolower x = 0
        · have h4 : i_tolower y = 0 := by omega
          simp [h1, h4]
        · have h4 : ¬ i_tolower y = 0 := by omega
          simp only [h1, h4, ne_eq, not_true_eq_false, if_false]
          exact ih b'
      · have h2 : ¬ i_tolower y = i_tolower x := fun h => h1 h.symm
        simp only [h1, h2, ne_eq, not_false_eq_true, if_true]
        omega

theorem strcasecmp_trans (a : List Nat) :
    ∀ b c : List Nat, strcasecmp a b ≤ 0 → strcasecmp b c ≤ 0 → strcasecmp a c ≤ 0 := by
  induction a with
  | nil => intro b c _ _; exact strcasecmp_nil_le c
  | cons x a' ih =>
    intro b c h1 h2
    cases b with
    | nil =>
      simp only [strcasecmp] at h1
      cases c with
      | nil => simpa [strcasecmp] using h1
      | cons z c' =>
        simp only [strcasecmp]
        split_ifs <;> omega
    | cons y b' =>
      cases c with
      | nil =>
        simp only [strcasecmp] at h1 h2 ⊢
        split_ifs at h1 <;> omega
      | cons z c' =>
        simp only [strcasecmp] at h1 h2 ⊢
        by_cases e1 : i_tolower x = i_tolower y
        · by_cases e2 : i_tolower y = i_tolower z
          · have e3 : i_tolower x = i_tolower z := e1.trans e2
            by_cases e4 : i_tolower x = 0
            · rw [if_neg (by simpa using e3), if_pos e4]
            · have e5 : ¬ i_tolower y = 0 := by omega
              have e6 : ¬ i_tolower z = 0 := by omega
              simp only [e1, e2, e3, e4, e5, e6, ne_eq, not_true_eq_false, if_false] at h1 h2 ⊢
              exact ih b' c' h1 h2
          · simp only [e2, ne_eq, not_false_eq_true, if_true] at h2
            have e3 : ¬ i_tolower x = i_tolower z := by omega
            simp only [e3, ne_eq, not_false_eq_true, if_true]
            omega
        · simp only [e1, ne_eq, not_false_eq_true, if_true] at h1
          by_cases e2 : i_tolower y = i_tolower z
          · have e3 : ¬ i_tolower x = i_tolower z := by omega
            simp only [e3, ne_eq, not_false_eq_true, if_true]
            omega
          · simp only [e2, ne_eq, not_false_eq_true, if_true] at h2
            have e3 : ¬ i_tolower x = i_tolower z := by omega
            simp only [e3, ne_eq, not_false_eq_true, if_true]
            omega

theorem qsort_names_sorted (names : List (List Nat)) :
    (qsort_names names).Sorted (fun a b => strcasecmp a b ≤ 0) := by
  haveI : IsTotal (List Nat) (fun a b => strcasecmp a b ≤ 0) := ⟨strcasecmp_total⟩
  haveI : IsTrans (List Nat) (fun a b => strcasecmp a b ≤ 0) := ⟨strcasecmp_trans⟩
  exact List.sorted_insertionSort _ names

theorem qsort_names_perm (names : List (List Nat)) : (qsort_names names).Perm names :=
  List.perm_insertionSort _ names

/-- C11: for every input list of header names the context of `index_header_lookup_init`
has as `count` the number of names, and its `name` array is a permutation of the input
that is sorted in non-decreasing `strcasecmp` order; the array of the caller is as it
was. -/
theorem lookup_init_sorted_names (cache : List mail_cache_field) (headers : List (List Nat)) :
    (index_header_lookup_init cache headers).1.count = headers.length ∧
    (index_header_lookup_init cache headers).1.name.Perm headers ∧
    (index_header_lookup_init cache headers).1.name.Sorted (fun a b => strcasecmp a b ≤ 0) ∧
    (index_header_lookup_init cache headers).2.2 = headers := by
  unfold index_header_lookup_init
  simp only []
  by_cases h : headers.length > 0
  · simp only [h, if_true, List.length_map]
    exact ⟨(qsort_names_perm headers).length_eq, qsort_names_perm headers,
      qsort_names_sorted headers, trivial⟩
  · have hnil : headers = [] := by
      cases headers with
      | nil => rfl
      | cons a l => simp at h
    subst hnil
    simp [List.Sorted]

/-- C11, example: `Subject`, `date`, `From` and a second `Subject` are sorted without
regard to case, the duplicate is kept, and the input stays as it was. -/
theorem lookup_init_sorted_names_example :
    (index_header_lookup_init [] [cstr "Subject", cstr "date", cstr "From", cstr "Subject"]).1.name
      = [cstr "date", cstr "From", cstr "Subject", cstr "Subject"] ∧
    (index_header_lookup_init [] [cstr "Subject", cstr "date", cstr "From", cstr "Subject"]).1.count
      = 4 ∧
    (index_header_lookup_init [] [cstr "Subject", cstr "date", cstr "From", cstr "Subject"]).2.2
      = [cstr "Subject", cstr "date", cstr "From", cstr "Subject"] := by
  decide

/-! ## The registry -/

theorem register_lookup_range (cache : List mail_cache_field) (name : List Nat) :
    mail_cache_register_lookup cache name = UINT_MAX ∨
      mail_cache_register_lookup cache name < cache.length := by
  induction cache with
  | nil => exact Or.inl rfl
  | cons f fs ih =>
    unfold mail_cache_register_lookup
    by_cases h1 : f.name = name
    · rw [if_pos h1]
      right
      simp
    · rw [if_neg h1]
      by_cases h2 : mail_cache_register_lookup fs name = UINT_MAX
      · rw [if_pos h2]
        exact Or.inl rfl
      · rw [if_neg h2]
        right
        rcases ih with h3 | h3
        · exact absurd h3 h2
        · simp only [List.length_cons]
          omega

theorem register_lookup_none (name : List Nat) :
    ∀ cache : List mail_cache_field, cache.length ≤ UINT_MAX →
      mail_cache_register_lookup cache name = UINT_MAX → ∀ f ∈ cache, f.name ≠ name := by
  intro cache
  induction cache with
  | nil => intro _ _ f hf; simp at hf
  | cons g gs ih =>
    intro hlen hl f hf
    unfold mail_cache_register_lookup at hl
    simp only [List.length_cons] at hlen
    by_cases h1 : g.name = name
    · rw [if_pos h1] at hl
      exact absurd hl (by decide)
    · rw [if_neg h1] at hl
      by_cases h2 : mail_cache_register_lookup gs name = UINT_MAX
      · rcases List.mem_cons.mp hf with h3 | h3
        · rw [h3]; exact h1
        · exact ih (by omega) h2 f h3
      · rw [if_neg h2] at hl
        rcases register_lookup_range gs name with h3 | h3
        · exact absurd h3 h2
        · omega

theorem register_lookup_append (name : List Nat) (extra : List mail_cache_field) :
    ∀ cache : List mail_cache_field, mail_cache_register_lookup cache name ≠ UINT_MAX →
      mail_cache_register_lookup (cache ++ extra) name = mail_cache_register_lookup cache name := by
  intro cache
  induction cache with
  | nil => intro h; exact absurd rfl h
  | cons g gs ih =>
    intro h
    unfold mail_cache_register_lookup at h
    rw [List.cons_append]
    by_cases h1 : g.name = name
    · simp [mail_cache_register_lookup, h1]
    · rw [if_neg h1] at h
      by_cases h2 : mail_cache_register_lookup gs name = UINT_MAX
      · rw [if_pos h2] at h
        exact absurd rfl h
      · have e := ih h2
        have e1 : mail_cache_register_lookup (g :: (gs ++ extra)) name =
            if g.name = name then 0
            else if mail_cache_register_lookup (gs ++ extra) name = UINT_MAX then UINT_MAX
            else mail_cache_register_lookup (gs ++ extra) name + 1 := rfl
        have e2 : mail_cache_register_lookup (g :: gs) name =
            if g.name = name then 0
            else if mail_cache_register_lookup gs name = UINT_MAX then UINT_MAX
            else mail_cache_register_lookup gs name + 1 := rfl
        rw [e1, e2, e]

theorem register_lookup_new (f : mail_cache_field) :
    ∀ cache : List mail_cache_field, cache.length < UINT_MAX →
      mail_cache_register_lookup cache f.name = UINT_MAX →
      mail_cache_register_lookup (cache ++ [f]) f.name = cache.length := by
  intro cache
  induction cache with
  | nil => intro _ _; simp [mail_cache_register_lookup]
  | cons g gs ih =>
    intro hlen hl
    simp only [List.length_cons] at hlen
    have e2 : mail_cache_register_lookup (g :: gs) f.name =
        if g.name = f.name then 0
        else if mail_cache_register_lookup gs f.name = UINT_MAX then UINT_MAX
        else mail_cache_register_lookup gs f.name + 1 := rfl
    have e1 : mail_cache_register_lookup (g :: (gs ++ [f])) f.name =
        if g.name = f.name then 0
        else if mail_cache_register_lookup (gs ++ [f]) f.name = UINT_MAX then UINT_MAX
        else mail_cache_register_lookup (gs ++ [f]) f.name + 1 := rfl
    rw [e2] at hl
    rw [List.cons_append, e1]
    by_cases h1 : g.name = f.name
    · rw [if_pos h1] at hl
      exact absurd hl (by decide)
    · rw [if_neg h1] at hl ⊢
      have h2 : mail_cache_register_lookup gs f.name = UINT_MAX := by
        by_contra hc
        rw [if_neg hc] at hl
        rcases register_lookup_range gs f.name with h3 | h3
        · exact hc h3
        · omega
      rw [ih (by omega) h2]
      have h3 : ¬ gs.length = UINT_MAX := by omega
      rw [if_neg h3]
      simp

theorem register_field_spec (cache : List mail_cache_field) (f : mail_cache_field)
    (hlen : cache.length < UINT_MAX) :
    mail_cache_register_lookup (mail_cache_register_field cache f).2 f.name =
      (mail_cache_register_field cache f).1 ∧
    (mail_cache_register_field cache f).1 ≠ UINT_MAX ∧
    ((mail_cache_register_field cache f).2 = cache ∨
      ((mail_cache_register_field cache f).2 = cache ++ [f] ∧
        mail_cache_register_lookup cache f.name = UINT_MAX)) := by
  unfold mail_cache_register_field
  by_cases h : mail_cache_register_lookup cache f.name = UINT_MAX
  · rw [if_pos h]
    exact ⟨register_lookup_new f cache hlen h, by simp only; omega, Or.inr ⟨rfl, h⟩⟩
  · rw [if_neg h]
    exact ⟨rfl, h, Or.inl rfl⟩

theorem register_fields_spec :
    ∀ (fields cache : List mail_cache_field), cache.length + fields.length < UINT_MAX →
      (mail_cache_register_fields cache fields).1 =
        fields.map (fun f =>
          mail_cache_register_lookup (mail_cache_register_fields cache fields).2 f.name) ∧
      (∀ f ∈ fields,
        mail_cache_register_lookup (mail_cache_register_fields cache fields).2 f.name
          ≠ UINT_MAX) ∧
      ∃ new, (mail_cache_register_fields cache fields).2 = cache ++ new ∧
        new.length ≤ fields.length ∧
        ∀ g ∈ new, g ∈ fields ∧ mail_cache_register_lookup cache g.name = UINT_MAX := by
  intro fields
  induction fields with
  | nil =>
    intro cache _
    exact ⟨rfl, by intro f hf; simp at hf, [], by simp [mail_cache_register_fields], by simp,
      by simp⟩
  | cons f fs ih =>
    intro cache hlen
    simp only [List.length_cons] at hlen
    obtain ⟨r1, r2, r3⟩ := register_field_spec cache f (by omega)
    have hlen1 : (mail_cache_register_field cache f).2.length + fs.length < UINT_MAX := by
      rcases r3 with h | ⟨h, _⟩
      · rw [h]; omega
      · rw [h]; simp only [List.length_append, List.length_singleton]; omega
    obtain ⟨i1, i2, new, i3, i4, i5⟩ := ih (mail_cache_register_field cache f).2 hlen1
    have e : mail_cache_register_fields cache (f :: fs) =
        ((mail_cache_register_field cache f).1 ::
            (mail_cache_register_fields (mail_cache_register_field cache f).2 fs).1,
          (mail_cache_register_fields (mail_cache_register_field cache f).2 fs).2) := rfl
    have hf : mail_cache_register_lookup
        (mail_cache_register_fields (mail_cache_register_field cache f).2 fs).2 f.name =
        (mail_cache_register_field cache f).1 := by
      rw [i3, register_lookup_append f.name new _ (by rw [r1]; exact r2), r1]
    rw [e]
    refine ⟨?_, ?_, ?_⟩
    · simp only [List.map_cons]
      rw [hf, ← i1]
    · intro g hg
      simp only
      rcases List.mem_cons.mp hg with h | h
      · rw [h, hf]; exact r2
      · exact i2 g h
    · simp only
      rcases r3 with h | ⟨h, hnew⟩
      · refine ⟨new, by rw [i3, h], by simp only [List.length_cons]; omega, ?_⟩
        intro g hg
        obtain ⟨k1, k2⟩ := i5 g hg
        rw [h] at k2
        exact ⟨List.mem_cons_of_mem f k1, k2⟩
      · refine ⟨f :: new, by rw [i3, h]; simp, by simp only [List.length_cons]; omega, ?_⟩
        intro g hg
        rcases List.mem_cons.mp hg with k | k
        · rw [k]; exact ⟨List.mem_cons_self f fs, hnew⟩
        · obtain ⟨k1, k2⟩ := i5 g k
          refine ⟨List.mem_cons_of_mem f k1, ?_⟩
          by_contra hc
          apply hc
          by_contra hc2
          rw [h, register_lookup_append g.name [f] cache hc2] at k2
          exact hc2 k2

/-- C12: in the context of `index_header_lookup_init`, `idx` is parallel to `name`:
each `idx[i]` is what the registry answers afterwards for `"hdr." + name[i]`, and
that name is registered.  The registry keeps the fields it had, in place, and what is
appended are fields of kind HEADER with decision TEMP whose names are `"hdr." +` an
input name that was not registered before.  Assumes that the registry with the new
names stays below `UINT_MAX` fields. -/
theorem lookup_init_idx_parallel (cache : List mail_cache_field) (headers : List (List Nat))
    (hlen : cache.length + headers.length < UINT_MAX) :
    (index_header_lookup_init cache headers).1.idx =
      (index_header_lookup_init cache headers).1.name.map (fun n =>
        mail_cache_register_lookup (index_header_lookup_init cache headers).2.1
          (cstr "hdr." ++ n)) ∧
    (∀ n ∈ (index_header_lookup_init cache headers).1.name,
      mail_cache_register_lookup (index_header_lookup_init cache headers).2.1
        (cstr "hdr." ++ n) ≠ UINT_MAX) ∧
    ∃ new, (index_header_lookup_init cache headers).2.1 = cache ++ new ∧
      ∀ g ∈ new, g.type = mail_cache_field_type.HEADER ∧
        g.decision = mail_cache_decision.mk mail_cache_decision_type.TEMP false ∧
        (∃ n ∈ headers, g.name = cstr "hdr." ++ n) ∧
        mail_cache_register_lookup cache g.name = UINT_MAX := by
  have hperm : (if headers.length > 0 then qsort_names headers else headers).Perm headers := by
    split_ifs
    · exact qsort_names_perm headers
    · exact List.Perm.refl _
  have hlen' : cache.length +
      ((if headers.length > 0 then qsort_names headers else headers).map
        header_template).length < UINT_MAX := by
    rw [List.length_map, hperm.length_eq]
    exact hlen
  obtain ⟨r1, r2, new, r3, _, r5⟩ := register_fields_spec _ cache hlen'
  unfold index_header_lookup_init
  simp only []
  refine ⟨?_, ?_, new, r3, ?_⟩
  · rw [r1, List.map_map]
    rfl
  · intro n hn
    exact r2 (header_template n) (List.mem_map_of_mem header_template hn)
  · intro g hg
    obtain ⟨k1, k2⟩ := r5 g hg
    obtain ⟨n, hn, rfl⟩ := List.mem_map.mp k1
    exact ⟨rfl, rfl, ⟨n, hperm.mem_iff.mp hn, rfl⟩, k2⟩

/-- C12, witness: `hdr.Date` is registered with decision YES, `Subject` and `date` are
asked for; `hdr.Subject` and `hdr.date` are appended as HEADER fields with decision
TEMP and `hdr.Date` stays as it is. -/
theorem lookup_init_idx_parallel_witness :
    ([header_field "hdr.Date" mail_cache_decision_type.YES].length +
      [cstr "Subject", cstr "date"].length < UINT_MAX) ∧
    ((index_header_lookup_init [header_field "hdr.Date" mail_cache_decision_type.YES]
        [cstr "Subject", cstr "date"]).1.idx =
      (index_header_lookup_init [header_field "hdr.Date" mail_cache_decision_type.YES]
        [cstr "Subject", cstr "date"]).1.name.map (fun n =>
        mail_cache_register_lookup
          (index_header_lookup_init [header_field "hdr.Date" mail_cache_decision_type.YES]
            [cstr "Subject", cstr "date"]).2.1
          (cstr "hdr." ++ n)) ∧
    (∀ n ∈ (index_header_lookup_init [header_field "hdr.Date" mail_cache_decision_type.YES]
        [cstr "Subject", cstr "date"]).1.name,
      mail_cache_register_lookup
        (index_header_lookup_init [header_field "hdr.Date" mail_cache_decision_type.YES]
          [cstr "Subject", cstr "date"]).2.1
        (cstr "hdr." ++ n) ≠ UINT_MAX) ∧
    ∃ new, (index_header_lookup_init [header_field "hdr.Date" mail_cache_decision_type.YES]
        [cstr "Subject", cstr "date"]).2.1 =
        [header_field "hdr.Date" mail_cache_decision_type.YES] ++ new ∧
      ∀ g ∈ new, g.type = mail_cache_field_type.HEADER ∧
        g.decision = mail_cache_decision.mk mail_cache_decision_type.TEMP false ∧
        (∃ n ∈ [cstr "Subject", cstr "date"], g.name = cstr "hdr." ++ n) ∧
        mail_cache_register_lookup [header_field "hdr.Date" mail_cache_decision_type.YES] g.name
          = UINT_MAX) ∧
    index_header_lookup_init [header_field "hdr.Date" mail_cache_decision_type.YES]
        [cstr "Subject", cstr "date"] =
      (index_header_lookup_ctx.mk 2 [1, 2] [cstr "date", cstr "Subject"],
        [header_field "hdr.Date" mail_cache_decision_type.YES,
          header_field "hdr.date" mail_cache_decision_type.TEMP,
          header_field "hdr.Subject" mail_cache_decision_type.TEMP],
        [cstr "Subject", cstr "date"]) :=
  ⟨by decide,
    lookup_init_idx_parallel [header_field "hdr.Date" mail_cache_decision_type.YES]
      [cstr "Subject", cstr "date"] (by decide),
    by decide⟩

/-! ## Claims on index_mail_parse_header -/

/-- C13 (the code at the failing input): in `received_mail` finalize adds its records
under the fields 1, 3 and 3: the run of field 2, which is not contiguous, is filed
under field 3 and the run of field 3 follows, so the field indices do not increase
strictly. -/
theorem emission_order_repeats_field :
    (index_mail_parse_header_finish received_mail).cache_trans.map cache_record.field
      = [1, 3, 3] := by
  decide

theorem parse_header_end_data (ext : collaborators) (m : index_mail) :
    (parse_header_end ext m).data.sent_date_time =
      (parse_header_date_missing m).data.sent_date_time ∧
    (parse_header_end ext m).data.sent_date_timezone =
      (parse_header_date_missing m).data.sent_date_timezone ∧
    (parse_header_end ext m).data.save_sent_date =
      (parse_header_date_missing m).data.save_sent_date := by
  unfold parse_header_end index_mail_parse_header_finish parse_header_date_add
  split_ifs <;> exact ⟨rfl, rfl, rfl⟩

/-- C14: when the end of the headers arrives while `save_sent_date` is set, the sent
date becomes time 0 and timezone 0, `save_sent_date` is cleared, and a record of the
field `MAIL_CACHE_SENT_DATE` that carries time 0 and timezone 0 is added for the
message, after the envelope record if there is one and before the records of
finalize.  Assumes that `i_assert (part != NULL)` holds. -/
theorem sent_date_absent (ext : collaborators) (part : Bool) (mail : index_mail)
    (hsave : mail.data.save_sent_date = true)
    (hpart : mail.data.save_bodystructure_header = false ∨ part = true) :
    ∃ m' pre post, index_mail_parse_header ext part none mail = outcome.returned (m', none) ∧
      m'.data.sent_date_time = 0 ∧ m'.data.sent_date_timezone = 0 ∧
      m'.data.save_sent_date = false ∧
      m'.cache_trans = mail.cache_trans ++ pre ++
        [cache_record.mk mail.data.seq ext.MAIL_CACHE_SENT_DATE (ext.sent_date_bytes 0 0)] ++ post ∧
      ∀ r ∈ pre, r.field = ext.MAIL_CACHE_ENVELOPE := by
  have hno : ¬ (mail.data.save_bodystructure_header = true ∧ part = false) := by
    rintro ⟨x1, x2⟩
    rcases hpart with hp | hp
    · rw [hp] at x1; exact Bool.noConfusion x1
    · rw [hp] at x2; exact Bool.noConfusion x2
  -- the envelope
  have henv : ∃ pre, (parse_header_envelope ext none
      { mail with data := { mail.data with
        parse_line_num := (mail.data.parse_line_num + 1) % 4294967296 } }).cache_trans
        = mail.cache_trans ++ pre ∧ (∀ r ∈ pre, r.field = ext.MAIL_CACHE_ENVELOPE) ∧
      (parse_header_envelope ext none
        { mail with data := { mail.data with
          parse_line_num := (mail.data.parse_line_num + 1) % 4294967296 } }).data.save_sent_date
        = true ∧
      (parse_header_envelope ext none
        { mail with data := { mail.data with
          parse_line_num := (mail.data.parse_line_num + 1) % 4294967296 } }).data.seq
        = mail.data.seq := by
    unfold parse_header_envelope index_mail_parse_finish_imap_envelope mail_cache_add
    by_cases h1 : mail.data.save_envelope = true
    · simp only [h1, if_true]
      exact ⟨[cache_record.mk mail.data.seq ext.MAIL_CACHE_ENVELOPE
        (ext.imap_envelope_write_part_data (mail.data.envelope_data ++ [none]))],
        by simp, by simp, by simpa using hsave, by simp⟩
    · simp only [h1, if_false]
      exact ⟨[], by simp, by simp, by simpa using hsave, by simp⟩
  obtain ⟨pre, e1, e2, e3, e4⟩ := henv
  obtain ⟨d1, d2, d3⟩ := parse_header_end_data ext (parse_header_envelope ext none
      { mail with data := { mail.data with
        parse_line_num := (mail.data.parse_line_num + 1) % 4294967296 } })
  have hm : (parse_header_date_missing (parse_header_envelope ext none
      { mail with data := { mail.data with
        parse_line_num := (mail.data.parse_line_num + 1) % 4294967296 } })).data.sent_date_time
        = 0 ∧
      (parse_header_date_missing (parse_header_envelope ext none
      { mail with data := { mail.data with
        parse_line_num := (mail.data.parse_line_num + 1) % 4294967296 } })).data.sent_date_timezone
        = 0 ∧
      (parse_header_date_missing (parse_header_envelope ext none
      { mail with data := { mail.data with
        parse_line_num := (mail.data.parse_line_num + 1) % 4294967296 } })).data.save_sent_date
        = false ∧
      (parse_header_date_missing (parse_header_envelope ext none
      { mail with data := { mail.data with
        parse_line_num := (mail.data.parse_line_num + 1) % 4294967296 } })).data.seq
        = mail.data.seq ∧
      (parse_header_date_missing (parse_header_envelope ext none
      { mail with data := { mail.data with
        parse_line_num := (mail.data.parse_line_num + 1) % 4294967296 } })).cache_trans
        = mail.cache_trans ++ pre := by
    unfold parse_header_date_missing
    rw [if_pos e3]
    exact ⟨rfl, rfl, rfl, e4, e1⟩
  obtain ⟨m1, m2, m3, m4, m5⟩ := hm
  refine ⟨parse_header_end ext (parse_header_envelope ext none
      { mail with data := { mail.data with
        parse_line_num := (mail.data.parse_line_num + 1) % 4294967296 } }), pre,
    finish_added (parse_header_date_add ext (parse_header_date_missing
      (parse_header_envelope ext none
        { mail with data := { mail.data with
          parse_line_num := (mail.data.parse_line_num + 1) % 4294967296 } }))),
    ?_, by rw [d1, m1], by rw [d2, m2], by rw [d3, m3], ?_, e2⟩
  · unfold index_mail_parse_header
    simp only []
    rw [if_neg hno]
  · have hadd : (parse_header_date_add ext (parse_header_date_missing
        (parse_header_envelope ext none
          { mail with data := { mail.data with
            parse_line_num := (mail.data.parse_line_num + 1) % 4294967296 } }))).cache_trans =
        mail.cache_trans ++ pre ++
          [cache_record.mk mail.data.seq ext.MAIL_CACHE_SENT_DATE (ext.sent_date_bytes 0 0)] := by
      unfold parse_header_date_add
      rw [m1, m2, m4, m5]
      simp [mail_cache_add]
    unfold parse_header_end
    simp only []
    rw [finish_cache_trans, hadd]

/-- C14, witness: a message without any header line, parsed with `save_sent_date` set,
gets the one record of the sent date. -/
theorem sent_date_absent_witness :
    ({ fresh_mail 1 [] (fun _ _ => 0) with
        data := { (fresh_mail 1 [] (fun _ _ => 0)).data with save_sent_date := true } }
      : index_mail).data.save_sent_date = true ∧
    (∃ m' pre post, index_mail_parse_header example_ext false none
        { fresh_mail 1 [] (fun _ _ => 0) with
          data := { (fresh_mail 1 [] (fun _ _ => 0)).data with save_sent_date := true } }
        = outcome.returned (m', none) ∧
      m'.data.sent_date_time = 0 ∧ m'.data.sent_date_timezone = 0 ∧
      m'.data.save_sent_date = false ∧
      m'.cache_trans = ({ fresh_mail 1 [] (fun _ _ => 0) with
          data := { (fresh_mail 1 [] (fun _ _ => 0)).data with save_sent_date := true } }
          : index_mail).cache_trans ++ pre ++
        [cache_record.mk ({ fresh_mail 1 [] (fun _ _ => 0) with
          data := { (fresh_mail 1 [] (fun _ _ => 0)).data with save_sent_date := true } }
          : index_mail).data.seq example_ext.MAIL_CACHE_SENT_DATE
          (example_ext.sent_date_bytes 0 0)] ++ post ∧
      ∀ r ∈ pre, r.field = example_ext.MAIL_CACHE_ENVELOPE) :=
  ⟨rfl,
    sent_date_absent example_ext false
      { fresh_mail 1 [] (fun _ _ => 0) with
        data := { (fresh_mail 1 [] (fun _ _ => 0)).data with save_sent_date := true } }
      rfl (Or.inl rfl)⟩

theorem parse_header_stage_data (h : message_header_line) (m : index_mail) :
    (parse_header_stage h m).data.sent_date_time = m.data.sent_date_time ∧
    (parse_header_stage h m).data.sent_date_timezone = m.data.sent_date_timezone ∧
    (parse_header_stage h m).data.save_sent_date = m.data.save_sent_date := by
  unfold parse_header_stage
  simp only []
  by_cases h1 : h.continued = false <;> by_cases h2 : h.no_newline = false <;>
    by_cases h3 : h.continues = false <;>
    simp [h1, h2, h3, header_data_append, set_parse_line, header_data_len]

theorem parse_header_line_data (h : message_header_line) (m : index_mail) :
    (parse_header_line h m).data.sent_date_time = m.data.sent_date_time ∧
    (parse_header_line h m).data.sent_date_timezone = m.data.sent_date_timezone ∧
    (parse_header_line h m).data.save_sent_date = m.data.save_sent_date := by
  have hl : (parse_header_lookup h m).data.sent_date_time = m.data.sent_date_time ∧
      (parse_header_lookup h m).data.sent_date_timezone = m.data.sent_date_timezone ∧
      (parse_header_lookup h m).data.save_sent_date = m.data.save_sent_date := by
    unfold parse_header_lookup
    split_ifs <;> exact ⟨rfl, rfl, rfl⟩
  have hd : ∀ m1 : index_mail,
      (parse_header_decide h m1).data.sent_date_time = m1.data.sent_date_time ∧
      (parse_header_decide h m1).data.sent_date_timezone = m1.data.sent_date_timezone ∧
      (parse_header_decide h m1).data.save_sent_date = m1.data.save_sent_date := by
    intro m1
    unfold parse_header_decide
    split_ifs <;> exact ⟨rfl, rfl, rfl⟩
  obtain ⟨l1, l2, l3⟩ := hl
  obtain ⟨d1, d2, d3⟩ := hd (parse_header_lookup h m)
  obtain ⟨s1, s2, s3⟩ := parse_header_stage_data h (parse_header_decide h (parse_header_lookup h m))
  unfold parse_header_line
  simp only []
  split_ifs
  · exact ⟨l1, l2, l3⟩
  · exact ⟨d1.trans l1, d2.trans l2, d3.trans l3⟩
  · exact ⟨(s1.trans d1).trans l1, (s2.trans d2).trans l2, (s3.trans d3).trans l3⟩

theorem parse_header_envelope_some_data (ext : collaborators) (h : message_header_line)
    (m : index_mail) :
    (parse_header_envelope ext (some h) m).data.sent_date_time = m.data.sent_date_time ∧
    (parse_header_envelope ext (some h) m).data.sent_date_timezone = m.data.sent_date_timezone ∧
    (parse_header_envelope ext (some h) m).data.save_sent_date = m.data.save_sent_date := by
  unfold parse_header_envelope
  split_ifs <;> exact ⟨rfl, rfl, rfl⟩

/-- C15: with `save_sent_date` set, a header line named `Date` (in any case) that does
not continue sets the sent date to what `message_date_parse` finds in the full value,
and to time 0 and timezone 0 when the parse fails, and clears `save_sent_date`; a line
that continues leaves the sent date and `save_sent_date` alone and sets
`use_full_value`.  Assumes that `i_assert (part != NULL)` holds. -/
theorem date_parse_recovery (ext : collaborators) (part : Bool) (h : message_header_line)
    (mail : index_mail) (hsave : mail.data.save_sent_date = true)
    (hname : strcasecmp h.name (cstr "Date") = 0)
    (hpart : mail.data.save_bodystructure_header = false ∨ part = true) :
    ∃ m' h', index_mail_parse_header ext part (some h) mail = outcome.returned (m', some h') ∧
      (h.continues = false →
        m'.data.save_sent_date = false ∧
        (ext.message_date_parse h.full_value = none →
          m'.data.sent_date_time = 0 ∧ m'.data.sent_date_timezone = 0) ∧
        (∀ time timezone, ext.message_date_parse h.full_value = some (time, timezone) →
          m'.data.sent_date_time = time ∧ m'.data.sent_date_timezone = timezone)) ∧
      (h.continues = true →
        m'.data.sent_date_time = mail.data.sent_date_time ∧
        m'.data.sent_date_timezone = mail.data.sent_date_timezone ∧
        m'.data.save_sent_date = true ∧ h'.use_full_value = true) := by
  have hno : ¬ (mail.data.save_bodystructure_header = true ∧ part = false) := by
    rintro ⟨x1, x2⟩
    rcases hpart with hp | hp
    · rw [hp] at x1; exact Bool.noConfusion x1
    · rw [hp] at x2; exact Bool.noConfusion x2
  obtain ⟨e1, e2, e3⟩ := parse_header_envelope_some_data ext h
    { mail with data := { mail.data with
      parse_line_num := (mail.data.parse_line_num + 1) % 4294967296 } }
  simp only at e1 e2 e3
  obtain ⟨l1, l2, l3⟩ := parse_header_line_data
    (parse_header_date ext h (parse_header_envelope ext (some h)
      { mail with data := { mail.data with
        parse_line_num := (mail.data.parse_line_num + 1) % 4294967296 } })).2
    (parse_header_date ext h (parse_header_envelope ext (some h)
      { mail with data := { mail.data with
        parse_line_num := (mail.data.parse_line_num + 1) % 4294967296 } })).1
  have hcond : (parse_header_envelope ext (some h)
      { mail with data := { mail.data with
        parse_line_num := (mail.data.parse_line_num + 1) % 4294967296 } }).data.save_sent_date
        = true ∧ strcasecmp h.name (cstr "Date") = 0 := ⟨e3.trans hsave, hname⟩
  refine ⟨parse_header_line
      (parse_header_date ext h (parse_header_envelope ext (some h)
        { mail with data := { mail.data with
          parse_line_num := (mail.data.parse_line_num + 1) % 4294967296 } })).2
      (parse_header_date ext h (parse_header_envelope ext (some h)
        { mail with data := { mail.data with
          parse_line_num := (mail.data.parse_line_num + 1) % 4294967296 } })).1,
    (parse_header_date ext h (parse_header_envelope ext (some h)
        { mail with data := { mail.data with
          parse_line_num := (mail.data.parse_line_num + 1) % 4294967296 } })).2, ?_, ?_, ?_⟩
  · unfold index_mail_parse_header
    simp only []
    rw [if_neg hno]
  · intro hc
    rw [l1, l2, l3]
    unfold parse_header_date
    rw [if_pos hcond]
    have hc' : ¬ h.continues = true := by rw [hc]; exact Bool.noConfusion
    rw [if_neg hc']
    cases hp : ext.message_date_parse h.full_value with
    | none => simp
    | some tz =>
      obtain ⟨t, z⟩ := tz
      simp only [reduceCtorEq, false_implies, Option.some.injEq, Prod.mk.injEq, and_imp,
        true_and]
      intro t' z' ht hz
      exact ⟨ht, hz⟩
  · intro hc
    rw [l1, l2, l3]
    unfold parse_header_date
    rw [if_pos hcond, if_pos hc]
    exact ⟨e1, e2, e3.trans hsave, rfl⟩

/-- C15, witness: with a date parser that reads `ok` as time 1000 in timezone 60, the
line `Date: ok` gives that sent date and clears `save_sent_date`. -/
theorem date_parse_recovery_witness :
    ({ fresh_mail 1 [] (fun _ _ => 0) with
        data := { (fresh_mail 1 [] (fun _ _ => 0)).data with save_sent_date := true } }
      : index_mail).data.save_sent_date = true ∧
    strcasecmp (header_line "DATE" "ok").name (cstr "Date") = 0 ∧
    (∃ m' h', index_mail_parse_header
        { example_ext with
          message_date_parse := fun v => if v = cstr "ok" then some (1000, 60) else none }
        false (some (header_line "DATE" "ok"))
        { fresh_mail 1 [] (fun _ _ => 0) with
          data := { (fresh_mail 1 [] (fun _ _ => 0)).data with save_sent_date := true } }
        = outcome.returned (m', some h') ∧
      m'.data.save_sent_date = false ∧ m'.data.sent_date_time = 1000 ∧
      m'.data.sent_date_timezone = 60) := by
  obtain ⟨m', h', k1, k2, _⟩ := date_parse_recovery
    { example_ext with
      message_date_parse := fun v => if v = cstr "ok" then some (1000, 60) else none }
    false (header_line "DATE" "ok")
    { fresh_mail 1 [] (fun _ _ => 0) with
      data := { (fresh_mail 1 [] (fun _ _ => 0)).data with save_sent_date := true } }
    rfl (by decide) (Or.inl rfl)
  obtain ⟨k3, _, k5⟩ := k2 rfl
  obtain ⟨k6, k7⟩ := k5 1000 60 (by decide)
  exact ⟨rfl, by decide, m', h', k1, k3, k6, k7⟩

theorem parse_line_after (h : message_header_line) (m : index_mail) :
    (h.continued = false →
      (parse_header_line h m).data.parse_line.field_idx =
        mail_cache_register_lookup m.cache (cstr "hdr." ++ h.name) ∧
      (mail_cache_register_lookup m.cache (cstr "hdr." ++ h.name) ≠ UINT_MAX →
        (parse_header_line h m).data.parse_line.cache =
          cache_flag m (mail_cache_register_lookup m.cache (cstr "hdr." ++ h.name)))) ∧
    (h.continued = true →
      (parse_header_line h m).data.parse_line.field_idx = m.data.parse_line.field_idx ∧
      (parse_header_line h m).data.parse_line.cache = m.data.parse_line.cache) := by
  obtain ⟨_, _, s3, s4, _⟩ :=
    parse_header_stage_spec h (parse_header_decide h (parse_header_lookup h m))
  constructor
  · intro hc
    have hl : (parse_header_lookup h m).data.parse_line.field_idx =
        mail_cache_register_lookup m.cache (cstr "hdr." ++ h.name) ∧
        (parse_header_lookup h m).cache = m.cache ∧
        (parse_header_lookup h m).cache_view = m.cache_view ∧
        (parse_header_lookup h m).data.seq = m.data.seq := by
      unfold parse_header_lookup
      rw [if_pos hc]
      exact ⟨rfl, rfl, rfl, rfl⟩
    obtain ⟨l1, l2, l3, l4⟩ := hl
    have hd : (parse_header_decide h (parse_header_lookup h m)).data.parse_line.field_idx =
        (parse_header_lookup h m).data.parse_line.field_idx ∧
        (parse_header_decide h (parse_header_lookup h m)).data.parse_line.cache =
          cache_flag (parse_header_lookup h m)
            (parse_header_lookup h m).data.parse_line.field_idx := by
      unfold parse_header_decide
      rw [if_pos hc]
      exact ⟨rfl, rfl⟩
    obtain ⟨d1, d2⟩ := hd
    have hflag : cache_flag (parse_header_lookup h m)
        (parse_header_lookup h m).data.parse_line.field_idx =
        cache_flag m (mail_cache_register_lookup m.cache (cstr "hdr." ++ h.name)) := by
      unfold cache_flag
      rw [l1, l2, l3, l4]
    unfold parse_header_line
    simp only []
    split_ifs with c1 c2
    · exact ⟨l1, fun hne => absurd (l1.symm.trans c1) hne⟩
    · exact ⟨d1.trans l1, fun _ => d2.trans hflag⟩
    · exact ⟨(s3.trans d1).trans l1, fun _ => (s4.trans d2).trans hflag⟩
  · intro hc
    have hc' : ¬ h.continued = false := by rw [hc]; exact Bool.noConfusion
    have hl : parse_header_lookup h m = m := by
      unfold parse_header_lookup
      rw [if_neg hc']
    have hd : parse_header_decide h m = m := by
      unfold parse_header_decide
      rw [if_neg hc']
    rw [hl, hd] at s3 s4
    unfold parse_header_line
    simp only []
    rw [hl, hd]
    split_ifs
    · exact ⟨rfl, rfl⟩
    · exact ⟨rfl, rfl⟩
    · exact ⟨s3, s4⟩

theorem parse_header_date_hdr (ext : collaborators) (h : message_header_line) (m : index_mail) :
    (parse_header_date ext h m).2.name = h.name ∧
    (parse_header_date ext h m).2.continued = h.continued := by
  unfold parse_header_date
  split_ifs
  · exact ⟨rfl, rfl⟩
  · cases ext.message_date_parse h.full_value <;> exact ⟨rfl, rfl⟩
  · exact ⟨rfl, rfl⟩

/-- C20, counterexample: the field `hdr.X` has the decision NO with the FORCED flag set
and does not exist in the cache view; the line `X: v` is given the cache flag false,
because the FORCED flag is masked out before the decision is compared with NO. -/
theorem forced_no_counterexample :
    mail_cache_field_get_decision
      [mail_cache_field.mk (cstr "hdr.X") mail_cache_field_type.HEADER
        (mail_cache_decision.mk mail_cache_decision_type.NO true)] 0 =
      mail_cache_decision.mk mail_cache_decision_type.NO true ∧
    parsed_line (index_mail_parse_header example_ext false (some (header_line "X" "v"))
      (fresh_mail 1 [mail_cache_field.mk (cstr "hdr.X") mail_cache_field_type.HEADER
        (mail_cache_decision.mk mail_cache_decision_type.NO true)] (fun _ _ => 0))) =
      some (index_mail_line.mk 0 0 0 0 false) := by
  decide

/-- C20, amended: for a header line that is not a continuation and whose field is
registered, `index_mail_parse_header` stores the index of the field and the cache flag
in `parse_line`; the flag is false if the decision of the field without its FORCED flag
is NO (with the flag set or not), otherwise false if the field exists for the message
in the cache view, otherwise true.  A continuation keeps the field index and the cache
flag of `parse_line`.  Assumes that `i_assert (part != NULL)` holds. -/
theorem decision_engine_flag (ext : collaborators) (part : Bool) (h : message_header_line)
    (mail : index_mail) (hpart : mail.data.save_bodystructure_header = false ∨ part = true) :
    ∃ r, index_mail_parse_header ext part (some h) mail = outcome.returned r ∧
      (h.continued = false →
        mail_cache_register_lookup mail.cache (cstr "hdr." ++ h.name) ≠ UINT_MAX →
        r.1.data.parse_line.field_idx =
          mail_cache_register_lookup mail.cache (cstr "hdr." ++ h.name) ∧
        r.1.data.parse_line.cache =
          (if (mail_cache_field_get_decision mail.cache
              (mail_cache_register_lookup mail.cache (cstr "hdr." ++ h.name))).base
              = mail_cache_decision_type.NO then false
           else if mail.cache_view mail.data.seq
              (mail_cache_register_lookup mail.cache (cstr "hdr." ++ h.name)) > 0 then false
           else true)) ∧
      (h.continued = true →
        r.1.data.parse_line.field_idx = mail.data.parse_line.field_idx ∧
        r.1.data.parse_line.cache = mail.data.parse_line.cache) := by
  have hno : ¬ (mail.data.save_bodystructure_header = true ∧ part = false) := by
    rintro ⟨x1, x2⟩
    rcases hpart with hp | hp
    · rw [hp] at x1; exact Bool.noConfusion x1
    · rw [hp] at x2; exact Bool.noConfusion x2
  obtain ⟨b1, _, _, b4, _⟩ := parse_header_before_line ext h mail
  obtain ⟨c1, c2, _, _, c5, _, _⟩ := b1
  obtain ⟨n1, n2⟩ := parse_header_date_hdr ext h (parse_header_envelope ext (some h)
    { mail with data := { mail.data with
      parse_line_num := (mail.data.parse_line_num + 1) % 4294967296 } })
  obtain ⟨p1, p2⟩ := parse_line_after
    (parse_header_date ext h (parse_header_envelope ext (some h)
      { mail with data := { mail.data with
        parse_line_num := (mail.data.parse_line_num + 1) % 4294967296 } })).2
    (parse_header_date ext h (parse_header_envelope ext (some h)
      { mail with data := { mail.data with
        parse_line_num := (mail.data.parse_line_num + 1) % 4294967296 } })).1
  rw [n1, n2, c1] at p1
  rw [n2, b4] at p2
  refine ⟨(parse_header_line
      (parse_header_date ext h (parse_header_envelope ext (some h)
        { mail with data := { mail.data with
          parse_line_num := (mail.data.parse_line_num + 1) % 4294967296 } })).2
      (parse_header_date ext h (parse_header_envelope ext (some h)
        { mail with data := { mail.data with
          parse_line_num := (mail.data.parse_line_num + 1) % 4294967296 } })).1,
    some (parse_header_date ext h (parse_header_envelope ext (some h)
        { mail with data := { mail.data with
          parse_line_num := (mail.data.parse_line_num + 1) % 4294967296 } })).2), ?_, ?_, p2⟩
  · unfold index_mail_parse_header
    simp only []
    rw [if_neg hno]
  · intro hc hreg
    obtain ⟨q1, q2⟩ := p1 hc
    refine ⟨q1, ?_⟩
    rw [q2 hreg]
    unfold cache_flag
    rw [c1, c2, c5]
    by_cases hd : (mail_cache_field_get_decision mail.cache
        (mail_cache_register_lookup mail.cache (cstr "hdr." ++ h.name))).base
        = mail_cache_decision_type.NO
    · simp [hd]
    · simp [hd]

/-- C20, witness: `hdr.X` with decision TEMP, not in the view: the line `X: v` gets
field 0 and the cache flag true. -/
theorem decision_engine_flag_witness :
    ((fresh_mail 1 [header_field "hdr.X" mail_cache_decision_type.TEMP]
        (fun _ _ => 0)).data.save_bodystructure_header = false ∨ false = true) ∧
    ∃ r, index_mail_parse_header example_ext false (some (header_line "X" "v"))
        (fresh_mail 1 [header_field "hdr.X" mail_cache_decision_type.TEMP] (fun _ _ => 0))
        = outcome.returned r ∧
      r.1.data.parse_line.field_idx = 0 ∧ r.1.data.parse_line.cache = true := by
  obtain ⟨r, k1, k2, _⟩ := decision_engine_flag example_ext false (header_line "X" "v")
    (fresh_mail 1 [header_field "hdr.X" mail_cache_decision_type.TEMP] (fun _ _ => 0))
    (Or.inl rfl)
  obtain ⟨k3, k4⟩ := k2 rfl (by decide)
  refine ⟨Or.inl rfl, r, k1, ?_, ?_⟩
  · rw [k3]
    decide
  · rw [k4]
    decide

/-! ## doveadm mailbox cache -/

/-- C16: for the decision option `d`, `cmd_mailbox_cache_parse_arg` accepts its argument
exactly when no decision flag was given before and the argument is `no`, `temp` or
`yes`; on acceptance the decision of the context is NO, TEMP or YES and `set_decision`
is true, with the rest of the context as it was; on rejection the context is
unchanged. -/
theorem parse_arg_decision (lib : doveadm_lib) (ctx : mailbox_cache_cmd_context)
    (optarg : List Nat) :
    ((cmd_mailbox_cache_parse_arg lib ctx 'd' optarg).1 = true ↔
      ctx.set_decision = false ∧
        (optarg = cstr "no" ∨ optarg = cstr "temp" ∨ optarg = cstr "yes")) ∧
    ((cmd_mailbox_cache_parse_arg lib ctx 'd' optarg).1 = true →
      (cmd_mailbox_cache_parse_arg lib ctx 'd' optarg).2 =
        { ctx with
          decision := mail_cache_decision.mk
            (if optarg = cstr "no" then mail_cache_decision_type.NO
             else if optarg = cstr "temp" then mail_cache_decision_type.TEMP
             else mail_cache_decision_type.YES) false
          set_decision := true }) ∧
    ((cmd_mailbox_cache_parse_arg lib ctx 'd' optarg).1 = false →
      (cmd_mailbox_cache_parse_arg lib ctx 'd' optarg).2 = ctx) := by
  have c1 : ¬ ('d' = 'a') := by decide
  have c2 : ¬ ('d' = 'f') := by decide
  have c3 : ¬ ('d' = 'l') := by decide
  have d1 : ¬ cstr "temp" = cstr "no" := by decide
  have d2 : ¬ cstr "yes" = cstr "no" := by decide
  have d3 : ¬ cstr "yes" = cstr "temp" := by decide
  unfold cmd_mailbox_cache_parse_arg
  rw [if_neg c1, if_neg c2, if_neg c3, if_pos rfl]
  by_cases hs : ctx.set_decision = true
  · rw [if_pos hs]
    simp [hs]
  · have hs' : ctx.set_decision = false := by simpa using hs
    rw [if_neg hs]
    by_cases h1 : optarg = cstr "no"
    · rw [if_pos h1]
      simp [hs', h1]
    · rw [if_neg h1]
      by_cases h2 : optarg = cstr "temp"
      · rw [if_pos h2]
        simp [hs', h1, h2, d1]
      · rw [if_neg h2]
        by_cases h3 : optarg = cstr "yes"
        · rw [if_pos h3]
          simp [hs', h1, h2, h3, d2, d3]
        · rw [if_neg h3]
          simp [h1, h2, h3]

/-- C16, examples: `temp` is accepted once and `yes` is refused after it; `maybe` is
refused. -/
theorem parse_arg_decision_example :
    (cmd_mailbox_cache_parse_arg example_lib
      (mailbox_cache_cmd_context.mk 0 [] none 0
        (mail_cache_decision.mk mail_cache_decision_type.NO false) false false false false)
      'd' (cstr "temp")) =
      (true, mailbox_cache_cmd_context.mk 0 [] none 0
        (mail_cache_decision.mk mail_cache_decision_type.TEMP false) false true false false) ∧
    (cmd_mailbox_cache_parse_arg example_lib
      (mailbox_cache_cmd_context.mk 0 [] none 0
        (mail_cache_decision.mk mail_cache_decision_type.TEMP false) false true false false)
      'd' (cstr "yes")).1 = false ∧
    (cmd_mailbox_cache_parse_arg example_lib
      (mailbox_cache_cmd_context.mk 0 [] none 0
        (mail_cache_decision.mk mail_cache_decision_type.NO false) false false false false)
      'd' (cstr "maybe")).1 = false := by
  decide

theorem process_field_idem (lib : doveadm_lib) (ctx : mailbox_cache_cmd_context)
    (f : mail_cache_field_private) :
    cmd_mailbox_cache_decision_process_field lib ctx
      (cmd_mailbox_cache_decision_process_field lib ctx f).1 =
      cmd_mailbox_cache_decision_process_field lib ctx f := by
  unfold cmd_mailbox_cache_decision_process_field
  by_cases h1 : ctx.set_decision = true <;> by_cases h2 : ctx.set_last_used = true <;>
    simp [h1, h2]

theorem process_field_name (lib : doveadm_lib) (ctx : mailbox_cache_cmd_context)
    (f : mail_cache_field_private) :
    (cmd_mailbox_cache_decision_process_field lib ctx f).1.name = f.name := by
  unfold cmd_mailbox_cache_decision_process_field
  by_cases h1 : ctx.set_decision = true <;> by_cases h2 : ctx.set_last_used = true <;>
    simp [h1, h2]

theorem run_all_fields_idem (lib : doveadm_lib) (ctx : mailbox_cache_cmd_context) :
    ∀ cache : List mail_cache_field_private,
      cmd_mailbox_cache_decision_run_all_fields lib ctx
        (cmd_mailbox_cache_decision_run_all_fields lib ctx cache).1 =
        cmd_mailbox_cache_decision_run_all_fields lib ctx cache := by
  intro cache
  induction cache with
  | nil => rfl
  | cons f rest ih =>
    simp only [cmd_mailbox_cache_decision_run_all_fields]
    rw [process_field_idem, process_field_name, ih]

theorem admin_lookup_range (cache : List mail_cache_field_private) (name : List Nat) :
    admin_register_lookup cache name = UINT_MAX ∨
      admin_register_lookup cache name < cache.length := by
  induction cache with
  | nil => exact Or.inl rfl
  | cons f fs ih =>
    unfold admin_register_lookup
    by_cases h1 : f.name = name
    · rw [if_pos h1]
      right
      simp
    · rw [if_neg h1]
      by_cases h2 : admin_register_lookup fs name = UINT_MAX
      · rw [if_pos h2]
        exact Or.inl rfl
      · rw [if_neg h2]
        right
        rcases ih with h3 | h3
        · exact absurd h3 h2
        · simp only [List.length_cons]
          omega

theorem admin_lookup_congr (name : List Nat) :
    ∀ C D : List mail_cache_field_private,
      C.map mail_cache_field_private.name = D.map mail_cache_field_private.name →
      admin_register_lookup C name = admin_register_lookup D name := by
  intro C
  induction C with
  | nil =>
    intro D h
    cases D with
    | nil => rfl
    | cons d ds => simp at h
  | cons c cs ih =>
    intro D h
    cases D with
    | nil => simp at h
    | cons d ds =>
      simp only [List.map_cons, List.cons.injEq] at h
      obtain ⟨h1, h2⟩ := h
      unfold admin_register_lookup
      rw [h1, ih ds h2]

theorem names_set (C : List mail_cache_field_private) (i : Nat)
    (f g : mail_cache_field_private) (hget : C.get? i = some f) (hname : g.name = f.name) :
    (C.set i g).map mail_cache_field_private.name = C.map mail_cache_field_private.name := by
  induction C generalizing i with
  | nil => rfl
  | cons c cs ih =>
    cases i with
    | zero =>
      simp only [List.get?_cons_zero, Option.some.injEq] at hget
      simp [hname, hget]
    | succ j =>
      simp only [List.get?_cons_succ] at hget
      simp only [List.set_cons_succ, List.map_cons, List.cons.injEq, true_and]
      exact ih j hget

theorem run_per_field_not_found (lib : doveadm_lib) (ctx : mailbox_cache_cmd_context)
    (n : List Nat) (rest : List (List Nat)) (C : List mail_cache_field_private)
    (h : admin_register_lookup C n = UINT_MAX) :
    cmd_mailbox_cache_decision_run_per_field lib ctx (n :: rest) C =
      ((cmd_mailbox_cache_decision_run_per_field lib ctx rest C).1,
        n :: cstr "<not found>" :: [] ::
          (cmd_mailbox_cache_decision_run_per_field lib ctx rest C).2) := by
  rw [cmd_mailbox_cache_decision_run_per_field, if_pos h]

theorem run_per_field_found (lib : doveadm_lib) (ctx : mailbox_cache_cmd_context)
    (n : List Nat) (rest : List (List Nat)) (C : List mail_cache_field_private)
    (f : mail_cache_field_private)
    (h : admin_register_lookup C n ≠ UINT_MAX)
    (hget : C.get? (admin_register_lookup C n) = some f) :
    cmd_mailbox_cache_decision_run_per_field lib ctx (n :: rest) C =
      ((cmd_mailbox_cache_decision_run_per_field lib ctx rest
          (C.set (admin_register_lookup C n)
            (cmd_mailbox_cache_decision_process_field lib ctx f).1)).1,
        n :: (cmd_mailbox_cache_decision_process_field lib ctx f).2 ++
          (cmd_mailbox_cache_decision_run_per_field lib ctx rest
            (C.set (admin_register_lookup C n)
              (cmd_mailbox_cache_decision_process_field lib ctx f).1)).2) := by
  rw [cmd_mailbox_cache_decision_run_per_field, if_neg h, hget]

theorem admin_lookup_get (C : List mail_cache_field_private) (n : List Nat)
    (h : admin_register_lookup C n ≠ UINT_MAX) :
    ∃ f, C.get? (admin_register_lookup C n) = some f := by
  rcases admin_lookup_range C n with h1 | h1
  · exact absurd h1 h
  · exact ⟨C.get ⟨_, h1⟩, List.get?_eq_get h1⟩

theorem run_per_field_names (lib : doveadm_lib) (ctx : mailbox_cache_cmd_context) :
    ∀ (names : List (List Nat)) (C : List mail_cache_field_private),
      (cmd_mailbox_cache_decision_run_per_field lib ctx names C).1.map
        mail_cache_field_private.name = C.map mail_cache_field_private.name := by
  intro names
  induction names with
  | nil => intro C; rfl
  | cons n rest ih =>
    intro C
    by_cases h : admin_register_lookup C n = UINT_MAX
    · rw [run_per_field_not_found lib ctx n rest C h]
      exact ih C
    · obtain ⟨f, hget⟩ := admin_lookup_get C n h
      rw [run_per_field_found lib ctx n rest C f h hget]
      simp only []
      rw [ih, names_set C _ f _ hget (process_field_name lib ctx f)]

theorem run_per_field_keeps (lib : doveadm_lib) (ctx : mailbox_cache_cmd_context) :
    ∀ (names : List (List Nat)) (X : List mail_cache_field_private) (i : Nat)
      (f : mail_cache_field_private), X.get? i = some f →
      (cmd_mailbox_cache_decision_process_field lib ctx f).1 = f →
      (cmd_mailbox_cache_decision_run_per_field lib ctx names X).1.get? i = some f := by
  intro names
  induction names with
  | nil => intro X i f hget _; exact hget
  | cons n rest ih =>
    intro X i f hget hfix
    by_cases h : admin_register_lookup X n = UINT_MAX
    · rw [run_per_field_not_found lib ctx n rest X h]
      exact ih X i f hget hfix
    · obtain ⟨g, hg⟩ := admin_lookup_get X n h
      rw [run_per_field_found lib ctx n rest X g h hg]
      simp only []
      apply ih _ i f _ hfix
      by_cases hi : admin_register_lookup X n = i
      · rw [hi] at hg ⊢
        rw [hget] at hg
        have hgf : g = f := (Option.some.inj hg).symm
        rw [hgf, hfix]
        rw [List.get?_eq_getElem?, List.getElem?_set_self]
        rw [List.get?_eq_getElem?] at hget
        exact (List.getElem?_eq_some_iff.mp hget).1
      · rw [List.get?_eq_getElem?, List.getElem?_set_ne hi, ← List.get?_eq_getElem?]
        exact hget

theorem set_get_self (C : List mail_cache_field_private) (i : Nat)
    (f : mail_cache_field_private) (hget : C.get? i = some f) : C.set i f = C := by
  induction C generalizing i with
  | nil => rfl
  | cons c cs ih =>
    cases i with
    | zero =>
      simp only [List.get?_cons_zero, Option.some.injEq] at hget
      simp [hget]
    | succ j =>
      simp only [List.get?_cons_succ] at hget
      simp only [List.set_cons_succ, List.cons.injEq, true_and]
      exact ih j hget

theorem run_per_field_idem (lib : doveadm_lib) (ctx : mailbox_cache_cmd_context) :
    ∀ (names : List (List Nat)) (C : List mail_cache_field_private),
      cmd_mailbox_cache_decision_run_per_field lib ctx names
        (cmd_mailbox_cache_decision_run_per_field lib ctx names C).1 =
        cmd_mailbox_cache_decision_run_per_field lib ctx names C := by
  intro names
  induction names with
  | nil => intro C; rfl
  | cons n rest ih =>
    intro C
    by_cases h : admin_register_lookup C n = UINT_MAX
    · rw [run_per_field_not_found lib ctx n rest C h]
      simp only []
      have h' : admin_register_lookup
          (cmd_mailbox_cache_decision_run_per_field lib ctx rest C).1 n = UINT_MAX := by
        rw [admin_lookup_congr n _ C (run_per_field_names lib ctx rest C)]
        exact h
      rw [run_per_field_not_found lib ctx n rest _ h', ih C]
    · obtain ⟨f, hget⟩ := admin_lookup_get C n h
      rw [run_per_field_found lib ctx n rest C f h hget]
      simp only []
      have hnames := names_set C _ f _ hget (process_field_name lib ctx f)
      have hl : admin_register_lookup
          (cmd_mailbox_cache_decision_run_per_field lib ctx rest
            (C.set (admin_register_lookup C n)
              (cmd_mailbox_cache_decision_process_field lib ctx f).1)).1 n =
          admin_register_lookup C n := by
        rw [admin_lookup_congr n _ _ (run_per_field_names lib ctx rest _)]
        exact admin_lookup_congr n _ _ hnames
      have hset : (C.set (admin_register_lookup C n)
          (cmd_mailbox_cache_decision_process_field lib ctx f).1).get?
            (admin_register_lookup C n) =
          some (cmd_mailbox_cache_decision_process_field lib ctx f).1 := by
        rw [List.get?_eq_getElem?, List.getElem?_set_self]
        rw [List.get?_eq_getElem?] at hget
        exact (List.getElem?_eq_some_iff.mp hget).1
      have hfix : (cmd_mailbox_cache_decision_process_field lib ctx
          (cmd_mailbox_cache_decision_process_field lib ctx f).1).1 =
          (cmd_mailbox_cache_decision_process_field lib ctx f).1 := by
        rw [process_field_idem]
      have hkept := run_per_field_keeps lib ctx rest _ _ _ hset hfix
      have hne : admin_register_lookup
          (cmd_mailbox_cache_decision_run_per_field lib ctx rest
            (C.set (admin_register_lookup C n)
              (cmd_mailbox_cache_decision_process_field lib ctx f).1)).1 n ≠ UINT_MAX := by
        rw [hl]; exact h
      rw [run_per_field_found lib ctx n rest _
        (cmd_mailbox_cache_decision_process_field lib ctx f).1 hne (by rw [hl]; exact hkept)]
      rw [hl, process_field_idem, set_get_self _ _ _ hkept, ih]

/-- C17: the processing of the fields of a mailbox by the decision command (all fields,
or the named fields) is idempotent: run on the registry that a first run leaves, it
gives the same registry (decision, last-used time and dirty flag of every field) and
prints the same rows as the first run. -/
theorem decision_fields_idempotent (lib : doveadm_lib) (ctx : mailbox_cache_cmd_context)
    (cache : List mail_cache_field_private) :
    (decision_process_fields lib ctx (decision_process_fields lib ctx cache).1).1 =
      (decision_process_fields lib ctx cache).1 ∧
    (decision_process_fields lib ctx (decision_process_fields lib ctx cache).1).2 =
      (decision_process_fields lib ctx cache).2 := by
  unfold decision_process_fields
  by_cases h : ctx.all_fields = true
  · simp only [if_pos h]
    rw [run_all_fields_idem]
    exact ⟨rfl, rfl⟩
  · simp only [if_neg h]
    rw [run_per_field_idem]
    exact ⟨rfl, rfl⟩

/-- C17, example: the decision of `hdr.Subject` is set to YES; the first run changes
the field and marks it dirty, and the second run changes nothing. -/
theorem decision_fields_idempotent_example :
    (decision_process_fields example_lib
      (mailbox_cache_cmd_context.mk 0 [] (some [cstr "hdr.Subject", cstr "hdr.none"]) 0
        (mail_cache_decision.mk mail_cache_decision_type.YES false) false true false false)
      [mail_cache_field_private.mk (cstr "hdr.Subject")
        (mail_cache_decision.mk mail_cache_decision_type.TEMP false) 5 false]) =
      ([mail_cache_field_private.mk (cstr "hdr.Subject")
        (mail_cache_decision.mk mail_cache_decision_type.YES false) 5 true],
        [cstr "hdr.Subject", cstr "yes", cstr "5", cstr "hdr.none", cstr "<not found>", []]) ∧
    (decision_process_fields example_lib
      (mailbox_cache_cmd_context.mk 0 [] (some [cstr "hdr.Subject", cstr "hdr.none"]) 0
        (mail_cache_decision.mk mail_cache_decision_type.YES false) false true false false)
      [mail_cache_field_private.mk (cstr "hdr.Subject")
        (mail_cache_decision.mk mail_cache_decision_type.YES false) 5 true]) =
      ([mail_cache_field_private.mk (cstr "hdr.Subject")
        (mail_cache_decision.mk mail_cache_decision_type.YES false) 5 true],
        [cstr "hdr.Subject", cstr "yes", cstr "5", cstr "hdr.none", cstr "<not found>", []]) := by
  decide

theorem decision_run_loop_stop (lib : doveadm_lib) (boxes : List admin_mailbox)
    (st : decision_run_state) (h : st.ret ≠ 0) : decision_run_loop lib boxes st = st := by
  cases boxes with
  | nil => rfl
  | cons b rest =>
    unfold decision_run_loop
    rw [if_neg h]

theorem run_box_spec (lib : doveadm_lib) (ctx : mailbox_cache_cmd_context) (box : admin_mailbox) :
    ((cmd_mailbox_cache_decision_run_box lib ctx box).ret = 0 ∨
      (cmd_mailbox_cache_decision_run_box lib ctx box).ret = -1) ∧
    ((cmd_mailbox_cache_decision_run_box lib ctx box).ret = 0 ↔
      (box.cache_ok = true ∧ box.commit_ok = true)) ∧
    (cmd_mailbox_cache_decision_run_box lib ctx box).visited.map admin_mailbox.vname =
      [box.vname] := by
  unfold cmd_mailbox_cache_decision_run_box
  cases hc : box.cache_ok <;> cases hm : box.commit_ok <;> simp

theorem decision_run_loop_spec (lib : doveadm_lib) :
    ∀ (boxes : List admin_mailbox) (st : decision_run_state), st.ret = 0 →
      ((decision_run_loop lib boxes st).ret = -1 ↔ ∃ b ∈ boxes, box_ok b = false) ∧
      ((decision_run_loop lib boxes st).ret = 0 ∨ (decision_run_loop lib boxes st).ret = -1) ∧
      (decision_run_loop lib boxes st).visited.map admin_mailbox.vname =
        st.visited.map admin_mailbox.vname ++
          (boxes.takeWhile box_ok ++ (boxes.dropWhile box_ok).take 1).map admin_mailbox.vname := by
  intro boxes
  induction boxes with
  | nil =>
    intro st h
    simp [decision_run_loop, h]
  | cons b rest ih =>
    intro st h
    unfold decision_run_loop
    rw [if_pos h]
    obtain ⟨r1, r2, r3⟩ := run_box_spec lib st.ctx b
    by_cases ho : b.open_ok = false
    · rw [if_pos ho]
      have hb : box_ok b = false := by simp [box_ok, ho]
      have hp : ¬ box_ok b = true := by rw [hb]; exact Bool.noConfusion
      rw [takeWhile_neg box_ok b rest hp, dropWhile_neg box_ok b rest hp]
      refine ⟨⟨fun _ => ⟨b, List.mem_cons_self b rest, hb⟩, fun _ => rfl⟩, Or.inr rfl, ?_⟩
      simp only [List.take_succ_cons, List.take_zero, List.nil_append, List.map_append,
        List.map_cons, List.map_nil]
    · have ho' : b.open_ok = true := by simpa using ho
      rw [if_neg ho]
      by_cases hr : (cmd_mailbox_cache_decision_run_box lib st.ctx b).ret = 0
      · -- the mailbox succeeds and the loop goes on
        obtain ⟨hc, hm⟩ := r2.mp hr
        have hb : box_ok b = true := by simp [box_ok, ho', hc, hm]
        obtain ⟨i1, i2, i3⟩ := ih
          (decision_run_state.mk (cmd_mailbox_cache_decision_run_box lib st.ctx b).ret
            (cmd_mailbox_cache_decision_run_box lib st.ctx b).ctx
            (st.printed ++ b.vname :: (cmd_mailbox_cache_decision_run_box lib st.ctx b).printed)
            (st.visited ++ (cmd_mailbox_cache_decision_run_box lib st.ctx b).visited)) hr
        refine ⟨?_, i2, ?_⟩
        · rw [i1]
          constructor
          · rintro ⟨x, hx, hxf⟩
            exact ⟨x, List.mem_cons_of_mem b hx, hxf⟩
          · rintro ⟨x, hx, hxf⟩
            rcases List.mem_cons.mp hx with h1 | h1
            · rw [h1, hb] at hxf
              exact Bool.noConfusion hxf
            · exact ⟨x, h1, hxf⟩
        · rw [i3, takeWhile_pos box_ok b rest hb, dropWhile_pos box_ok b rest hb]
          simp only [List.map_append, r3, List.cons_append, List.map_cons, List.append_assoc,
            List.singleton_append, List.nil_append]
      · -- the mailbox fails and the loop stops
        have hr' : (cmd_mailbox_cache_decision_run_box lib st.ctx b).ret = -1 := by
          rcases r1 with h1 | h1
          · exact absurd h1 hr
          · exact h1
        have hb : box_ok b = false := by
          cases hx : box_ok b with
          | false => rfl
          | true =>
            exfalso
            apply hr
            rw [r2]
            simp only [box_ok, Bool.and_eq_true] at hx
            exact ⟨hx.1.2, hx.2⟩
        have hp : ¬ box_ok b = true := by rw [hb]; exact Bool.noConfusion
        rw [decision_run_loop_stop lib rest _ (by simpa using hr)]
        rw [takeWhile_neg box_ok b rest hp, dropWhile_neg box_ok b rest hp]
        simp only [List.take_succ_cons, List.take_zero, List.nil_append, List.map_append, r3,
          List.map_cons, List.map_nil]
        exact ⟨⟨fun _ => ⟨b, List.mem_cons_self b rest, hb⟩, fun _ => hr'⟩, Or.inr hr', trivial⟩

/-- C18, counterexample: the first mailbox cannot be opened and the second one is
fine; the run fails and never visits the second mailbox. -/
theorem decision_run_counterexample :
    (cmd_mailbox_cache_decision_run example_lib example_ctx
      [example_box "A" false true true, example_box "B" true true true]).ret = -1 ∧
    (cmd_mailbox_cache_decision_run example_lib example_ctx
      [example_box "A" false true true, example_box "B" true true true]).visited.map
        admin_mailbox.vname = [cstr "A"] ∧
    (cmd_mailbox_cache_decision_run example_lib example_ctx
      [example_box "A" true false true, example_box "B" true true true]).visited.map
        admin_mailbox.vname = [cstr "A"] := by
  decide

/-- C18, amended: the decision command processes the mailboxes in order and stops at
the first one that fails (open or sync failure, unusable cache, commit failure): the
mailboxes before it and the failing one are visited, the ones after it are not; the
result is -1 if some mailbox of the list fails and 0 otherwise. -/
theorem decision_run_stops_at_failure (lib : doveadm_lib) (ctx : mailbox_cache_cmd_context)
    (boxes : List admin_mailbox) :
    ((cmd_mailbox_cache_decision_run lib ctx boxes).ret = -1 ↔
      ∃ b ∈ boxes, box_ok b = false) ∧
    ((cmd_mailbox_cache_decision_run lib ctx boxes).ret = 0 ∨
      (cmd_mailbox_cache_decision_run lib ctx boxes).ret = -1) ∧
    (cmd_mailbox_cache_decision_run lib ctx boxes).visited.map admin_mailbox.vname =
      (boxes.takeWhile box_ok ++ (boxes.dropWhile box_ok).take 1).map admin_mailbox.vname := by
  obtain ⟨h1, h2, h3⟩ := decision_run_loop_spec lib boxes (decision_run_state.mk 0 ctx [] []) rfl
  unfold cmd_mailbox_cache_decision_run
  refine ⟨h1, h2, ?_⟩
  rw [h3]
  rfl

theorem int_add_one (count : Int) (h0 : 0 ≤ count) (h1 : count + 1 < 2147483648) :
    int_add count 1 = count + 1 := by
  unfold int_add
  split_ifs <;> omega

theorem remove_box_loop_spec (lib : doveadm_lib) (vname : List Nat) :
    ∀ (mails : List admin_mail) (count : Int) (printed : List (List Nat)) (cleared : List Nat),
      0 ≤ count → count + mails.length < 2147483648 →
      remove_box_loop lib vname mails count printed cleared =
        (count + mails.length,
          printed ++ mails.flatMap (fun m => [vname, lib.dec2str m.uid, cstr "ok"]),
          cleared ++ mails.map admin_mail.seq) := by
  intro mails
  induction mails with
  | nil => intro count printed cleared _ _; simp [remove_box_loop]
  | cons m rest ih =>
    intro count printed cleared h0 h1
    simp only [List.length_cons, Nat.cast_add, Nat.cast_one] at h1
    unfold remove_box_loop
    rw [int_add_one count h0 (by omega), ih _ _ _ (by omega) (by omega)]
    simp only [List.length_cons, Nat.cast_add, Nat.cast_one, List.flatMap_cons, List.map_cons,
      List.append_assoc, List.singleton_append, List.cons_append, List.nil_append]
    refine Prod.ext ?_ rfl
    simp only
    omega

/-- C19: for a mailbox whose search gives the matched messages `mails`,
`cmd_mailbox_cache_remove_box` clears the cache pointer extension of the sequence of
every matched message, prints the row (mailbox, uid, `ok`) of each in iteration order,
and calls `mail_cache_expunge_count` once with the number of matched messages exactly
when the commit of the index transaction succeeds; when the commit fails it makes no
such call and returns -1.  Assumes that the number of messages fits into the `int`
counter. -/
theorem remove_box_rows (lib : doveadm_lib) (vname : List Nat) (mails : List admin_mail)
    (commit_ok deinit_ok : Bool) (hn : mails.length < 2147483648) :
    (cmd_mailbox_cache_remove_box lib vname (some mails) commit_ok deinit_ok).ext_cleared =
      mails.map admin_mail.seq ∧
    (cmd_mailbox_cache_remove_box lib vname (some mails) commit_ok deinit_ok).printed =
      mails.flatMap (fun m => [vname, lib.dec2str m.uid, cstr "ok"]) ∧
    (commit_ok = true →
      (cmd_mailbox_cache_remove_box lib vname (some mails) commit_ok deinit_ok).expunge_counts =
        [(mails.length : Int)]) ∧
    (commit_ok = false →
      (cmd_mailbox_cache_remove_box lib vname (some mails) commit_ok deinit_ok).expunge_counts
        = [] ∧
      (cmd_mailbox_cache_remove_box lib vname (some mails) commit_ok deinit_ok).ret = -1) := by
  have hloop := remove_box_loop_spec lib vname mails 0 [] [] (by omega) (by omega)
  unfold cmd_mailbox_cache_remove_box
  simp only []
  rw [hloop]
  refine ⟨by simp, by simp, ?_, ?_⟩
  · intro hc
    simp [hc]
  · intro hc
    simp [hc]

/-- C19, witness: the messages with the uids 11 and 42 (sequences 1 and 2) of the
mailbox `box`: both sequences are cleared, the rows are (box, 11, ok) and (box, 42, ok),
and `mail_cache_expunge_count` gets 2. -/
theorem remove_box_rows_witness :
    [admin_mail.mk 11 1, admin_mail.mk 42 2].length < 2147483648 ∧
    cmd_mailbox_cache_remove_box example_lib (cstr "box")
        (some [admin_mail.mk 11 1, admin_mail.mk 42 2]) true true =
      remove_box_result.mk 0
        [cstr "box", cstr "11", cstr "ok", cstr "box", cstr "42", cstr "ok"] [1, 2] [2] ∧
    (cmd_mailbox_cache_remove_box example_lib (cstr "box")
        (some [admin_mail.mk 11 1, admin_mail.mk 42 2]) true true).expunge_counts = [2] :=
  ⟨by decide, by decide,
    (remove_box_rows example_lib (cstr "box") [admin_mail.mk 11 1, admin_mail.mk 42 2]
      true true (by decide)).2.2.1 rfl⟩

theorem finish_runs_negative_bound (past : index_mail_line) (header hmatch : List Nat)
    (v seq : Nat) :
    ∀ (runs : List (List index_mail_line)) (midx : Nat),
      (∀ run ∈ runs, ∃ x tl, run = x :: tl ∧ ∀ y ∈ tl, y.field_idx = x.field_idx) →
      ∀ r ∈ finish_runs past header hmatch v seq runs midx, r.data = [] →
        ∃ run ∈ runs, ∃ l ∈ run, r.field < l.field_idx := by
  intro runs
  induction runs with
  | nil =>
    intro midx _ r hr
    simp [finish_runs] at hr
  | cons run runs ih =>
    intro midx hshape r hr hdata
    obtain ⟨x, tl, hrun, _⟩ := hshape run (List.mem_cons_self run runs)
    unfold finish_runs at hr
    rcases List.mem_append.mp hr with h1 | h1
    · obtain ⟨m, _, hm, _, _, hrm⟩ := (mem_missing_records _ _ _ _ _ _).mp h1
      refine ⟨run, List.mem_cons_self run runs, x, by rw [hrun]; exact List.mem_cons_self x tl, ?_⟩
      rw [hrun] at hm
      rw [hrm]
      exact hm
    · rcases List.mem_cons.mp h1 with h2 | h2
      · exfalso
        rw [h2] at hdata
        exact run_payload_ne_nil header run hdata
      · obtain ⟨run1, hrun1, l, hl, hlt⟩ :=
          ih _ (fun q hq => hshape q (List.mem_cons_of_mem run hq)) r h2 hdata
        exact ⟨run1, List.mem_cons_of_mem run hrun1, l, hl, hlt⟩

/-- C24: with an empty staging area `index_mail_parse_header_finish` adds no record,
whatever the match bitmap holds; and in general every negative (empty payload) record
that it adds has a field index below the field index of a staged line, so none lies
above the largest staged field index. -/
theorem finish_negative_below_staged (mail : index_mail) :
    (index_mail_parse_header_finish { mail with header_lines := [] }).cache_trans =
      mail.cache_trans ∧
    ∃ added, (index_mail_parse_header_finish mail).cache_trans = mail.cache_trans ++ added ∧
      ∀ r ∈ added, r.data = [] → ∃ l ∈ mail.header_lines, r.field < l.field_idx := by
  constructor
  · rfl
  · refine ⟨finish_added mail, finish_cache_trans mail, ?_⟩
    intro r hr hdata
    obtain ⟨run, hrun, l, hl, hlt⟩ :=
      finish_runs_negative_bound _ _ _ _ _ _ 0 (field_runs_shape _) r hr hdata
    have hmem : l ∈ (field_runs (qsort_lines mail.header_lines)).flatten :=
      List.mem_flatten.mpr ⟨run, hrun, hl⟩
    rw [field_runs_flatten] at hmem
    exact ⟨l, (qsort_lines_perm mail.header_lines).mem_iff.mp hmem, hlt⟩

/-- C24, example: the bitmap marks the fields 0 to 3 and nothing is staged: no record is
added.  With one line of field 1 staged, the negative record of field 0 is added and
none for the fields 2 and 3. -/
theorem finish_negative_below_staged_example :
    (index_mail_parse_header_finish (staged_mail [] [] [1, 1, 1, 1] 1)).cache_trans = [] ∧
    (index_mail_parse_header_finish
      (staged_mail (cstr "To: x\n") [index_mail_line.mk 1 0 6 1 true] [1, 1, 1, 1] 1)).cache_trans
      = [cache_record.mk 1 0 [],
          cache_record.mk 1 1 (uint32_bytes 1 ++ uint32_bytes 0 ++ cstr "To: x\n")] := by
  decide

theorem finish_bytes_copy (s : List index_mail_line) (past : index_mail_line)
    (header : List Nat) (i j : Nat) (buf : List Nat) (hj : j ≤ s.length) :
    (finish_bytes s past header i j true buf).2 =
      buf ++ ((s.drop i).take (j - i)).flatMap (line_bytes header) := by
  unfold finish_bytes
  rw [if_pos rfl, finish_copy_eq s past header j hj _ _ _ (Nat.le_refl _)]

/-- C23: for the run of lines that starts at index `i` of the sorted staging lines
(the line `x` there and the lines after it that share its field index), each with
`start_pos ≤ end_pos`, the payload that finalize builds is the line numbers, the zero
and then the bytes `header_data[start_pos..end_pos)` of the lines of the run in order.
The per-line branch appends exactly these bytes, and the single-slice branch appends
the same bytes when every line of the run starts where the line before it ends. -/
theorem finish_slice_equivalence (s : List index_mail_line) (past : index_mail_line)
    (header : List Nat) (i : Nat) (x : index_mail_line) (rest : List index_mail_line)
    (h : s.drop i = x :: rest)
    (hv : ∀ l ∈ x :: rest.takeWhile (fun y => y.field_idx = x.field_idx),
      l.start_pos ≤ l.end_pos) :
    (finish_run s past header i).2.2 =
      (x :: rest.takeWhile (fun y => y.field_idx = x.field_idx)).flatMap
          (fun l => uint32_bytes l.line_num) ++ uint32_bytes 0 ++
        (x :: rest.takeWhile (fun y => y.field_idx = x.field_idx)).flatMap (line_bytes header) ∧
    (∀ buf, (finish_bytes s past header i
        (i + 1 + (rest.takeWhile (fun y => y.field_idx = x.field_idx)).length) true buf).2 =
      buf ++ (x :: rest.takeWhile (fun y => y.field_idx = x.field_idx)).flatMap
        (line_bytes header)) ∧
    (run_noncontiguous (x :: rest.takeWhile (fun y => y.field_idx = x.field_idx)) = false →
      ∀ buf, (finish_bytes s past header i
          (i + 1 + (rest.takeWhile (fun y => y.field_idx = x.field_idx)).length) false buf).2 =
        buf ++ (x :: rest.takeWhile (fun y => y.field_idx = x.field_idx)).flatMap
          (line_bytes header)) := by
  obtain ⟨hx, hrest, hi⟩ := getD_eq_of_drop s past x rest i h
  have hlen : rest.length = s.length - (i + 1) := by
    rw [← hrest, List.length_drop]
  have htl := takeWhile_length_le (fun y : index_mail_line => decide (y.field_idx = x.field_idx)) rest
  refine ⟨?_, ?_, ?_⟩
  · rw [finish_run_eq s past header i x rest h]
    simp only [run_payload]
    rw [run_bytes_eq header _ hv]
  · intro buf
    rw [finish_bytes_copy s past header i _ buf (by omega)]
    have e1 : i + 1 + (rest.takeWhile (fun y => decide (y.field_idx = x.field_idx))).length - i =
        (rest.takeWhile (fun y => decide (y.field_idx = x.field_idx))).length + 1 := by omega
    rw [h, e1, List.take_succ_cons, ← takeWhile_eq_take]
  · intro hn buf
    have hn' : noncontiguous_from x (rest.takeWhile (fun y => y.field_idx = x.field_idx)) = false := hn
    obtain ⟨_, c2⟩ := contiguous_bytes header _ x hn' hv
    unfold finish_bytes
    rw [if_neg (by simp)]
    have e1 : i + 1 + (rest.takeWhile (fun y => decide (y.field_idx = x.field_idx))).length - 1 =
        i + (rest.takeWhile (fun y => decide (y.field_idx = x.field_idx))).length := by omega
    have e2 : s.getD (i + (rest.takeWhile (fun y => decide (y.field_idx = x.field_idx))).length) past
        = ((x :: rest.takeWhile (fun y => decide (y.field_idx = x.field_idx))).getLast?).getD x := by
      rw [List.getD_eq_getElem?_getD, ← List.getElem?_drop, h,
        getElem?_eq_getLast?_take rest x _ htl, ← takeWhile_eq_take]
      cases hl : (x :: rest.takeWhile (fun y => decide (y.field_idx = x.field_idx))).getLast? with
      | none => simp at hl
      | some z => rfl
    rw [e1, e2, hx]
    simp only [buffer_append]
    rw [c2]

/-- C23, witness: the run of the two `Received` lines of `received_mail`, which is not
contiguous, gives the bytes of both lines in the order of their line numbers. -/
theorem finish_slice_equivalence_witness :
    (finish_run (qsort_lines received_mail.header_lines) zero_line
        (cstr "Received: a\nSubject: s\nReceived: b\n") 0).2.2 =
      uint32_bytes 3 ++ uint32_bytes 7 ++ uint32_bytes 0 ++ cstr "Received: a\nReceived: b\n" :=
  (finish_slice_equivalence (qsort_lines received_mail.header_lines) zero_line
    (cstr "Received: a\nSubject: s\nReceived: b\n") 0 (index_mail_line.mk 2 0 12 3 true)
    [index_mail_line.mk 2 23 35 7 true, index_mail_line.mk 3 12 23 5 true] (by decide)
    (by decide)).1

theorem get_header_skip_no_colon (data : List Nat) (hno : 58 ∉ data) :
    ∀ (fuel i : Nat), i ≤ data.length → data.length - i ≤ fuel →
      get_header_skip data fuel i = data.length := by
  intro fuel
  induction fuel with
  | zero =>
    intro i h1 h2
    unfold get_header_skip
    omega
  | succ n ih =>
    intro i h1 h2
    unfold get_header_skip
    by_cases hi : i < data.length
    · rw [if_pos hi]
      have hne : data.getD i 0 ≠ 58 := by
        rw [List.getD_eq_getElem _ _ hi]
        intro he
        exact hno (he ▸ List.getElem_mem hi)
      rw [if_neg hne]
      exact ih (i + 1) (by omega) (by omega)
    · rw [if_neg hi]
      omega

theorem get_header_cut_end (data : List Nat) (fuel : Nat) :
    get_header_cut data fuel data.length = data.length := by
  cases fuel with
  | zero => rfl
  | succ n =>
    unfold get_header_cut
    rw [if_neg (Nat.lt_irrefl _)]

theorem get_header_value_no_colon (dest : List Nat) (hno : 58 ∉ dest) :
    get_header_value dest = [] := by
  unfold get_header_value
  rw [get_header_skip_no_colon dest hno dest.length 0 (Nat.zero_le _) (by omega),
    get_header_cut_end, List.take_length, List.drop_length]

theorem parse_headers_ret (ext : collaborators) (get_stream : Option (List message_header_line))
    (part : Bool) (mail : index_mail) (r : Int × index_mail)
    (h : index_mail_parse_headers ext get_stream part mail = outcome.returned r) :
    r.1 = 0 ∨ r.1 = 1 := by
  unfold index_mail_parse_headers at h
  split at h
  · injection h with h1
    rw [← h1]
    exact Or.inl rfl
  · split at h
    · injection h with h1
      rw [← h1]
      exact Or.inr rfl
    · exact outcome.noConfusion h

/-- C25: whenever the cache lookup of `index_mail_get_header` hits (returns a value
above 0), on the first attempt or after the headers have been parsed, the function
returns a string and not NULL; when the materialized bytes hold no colon, as when
there are no bytes at all, the string is empty. -/
theorem get_header_hit_returns_string (ext : collaborators)
    (get_stream : Option (List message_header_line)) (part : Bool) (mail : index_mail)
    (field : List Nat) :
    ((ext.mail_cache_lookup_headers (get_header_mail mail field)
        [(get_header_field_idx mail.cache field).1]).1 > 0 →
      ∃ v, index_mail_get_header ext get_stream part mail field = outcome.returned (some v) ∧
        (58 ∉ (ext.mail_cache_lookup_headers (get_header_mail mail field)
          [(get_header_field_idx mail.cache field).1]).2 → v = [])) ∧
    (∀ r, (ext.mail_cache_lookup_headers (get_header_mail mail field)
        [(get_header_field_idx mail.cache field).1]).1 ≤ 0 →
      index_mail_parse_headers ext get_stream part (get_header_mail mail field) =
        outcome.returned r →
      (ext.mail_cache_lookup_headers r.2 [(get_header_field_idx mail.cache field).1]).1 > 0 →
      ∃ v, index_mail_get_header ext get_stream part mail field = outcome.returned (some v) ∧
        (58 ∉ (ext.mail_cache_lookup_headers (get_header_mail mail field)
            [(get_header_field_idx mail.cache field).1]).2 ++
          (ext.mail_cache_lookup_headers r.2 [(get_header_field_idx mail.cache field).1]).2 →
          v = [])) := by
  constructor
  · intro hhit
    refine ⟨_, ?_, get_header_value_no_colon _⟩
    unfold index_mail_get_header
    rw [if_neg (by omega)]
  · intro r hmiss hparse hhit
    refine ⟨_, ?_, get_header_value_no_colon _⟩
    unfold index_mail_get_header
    rw [if_pos hmiss, hparse]
    have hr := parse_headers_ret ext get_stream part _ r hparse
    simp only []
    rw [if_neg (by omega), if_neg (by omega), if_neg (by omega)]

/-- C25, witness: a hit that materializes no bytes (a negative entry) and a hit that
materializes the bytes `abc` without a colon both give the empty string. -/
theorem get_header_hit_returns_string_witness :
    index_mail_get_header (hit_ext []) none false (fresh_mail 1 [] (fun _ _ => 0))
      (cstr "Subject") = outcome.returned (some []) ∧
    index_mail_get_header (hit_ext (cstr "abc")) none false (fresh_mail 1 [] (fun _ _ => 0))
      (cstr "Subject") = outcome.returned (some []) ∧
    ∃ v, index_mail_get_header (hit_ext (cstr "abc")) none false
        (fresh_mail 1 [] (fun _ _ => 0)) (cstr "Subject") = outcome.returned (some v) ∧
      (58 ∉ ((hit_ext (cstr "abc")).mail_cache_lookup_headers
          (get_header_mail (fresh_mail 1 [] (fun _ _ => 0)) (cstr "Subject"))
          [(get_header_field_idx (fresh_mail 1 [] (fun _ _ => 0)).cache (cstr "Subject")).1]).2 →
        v = []) :=
  ⟨by decide, by decide,
    (get_header_hit_returns_string (hit_ext (cstr "abc")) none false
      (fresh_mail 1 [] (fun _ _ => 0)) (cstr "Subject")).1 (by decide)⟩

theorem parse_header_line_closed (h : message_header_line) (m : index_mail) :
    parse_header_line h m =
      if event_field h m = UINT_MAX then
        set_parse_line m { m.data.parse_line with field_idx := event_field h m }
      else if event_cache h m = false ∧ ¬ field_wanted m (event_field h m) then
        set_parse_line m
          { m.data.parse_line with field_idx := event_field h m, cache := event_cache h m }
      else
        parse_header_stage h (set_parse_line m
          { m.data.parse_line with field_idx := event_field h m, cache := event_cache h m }) := by
  have hw : ∀ (f : Nat), (f ≥ m.header_match.length ∨ m.header_match.getD f 0 ≠ m.header_match_value)
      ↔ ¬ field_wanted m f := by
    intro f
    unfold field_wanted
    constructor
    · rintro (h1 | h1) ⟨h2, h3⟩
      · omega
      · exact h1 h3
    · intro h1
      by_cases h2 : f < m.header_match.length
      · exact Or.inr (fun h3 => h1 ⟨h2, h3⟩)
      · exact Or.inl (by omega)
  by_cases hc : h.continued = false
  · have ef : event_field h m = mail_cache_register_lookup m.cache (cstr "hdr." ++ h.name) := by
      unfold event_field
      rw [if_pos hc]
    have ec : event_cache h m = cache_flag m (event_field h m) := by
      unfold event_cache
      rw [if_pos hc]
    unfold parse_header_line parse_header_lookup parse_header_decide
    simp only [if_pos hc]
    rw [ec, ef]
    by_cases hf : mail_cache_register_lookup m.cache (cstr "hdr." ++ h.name) = UINT_MAX
    · rw [if_pos hf]
      simp only [set_parse_line]
      rw [if_pos hf]
    · rw [if_neg hf]
      simp only [set_parse_line]
      rw [if_neg hf]
      have hwf := hw (mail_cache_register_lookup m.cache (cstr "hdr." ++ h.name))
      by_cases hd : cache_flag m (mail_cache_register_lookup m.cache (cstr "hdr." ++ h.name)) = false ∧
          ¬ field_wanted m (mail_cache_register_lookup m.cache (cstr "hdr." ++ h.name))
      · rw [if_pos hd, if_pos ⟨hd.1, hwf.mpr hd.2⟩]
        rfl
      · rw [if_neg hd, if_neg (fun hx => hd ⟨hx.1, hwf.mp hx.2⟩)]
        rfl
  · have ef : event_field h m = m.data.parse_line.field_idx := by
      unfold event_field
      rw [if_neg hc]
    have ec : event_cache h m = m.data.parse_line.cache := by
      unfold event_cache
      rw [if_neg hc]
    unfold parse_header_line parse_header_lookup parse_header_decide
    simp only [if_neg hc]
    rw [ec, ef]
    have hwf := hw m.data.parse_line.field_idx
    by_cases hf : m.data.parse_line.field_idx = UINT_MAX
    · rw [if_pos hf, if_pos hf]
      rfl
    · rw [if_neg hf, if_neg hf]
      by_cases hd : m.data.parse_line.cache = false ∧ ¬ field_wanted m m.data.parse_line.field_idx
      · rw [if_pos hd, if_pos ⟨hd.1, hwf.mpr hd.2⟩]
        rfl
      · rw [if_neg hd, if_neg (fun hx => hd ⟨hx.1, hwf.mp hx.2⟩)]
        rfl

theorem parse_header_stage_exact (h : message_header_line) (m : index_mail) :
    (parse_header_stage h m).header_data = some (m.header_data.getD [] ++ event_bytes h) ∧
    (parse_header_stage h m).header_lines = m.header_lines ++
      (if h.continues = false then
        [index_mail_line.mk m.data.parse_line.field_idx
          (if h.continued = false then header_data_len m else m.data.parse_line.start_pos)
          (header_data_len m + (event_bytes h).length)
          (if h.continued = false then m.data.parse_line_num else m.data.parse_line.line_num)
          m.data.parse_line.cache]
      else []) ∧
    (parse_header_stage h m).data.parse_line =
      index_mail_line.mk m.data.parse_line.field_idx
        (if h.continued = false then header_data_len m else m.data.parse_line.start_pos)
        (if h.continues = false then header_data_len m + (event_bytes h).length
          else m.data.parse_line.end_pos)
        (if h.continued = false then m.data.parse_line_num else m.data.parse_line.line_num)
        m.data.parse_line.cache ∧
    (parse_header_stage h m).data.parse_line_num = m.data.parse_line_num := by
  unfold parse_header_stage event_bytes
  cases hc : h.continued <;> cases hn : h.no_newline <;> cases hk : h.continues <;>
    simp [header_data_append, header_data_len, set_parse_line, Nat.add_assoc]

theorem event_congr (h h1 : message_header_line) (m m1 : index_mail)
    (hname : h1.name = h.name) (hcont : h1.continued = h.continued)
    (hcache : m1.cache = m.cache) (hview : m1.cache_view = m.cache_view)
    (hseq : m1.data.seq = m.data.seq) (hline : m1.data.parse_line = m.data.parse_line)
    (hmatch : m1.header_match = m.header_match)
    (hvalue : m1.header_match_value = m.header_match_value) :
    event_field h1 m1 = event_field h m ∧ event_cache h1 m1 = event_cache h m ∧
    (∀ f, field_wanted m1 f ↔ field_wanted m f) ∧
    (event_staged h1 m1 ↔ event_staged h m) := by
  have e1 : event_field h1 m1 = event_field h m := by
    unfold event_field
    rw [hname, hcont, hcache, hline]
  have e2 : event_cache h1 m1 = event_cache h m := by
    unfold event_cache cache_flag
    rw [e1, hcont, hcache, hline, hview, hseq]
  have e3 : ∀ f, field_wanted m1 f ↔ field_wanted m f := by
    intro f
    unfold field_wanted
    rw [hmatch, hvalue]
  refine ⟨e1, e2, e3, ?_⟩
  unfold event_staged
  rw [e1, e2, e3]

theorem parse_header_envelope_eq (ext : collaborators) (h : message_header_line)
    (m : index_mail) (d0 : index_mail_data) :
    ∃ d, parse_header_envelope ext (some h) { m with data := d0 } = { m with data := d } ∧
      d.seq = d0.seq ∧ d.parse_line = d0.parse_line ∧ d.parse_line_num = d0.parse_line_num ∧
      d.save_bodystructure_header = d0.save_bodystructure_header := by
  unfold parse_header_envelope
  split_ifs
  · exact ⟨_, rfl, rfl, rfl, rfl, rfl⟩
  · exact ⟨_, rfl, rfl, rfl, rfl, rfl⟩

theorem parse_header_date_eq (ext : collaborators) (h : message_header_line)
    (m : index_mail) (d0 : index_mail_data) :
    ∃ d u, parse_header_date ext h { m with data := d0 } =
        ({ m with data := d }, { h with use_full_value := u }) ∧
      d.seq = d0.seq ∧ d.parse_line = d0.parse_line ∧ d.parse_line_num = d0.parse_line_num ∧
      d.save_bodystructure_header = d0.save_bodystructure_header := by
  unfold parse_header_date
  split_ifs
  · exact ⟨_, _, rfl, rfl, rfl, rfl, rfl⟩
  · cases hp : ext.message_date_parse h.full_value with
    | none => exact ⟨_, h.use_full_value, rfl, rfl, rfl, rfl, rfl⟩
    | some p => exact ⟨_, h.use_full_value, rfl, rfl, rfl, rfl, rfl⟩
  · exact ⟨_, h.use_full_value, rfl, rfl, rfl, rfl, rfl⟩

theorem parse_header_before_eq (ext : collaborators) (h : message_header_line) (m : index_mail)
    (num : Nat) :
    ∃ d u, parse_header_date ext h (parse_header_envelope ext (some h)
        { m with data := { m.data with parse_line_num := num } }) =
        ({ m with data := d }, { h with use_full_value := u }) ∧
      d.seq = m.data.seq ∧ d.parse_line = m.data.parse_line ∧ d.parse_line_num = num ∧
      d.save_bodystructure_header = m.data.save_bodystructure_header := by
  obtain ⟨d1, e1, a1, a2, a3, a4⟩ :=
    parse_header_envelope_eq ext h m { m.data with parse_line_num := num }
  obtain ⟨d2, u, e2, b1, b2, b3, b4⟩ := parse_header_date_eq ext h m d1
  rw [e1, e2]
  exact ⟨d2, u, rfl, b1.trans a1, b2.trans a2, b3.trans a3, b4.trans a4⟩

/-- What one header line event does to the handle: the event counter is incremented,
the registry, the cache view and the match bitmap stay, and the event is put into the
staging area exactly when it is staged.  Assumes that `i_assert (part != NULL)`
holds. -/
theorem parse_header_event (ext : collaborators) (part : Bool) (h : message_header_line)
    (m : index_mail) (hpart : m.data.save_bodystructure_header = false ∨ part = true) :
    ∃ r, index_mail_parse_header ext part (some h) m = outcome.returned r ∧
      same_frame m r.1 ∧
      r.1.data.parse_line_num = (m.data.parse_line_num + 1) % 4294967296 ∧
      (event_staged h m →
        r.1.header_data = some (m.header_data.getD [] ++ event_bytes h) ∧
        r.1.header_lines = m.header_lines ++
          (if h.continues = false then
            [{ event_line h m ((m.data.parse_line_num + 1) % 4294967296) with
                end_pos := header_data_len m + (event_bytes h).length }]
          else []) ∧
        r.1.data.parse_line =
          (if h.continues = false then
            { event_line h m ((m.data.parse_line_num + 1) % 4294967296) with
              end_pos := header_data_len m + (event_bytes h).length }
          else event_line h m ((m.data.parse_line_num + 1) % 4294967296))) ∧
      (¬ event_staged h m →
        r.1.header_data = m.header_data ∧ r.1.header_lines = m.header_lines ∧
        r.1.data.parse_line.field_idx = event_field h m ∧
        (event_field h m ≠ UINT_MAX → r.1.data.parse_line.cache = event_cache h m)) := by
  obtain ⟨d, u, eq, d1, d2, d3, d4⟩ :=
    parse_header_before_eq ext h m ((m.data.parse_line_num + 1) % 4294967296)
  have hna : ¬ (m.data.save_bodystructure_header = true ∧ part = false) := by
    rintro ⟨h1, h2⟩
    rcases hpart with h3 | h3
    · rw [h1] at h3
      exact Bool.noConfusion h3
    · rw [h2] at h3
      exact Bool.noConfusion h3
  obtain ⟨c1, c2, c3, c4⟩ := event_congr h { h with use_full_value := u } m { m with data := d }
    rfl rfl rfl rfl d1 d2 rfl rfl
  have hres : index_mail_parse_header ext part (some h) m =
      outcome.returned (parse_header_line { h with use_full_value := u } { m with data := d },
        some { h with use_full_value := u }) := by
    unfold index_mail_parse_header
    simp only []
    rw [if_neg hna, eq]
  have hstage := parse_header_stage_exact { h with use_full_value := u }
    (set_parse_line { m with data := d }
      { d.parse_line with field_idx := event_field h m, cache := event_cache h m })
  have hspec := parse_header_stage_spec { h with use_full_value := u }
    (set_parse_line { m with data := d }
      { d.parse_line with field_idx := event_field h m, cache := event_cache h m })
  have hframe : same_frame m (set_parse_line { m with data := d }
      { d.parse_line with field_idx := event_field h m, cache := event_cache h m }) :=
    ⟨rfl, rfl, rfl, rfl, d1, rfl, d4⟩
  refine ⟨_, hres, ?_, ?_, ?_, ?_⟩
  all_goals simp only []
  all_goals rw [parse_header_line_closed, c1, c2]
  · split_ifs
    · exact ⟨rfl, rfl, rfl, rfl, d1, rfl, d4⟩
    · exact hframe
    · exact same_frame_trans _ _ _ hframe hspec.1
  · split_ifs
    · exact d3
    · exact d3
    · exact hstage.2.2.2.trans d3
  · intro hs
    have hnd : ¬ (event_cache h m = false ∧
        ¬ field_wanted { m with data := d } (event_field h m)) := by
      rintro ⟨h1, h2⟩
      rcases hs.2 with h3 | h3
      · rw [h1] at h3
        exact Bool.noConfusion h3
      · exact h2 ((c3 _).mpr h3)
    rw [if_neg hs.1, if_neg hnd]
    obtain ⟨s1, s2, s3, _⟩ := hstage
    rw [s1, s2, s3]
    simp only [set_parse_line, header_data_len, event_line, d2, d3]
    cases hk : h.continues <;> simp [event_bytes]
  · intro hn
    by_cases hf : event_field h m = UINT_MAX
    · rw [if_pos hf]
      exact ⟨rfl, rfl, rfl, fun hx => absurd hf hx⟩
    · have hd : event_cache h m = false ∧
          ¬ field_wanted { m with data := d } (event_field h m) := by
        constructor
        · cases hx : event_cache h m with
          | false => rfl
          | true => exact absurd ⟨hf, Or.inl hx⟩ hn
        · intro hx
          exact hn ⟨hf, Or.inr ((c3 _).mp hx)⟩
      rw [if_neg hf, if_pos hd]
      exact ⟨rfl, rfl, rfl, fun _ => rfl⟩

/-- C21: for a header line event whose field is registered, `index_mail_parse_header`
appends the bytes of the event to `header_data`, and pushes the staging line onto
`header_lines` when the event does not continue, if the cache flag of the line is true
or the field is wanted; otherwise `header_data` and `header_lines` stay as they are.
Assumes that `i_assert (part != NULL)` holds. -/
theorem staging_iff_cache_or_wanted (ext : collaborators) (part : Bool)
    (h : message_header_line) (mail : index_mail)
    (hpart : mail.data.save_bodystructure_header = false ∨ part = true)
    (hreg : event_field h mail ≠ UINT_MAX) :
    ∃ r, index_mail_parse_header ext part (some h) mail = outcome.returned r ∧
      ((event_cache h mail = true ∨ field_wanted mail (event_field h mail)) →
        r.1.header_data = some (mail.header_data.getD [] ++ event_bytes h) ∧
        r.1.header_lines = mail.header_lines ++
          (if h.continues = false then
            [{ event_line h mail ((mail.data.parse_line_num + 1) % 4294967296) with
                end_pos := header_data_len mail + (event_bytes h).length }]
          else [])) ∧
      (¬ (event_cache h mail = true ∨ field_wanted mail (event_field h mail)) →
        r.1.header_data = mail.header_data ∧ r.1.header_lines = mail.header_lines) := by
  obtain ⟨r, h1, _, _, h4, h5⟩ := parse_header_event ext part h mail hpart
  refine ⟨r, h1, ?_, ?_⟩
  · intro hs
    exact ⟨(h4 ⟨hreg, hs⟩).1, (h4 ⟨hreg, hs⟩).2.1⟩
  · intro hn
    exact ⟨(h5 (fun hx => hn hx.2)).1, (h5 (fun hx => hn hx.2)).2.1⟩

/-- C21, witness: `hdr.X` has the decision TEMP and `hdr.Y` the decision NO, and no
field is wanted: the line `X: v` is staged as the bytes `X: v\n` with the line
(field 0, bytes 0 to 5, line number 1), and the line `Y: v` leaves the staging area
empty. -/
theorem staging_iff_cache_or_wanted_witness :
    event_field (header_line "X" "v")
      (fresh_mail 1 [header_field "hdr.X" mail_cache_decision_type.TEMP,
        header_field "hdr.Y" mail_cache_decision_type.NO] (fun _ _ => 0)) ≠ UINT_MAX ∧
    (∃ r, index_mail_parse_header example_ext false (some (header_line "X" "v"))
        (fresh_mail 1 [header_field "hdr.X" mail_cache_decision_type.TEMP,
          header_field "hdr.Y" mail_cache_decision_type.NO] (fun _ _ => 0))
        = outcome.returned r ∧
      r.1.header_data = some (cstr "X: v\n") ∧
      r.1.header_lines = [index_mail_line.mk 0 0 5 1 true]) ∧
    staging_area (parse_header_lines example_ext false [header_line "Y" "v"]
        (fresh_mail 1 [header_field "hdr.X" mail_cache_decision_type.TEMP,
          header_field "hdr.Y" mail_cache_decision_type.NO] (fun _ _ => 0)))
      = some (none, []) := by
  refine ⟨by decide, ?_, by decide⟩
  obtain ⟨r, h1, h2, _⟩ := staging_iff_cache_or_wanted example_ext false (header_line "X" "v")
    (fresh_mail 1 [header_field "hdr.X" mail_cache_decision_type.TEMP,
      header_field "hdr.Y" mail_cache_decision_type.NO] (fun _ _ => 0)) (Or.inl rfl) (by decide)
  exact ⟨r, h1, (h2 (Or.inl (by decide))).1.trans (by decide),
    (h2 (Or.inl (by decide))).2.trans (by decide)⟩

theorem event_continued (h : message_header_line) (m : index_mail) (num : Nat)
    (hc : h.continued = true) :
    event_field h m = m.data.parse_line.field_idx ∧ event_cache h m = m.data.parse_line.cache ∧
    event_bytes h = fragment_bytes h ∧ event_line h m num = m.data.parse_line := by
  have hc' : ¬ h.continued = false := by rw [hc]; exact Bool.noConfusion
  unfold event_line event_cache event_field event_bytes fragment_bytes
  simp only [if_neg hc', List.nil_append]
  refine ⟨?_, ?_, ?_, ?_⟩ <;> trivial

theorem same_frame_wanted (m1 m2 : index_mail) (f : Nat) (h : same_frame m1 m2) :
    field_wanted m2 f ↔ field_wanted m1 f := by
  obtain ⟨_, _, h3, h4, _⟩ := h
  unfold field_wanted
  rw [h3, h4]

theorem continuation_fragments_spec (ext : collaborators) (part : Bool) :
    ∀ (rest : List message_header_line) (m : index_mail),
      continuation_fragments rest = true →
      (m.data.save_bodystructure_header = false ∨ part = true) →
      m.data.parse_line.field_idx ≠ UINT_MAX →
      (m.data.parse_line.cache = true ∨ field_wanted m m.data.parse_line.field_idx) →
      ∃ m', parse_header_lines ext part rest m = outcome.returned m' ∧
        m'.header_data = some (m.header_data.getD [] ++ rest.flatMap fragment_bytes) ∧
        m'.header_lines = m.header_lines ++
          [{ m.data.parse_line with
              end_pos := header_data_len m + (rest.flatMap fragment_bytes).length }] := by
  intro rest
  induction rest with
  | nil =>
    intro m hf
    exact absurd hf (by decide)
  | cons h tl ih =>
    intro m hf hpart hreg hst
    have hcont : h.continued = true := by
      cases tl with
      | nil =>
        simp only [continuation_fragments, Bool.and_eq_true] at hf
        exact hf.1
      | cons h2 hs =>
        simp only [continuation_fragments, Bool.and_eq_true] at hf
        exact hf.1.1
    obtain ⟨e1, e2, e3, e4⟩ := event_continued h m ((m.data.parse_line_num + 1) % 4294967296) hcont
    have hstaged : event_staged h m := by
      unfold event_staged
      rw [e1, e2]
      exact ⟨hreg, hst⟩
    obtain ⟨r, hr, hframe, _, h4, _⟩ := parse_header_event ext part h m hpart
    obtain ⟨s1, s2, s3⟩ := h4 hstaged
    rw [e3] at s1 s2 s3
    rw [e4] at s2 s3
    unfold parse_header_lines
    rw [hr]
    simp only []
    cases tl with
    | nil =>
      simp only [continuation_fragments, Bool.and_eq_true, Bool.not_eq_true'] at hf
      have hk : h.continues = false := hf.2
      rw [if_pos hk] at s2
      unfold parse_header_lines
      refine ⟨r.1, rfl, ?_, ?_⟩
      · rw [s1]
        simp
      · rw [s2]
        simp
    | cons h2 hs =>
      simp only [continuation_fragments, Bool.and_eq_true] at hf
      have hk : h.continues = true := hf.1.2
      have hk' : ¬ h.continues = false := by rw [hk]; exact Bool.noConfusion
      rw [if_neg hk'] at s2 s3
      have hpart' : r.1.data.save_bodystructure_header = false ∨ part = true := by
        rw [hframe.2.2.2.2.2.2]
        exact hpart
      obtain ⟨m', i1, i2, i3⟩ := ih r.1 hf.2 hpart' (by rw [s3]; exact hreg)
        (by rw [s3, same_frame_wanted m r.1 _ hframe]; exact hst)
      refine ⟨m', i1, ?_, ?_⟩
      · rw [i2, s1]
        simp
      · rw [i3, s2, s3]
        simp only [header_data_len, s1, List.append_nil, Option.getD_some, List.length_append,
          List.flatMap_cons, Nat.add_assoc]

theorem slice_appended (d b : List Nat) :
    buffer_slice (d ++ b) d.length ((d ++ b).length - d.length) = b := by
  unfold buffer_slice
  rw [List.drop_left, List.length_append, Nat.add_sub_cancel_left, List.take_length]

/-- C22: a staged header that arrives as the fragments `first :: rest` (the first not a
continuation, the others continuations, all but the last continuing) pushes exactly
one staging line: it starts at the length that `header_data` had before the first
fragment, ends at the length after the last, and carries the event number of the first
fragment; the bytes of `header_data` between the two positions are the name, `": "`
and the values of the fragments, each followed by a newline unless the fragment is
flagged `no_newline`.  Assumes that `i_assert (part != NULL)` holds. -/
theorem fragment_reassembly (ext : collaborators) (part : Bool) (first : message_header_line)
    (rest : List message_header_line) (mail : index_mail)
    (hpart : mail.data.save_bodystructure_header = false ∨ part = true)
    (hfrag : header_fragments first rest = true) (hstaged : event_staged first mail) :
    ∃ m', parse_header_lines ext part (first :: rest) mail = outcome.returned m' ∧
      m'.header_data = some (mail.header_data.getD [] ++
        (first.name ++ cstr ": " ++ (first :: rest).flatMap fragment_bytes)) ∧
      m'.header_lines = mail.header_lines ++
        [index_mail_line.mk (event_field first mail) (header_data_len mail) (header_data_len m')
          ((mail.data.parse_line_num + 1) % 4294967296) (event_cache first mail)] ∧
      buffer_slice (m'.header_data.getD []) (header_data_len mail)
          (header_data_len m' - header_data_len mail) =
        first.name ++ cstr ": " ++ (first :: rest).flatMap fragment_bytes := by
  simp only [header_fragments, Bool.and_eq_true, Bool.not_eq_true'] at hfrag
  obtain ⟨hc, hshape⟩ := hfrag
  have hbytes : event_bytes first = first.name ++ cstr ": " ++ fragment_bytes first := by
    unfold event_bytes fragment_bytes
    rw [if_pos hc, List.append_assoc]
  have hline : ∀ num, event_line first mail num =
      index_mail_line.mk (event_field first mail) (header_data_len mail)
        mail.data.parse_line.end_pos num (event_cache first mail) := by
    intro num
    unfold event_line
    rw [if_pos hc, if_pos hc]
  obtain ⟨r, hr, hframe, _, h4, _⟩ := parse_header_event ext part first mail hpart
  obtain ⟨s1, s2, s3⟩ := h4 hstaged
  rw [hbytes] at s1 s2 s3
  rw [hline] at s2 s3
  have hdata : ∀ (m' : index_mail) (b : List Nat),
      m'.header_data = some (mail.header_data.getD [] ++ b) →
      header_data_len m' = header_data_len mail + b.length ∧
      buffer_slice (m'.header_data.getD []) (header_data_len mail)
        (header_data_len m' - header_data_len mail) = b := by
    intro m' b hb
    unfold header_data_len
    rw [hb]
    exact ⟨by simp, slice_appended _ _⟩
  unfold parse_header_lines
  rw [hr]
  simp only []
  by_cases hrest : rest = []
  · rw [if_pos hrest] at hshape
    subst hrest
    have hk : first.continues = false := by simpa using hshape
    rw [if_pos hk] at s2
    unfold parse_header_lines
    have hd : r.1.header_data = some (mail.header_data.getD [] ++
        (first.name ++ cstr ": " ++ [first].flatMap fragment_bytes)) := by
      rw [s1]
      simp
    obtain ⟨k1, k2⟩ := hdata r.1 _ hd
    refine ⟨r.1, rfl, hd, ?_, k2⟩
    rw [s2, k1]
    simp
  · rw [if_neg hrest, Bool.and_eq_true] at hshape
    have hk' : ¬ first.continues = false := by rw [hshape.1]; exact Bool.noConfusion
    rw [if_neg hk'] at s2 s3
    have hpart' : r.1.data.save_bodystructure_header = false ∨ part = true := by
      rw [hframe.2.2.2.2.2.2]
      exact hpart
    obtain ⟨m', i1, i2, i3⟩ := continuation_fragments_spec ext part rest r.1 hshape.2 hpart'
      (by rw [s3]; exact hstaged.1)
      (by rw [s3, same_frame_wanted mail r.1 _ hframe]; exact hstaged.2)
    have hd : m'.header_data = some (mail.header_data.getD [] ++
        (first.name ++ cstr ": " ++ (first :: rest).flatMap fragment_bytes)) := by
      rw [i2, s1]
      simp
    obtain ⟨k1, k2⟩ := hdata m' _ hd
    refine ⟨m', i1, hd, ?_, k2⟩
    rw [i3, s2, s3, k1]
    simp only [header_data_len, s1, List.append_nil, Option.getD_some, List.length_append,
      List.flatMap_cons, Nat.add_assoc]

/-- C22, witness: `Subject: foo` followed by the continuation ` bar`, for a field with
decision TEMP: one line (field 0, bytes 0 to 18, line number 1) is staged and the bytes
are `Subject: foo\n bar\n`. -/
theorem fragment_reassembly_witness :
    header_fragments (fragment "Subject" "foo" false true)
      [fragment "Subject" " bar" true false] = true ∧
    event_staged (fragment "Subject" "foo" false true)
      (fresh_mail 1 [header_field "hdr.Subject" mail_cache_decision_type.TEMP] (fun _ _ => 0)) ∧
    staging_area (parse_header_lines example_ext false
        [fragment "Subject" "foo" false true, fragment "Subject" " bar" true false]
        (fresh_mail 1 [header_field "hdr.Subject" mail_cache_decision_type.TEMP] (fun _ _ => 0)))
      = some (some (cstr "Subject: foo\n bar\n"), [index_mail_line.mk 0 0 18 1 true]) ∧
    ∃ m', parse_header_lines example_ext false
        [fragment "Subject" "foo" false true, fragment "Subject" " bar" true false]
        (fresh_mail 1 [header_field "hdr.Subject" mail_cache_decision_type.TEMP] (fun _ _ => 0))
        = outcome.returned m' ∧
      m'.header_data = some (cstr "Subject: foo\n bar\n") := by
  refine ⟨by decide, by decide, by decide, ?_⟩
  obtain ⟨m', h1, h2, _⟩ := fragment_reassembly example_ext false
    (fragment "Subject" "foo" false true) [fragment "Subject" " bar" true false]
    (fresh_mail 1 [header_field "hdr.Subject" mail_cache_decision_type.TEMP] (fun _ _ => 0))
    (Or.inl rfl) (by decide) (by decide)
  exact ⟨m', h1, h2.trans (by decide)⟩

theorem parse_header_events_lines (ext : collaborators) (part : Bool) :
    ∀ (hdrs : List message_header_line) (m : index_mail),
      parse_header_events ext part hdrs m =
        match parse_header_lines ext part hdrs m with
        | outcome.returned m1 => parse_header_events ext part [] m1
        | outcome.assert_failed => outcome.assert_failed := by
  intro hdrs
  induction hdrs with
  | nil =>
    intro m
    rfl
  | cons h hs ih =>
    intro m
    unfold parse_header_lines
    rw [parse_header_events]
    cases hr : index_mail_parse_header ext part (some h) m with
    | returned r => exact ih r.1
    | assert_failed => rfl

theorem uint32_bytes_ne_zero (n : Nat) (h1 : 1 ≤ n) (h2 : n < 4294967296) :
    uint32_bytes n ≠ uint32_bytes 0 := by
  unfold uint32_bytes
  intro he
  injection he with a1 he
  injection he with a2 he
  injection he with a3 he
  injection he with a4 he
  omega

theorem line_numbers_invariant (ext : collaborators) (part : Bool) (lo : Nat) :
    ∀ (hdrs : List message_header_line) (m : index_mail) (prev : Bool),
      events_chained prev hdrs = true →
      (m.data.save_bodystructure_header = false ∨ part = true) →
      m.data.parse_line_num + hdrs.length < 4294967296 →
      lo ≤ m.data.parse_line_num →
      (∀ l ∈ m.header_lines, lo < l.line_num ∧ l.line_num ≤ m.data.parse_line_num) →
      m.header_lines.Pairwise (fun a b => a.line_num < b.line_num) →
      (prev = true → m.data.parse_line.field_idx ≠ UINT_MAX →
        (m.data.parse_line.cache = true ∨ field_wanted m m.data.parse_line.field_idx) →
        lo < m.data.parse_line.line_num ∧ m.data.parse_line.line_num ≤ m.data.parse_line_num ∧
          ∀ l ∈ m.header_lines, l.line_num < m.data.parse_line.line_num) →
      ∃ m', parse_header_lines ext part hdrs m = outcome.returned m' ∧
        (∀ l ∈ m'.header_lines,
          lo < l.line_num ∧ l.line_num ≤ m.data.parse_line_num + hdrs.length) ∧
        m'.header_lines.Pairwise (fun a b => a.line_num < b.line_num) := by
  intro hdrs
  induction hdrs with
  | nil =>
    intro m prev _ _ _ _ hb hp _
    exact ⟨m, rfl, hb, hp⟩
  | cons h tl ih =>
    intro m prev hchain hpart hlen hlo hb hp hcur
    simp only [events_chained, Bool.and_eq_true, beq_iff_eq] at hchain
    simp only [List.length_cons] at hlen
    obtain ⟨r, hr, hframe, hnum, h4, h5⟩ := parse_header_event ext part h m hpart
    have hN : (m.data.parse_line_num + 1) % 4294967296 = m.data.parse_line_num + 1 :=
      Nat.mod_eq_of_lt (by omega)
    rw [hN] at hnum h4
    have hpart' : r.1.data.save_bodystructure_header = false ∨ part = true := by
      rw [hframe.2.2.2.2.2.2]
      exact hpart
    unfold parse_header_lines
    rw [hr]
    simp only []
    have hfinal : ∀ m' : index_mail, ((∀ l ∈ m'.header_lines,
          lo < l.line_num ∧ l.line_num ≤ r.1.data.parse_line_num + tl.length) ∧
        m'.header_lines.Pairwise (fun a b => a.line_num < b.line_num)) →
        ((∀ l ∈ m'.header_lines,
          lo < l.line_num ∧ l.line_num ≤ m.data.parse_line_num + (tl.length + 1)) ∧
        m'.header_lines.Pairwise (fun a b => a.line_num < b.line_num)) := by
      intro m' hm
      refine ⟨fun l hl => ⟨(hm.1 l hl).1, ?_⟩, hm.2⟩
      have := (hm.1 l hl).2
      rw [hnum] at this
      omega
    by_cases hs : event_staged h m
    · obtain ⟨_, s2, s3⟩ := h4 hs
      -- the number that the line of this event carries
      have hnumber : lo < (event_line h m (m.data.parse_line_num + 1)).line_num ∧
          (event_line h m (m.data.parse_line_num + 1)).line_num ≤ m.data.parse_line_num + 1 ∧
          ∀ l ∈ m.header_lines,
            l.line_num < (event_line h m (m.data.parse_line_num + 1)).line_num := by
        by_cases hc : h.continued = false
        · have e : (event_line h m (m.data.parse_line_num + 1)).line_num =
              m.data.parse_line_num + 1 := by
            unfold event_line
            simp only [if_pos hc]
          rw [e]
          refine ⟨by omega, Nat.le_refl _, fun l hl => ?_⟩
          have := (hb l hl).2
          omega
        · have hc' : h.continued = true := by simpa using hc
          obtain ⟨e1, e2, _, e4⟩ := event_continued h m (m.data.parse_line_num + 1) hc'
          rw [e4]
          unfold event_staged at hs
          rw [e1, e2] at hs
          obtain ⟨c1, c2, c3⟩ := hcur (by rw [← hchain.1]; exact hc') hs.1 hs.2
          exact ⟨c1, by omega, c3⟩
      by_cases hk : h.continues = false
      · rw [if_pos hk] at s2 s3
        obtain ⟨m', i1, i2⟩ := ih r.1 h.continues hchain.2 hpart' (by rw [hnum]; omega)
          (by rw [hnum]; omega)
          (by
            intro l hl
            rw [s2] at hl
            rw [hnum]
            rcases List.mem_append.mp hl with h1 | h1
            · have := hb l h1
              exact ⟨this.1, by omega⟩
            · rw [List.mem_singleton] at h1
              rw [h1]
              exact ⟨hnumber.1, hnumber.2.1⟩)
          (by
            rw [s2, List.pairwise_append]
            refine ⟨hp, List.pairwise_singleton _ _, ?_⟩
            intro a ha b hb1
            rw [List.mem_singleton] at hb1
            rw [hb1]
            exact hnumber.2.2 a ha)
          (by
            intro hx
            rw [hk] at hx
            exact Bool.noConfusion hx)
        exact ⟨m', i1, hfinal m' i2⟩
      · rw [if_neg hk, List.append_nil] at s2
        rw [if_neg hk] at s3
        obtain ⟨m', i1, i2⟩ := ih r.1 h.continues hchain.2 hpart' (by rw [hnum]; omega)
          (by rw [hnum]; omega)
          (by
            intro l hl
            rw [s2] at hl
            rw [hnum]
            have := hb l hl
            exact ⟨this.1, by omega⟩)
          (by rw [s2]; exact hp)
          (by
            intro _ _ _
            rw [s3, s2, hnum]
            exact hnumber)
        exact ⟨m', i1, hfinal m' i2⟩
    · obtain ⟨_, s2, s3, s4⟩ := h5 hs
      obtain ⟨m', i1, i2⟩ := ih r.1 h.continues hchain.2 hpart' (by rw [hnum]; omega)
        (by rw [hnum]; omega)
        (by
          intro l hl
          rw [s2] at hl
          rw [hnum]
          have := hb l hl
          exact ⟨this.1, by omega⟩)
        (by rw [s2]; exact hp)
        (by
          intro _ hf hw
          exfalso
          apply hs
          rw [s3] at hf hw
          rw [s4 hf, same_frame_wanted m r.1 _ hframe] at hw
          exact ⟨hf, hw⟩)
      exact ⟨m', i1, hfinal m' i2⟩

/-- C26: in a pass (`index_mail_parse_header_init`, then the header line events of a
header parser) that starts with the event counter `parse_line_num` at `n` and has
fewer events than would wrap the counter, every staging line has a line number above
`n` (at least 1 when the counter starts from 0) and at most `n` plus the number of
events, the staging lines are pushed with strictly increasing line numbers, and the
four bytes of a line number differ from the four zero bytes that end the line number
prefix of a payload.  Assumes that `i_assert (part != NULL)` holds. -/
theorem staged_line_numbers (ext : collaborators) (part : Bool) (headers : Option Nat)
    (hdrs : List message_header_line) (mail : index_mail)
    (hpart : mail.data.save_bodystructure_header = false ∨ part = true)
    (hchain : events_chained false hdrs = true)
    (hlen : mail.data.parse_line_num + hdrs.length < 4294967296) :
    ∃ m', parse_header_lines ext part hdrs (index_mail_parse_header_init ext mail headers) =
        outcome.returned m' ∧
      (∀ l ∈ m'.header_lines,
        mail.data.parse_line_num < l.line_num ∧ 1 ≤ l.line_num ∧
        l.line_num ≤ mail.data.parse_line_num + hdrs.length ∧
        uint32_bytes l.line_num ≠ uint32_bytes 0) ∧
      m'.header_lines.Pairwise (fun a b => a.line_num < b.line_num) := by
  obtain ⟨f1, _, _, f4, _, _⟩ := init_frame ext mail headers
  obtain ⟨m', h1, h2, h3⟩ := line_numbers_invariant ext part mail.data.parse_line_num hdrs
    (index_mail_parse_header_init ext mail headers) false hchain (by rw [f4]; exact hpart)
    (by rw [f4]; exact hlen) (by rw [f4])
    (by rw [f1]; intro l hl; exact absurd hl (List.not_mem_nil l))
    (by rw [f1]; exact List.Pairwise.nil)
    (by intro hx; exact Bool.noConfusion hx)
  rw [f4] at h2
  refine ⟨m', h1, ?_, h3⟩
  intro l hl
  obtain ⟨b1, b2⟩ := h2 l hl
  exact ⟨b1, by omega, b2, uint32_bytes_ne_zero _ (by omega) (by omega)⟩

/-- C26, witness: the events `Subject: foo`, its continuation ` bar`, `X-Other: y` (not
registered) and `To: x`, from the counter 0: the two staged lines carry the line
numbers 1 and 4. -/
theorem staged_line_numbers_witness :
    events_chained false
      [fragment "Subject" "foo" false true, fragment "Subject" " bar" true false,
        header_line "X-Other" "y", header_line "To" "x"] = true ∧
    staging_area (parse_header_lines example_ext false
        [fragment "Subject" "foo" false true, fragment "Subject" " bar" true false,
          header_line "X-Other" "y", header_line "To" "x"]
        (index_mail_parse_header_init example_ext
          (fresh_mail 1 [header_field "hdr.Subject" mail_cache_decision_type.TEMP,
            header_field "hdr.To" mail_cache_decision_type.TEMP] (fun _ _ => 0)) none))
      = some (some (cstr "Subject: foo\n bar\nTo: x\n"),
          [index_mail_line.mk 0 0 18 1 true, index_mail_line.mk 1 18 24 4 true]) ∧
    ∃ m', parse_header_lines example_ext false
        [fragment "Subject" "foo" false true, fragment "Subject" " bar" true false,
          header_line "X-Other" "y", header_line "To" "x"]
        (index_mail_parse_header_init example_ext
          (fresh_mail 1 [header_field "hdr.Subject" mail_cache_decision_type.TEMP,
            header_field "hdr.To" mail_cache_decision_type.TEMP] (fun _ _ => 0)) none)
        = outcome.returned m' ∧
      (∀ l ∈ m'.header_lines,
        0 < l.line_num ∧ 1 ≤ l.line_num ∧ l.line_num ≤ 0 + 4 ∧
        uint32_bytes l.line_num ≠ uint32_bytes 0) ∧
      m'.header_lines.Pairwise (fun a b => a.line_num < b.line_num) :=
  ⟨by decide, by decide,
    staged_line_numbers example_ext false none
      [fragment "Subject" "foo" false true, fragment "Subject" " bar" true false,
        header_line "X-Other" "y", header_line "To" "x"]
      (fresh_mail 1 [header_field "hdr.Subject" mail_cache_decision_type.TEMP,
        header_field "hdr.To" mail_cache_decision_type.TEMP] (fun _ _ => 0))
      (Or.inl rfl) (by decide) (by decide)⟩

/-- C27 (the code at the failing inputs): without `FULL_FS_ACCESS` the names `..` and
`foo/..`, whose last component is `..`, are accepted by `mbox_is_valid_mask`,
`mbox_is_valid_existing_name` and `mbox_is_valid_create_name`; only a `..` that is
followed by `/` is refused. -/
theorem valid_mask_accepts_final_dotdot :
    mbox_is_valid_mask false (cstr "..") = true ∧
    mbox_is_valid_existing_name false (cstr "..") = true ∧
    mbox_is_valid_create_name false (cstr "..") = true ∧
    mbox_is_valid_mask false (cstr "foo/..") = true ∧
    mbox_is_valid_existing_name false (cstr "foo/..") = true ∧
    mbox_is_valid_create_name false (cstr "foo/..") = true ∧
    cstr ".." ∈ path_components (cstr "..") ∧
    cstr ".." ∈ path_components (cstr "foo/..") ∧
    mbox_is_valid_mask false (cstr "../x") = false ∧
    mbox_is_valid_mask false (cstr "foo/../x") = false := by
  decide

theorem path_components_ne_nil (s : List Nat) : path_components s ≠ [] := by
  cases s with
  | nil => simp [path_components]
  | cons c rest =>
    unfold path_components
    split_ifs
    · exact List.cons_ne_nil _ _
    · cases path_components rest <;> simp

theorem path_components_dot (s : List Nat) (comps : List (List Nat))
    (h : path_components s = [46] :: comps) (hne : comps ≠ []) :
    s.getD 0 0 = 46 ∧ s.getD 1 0 = 47 := by
  cases s with
  | nil =>
    simp [path_components] at h
  | cons r0 r1 =>
    unfold path_components at h
    by_cases h0 : r0 = 47
    · rw [if_pos h0] at h
      simp at h
    · rw [if_neg h0] at h
      cases hp : path_components r1 with
      | nil => exact absurd hp (path_components_ne_nil r1)
      | cons c0 cs =>
        rw [hp] at h
        simp only [List.cons.injEq] at h
        obtain ⟨⟨e1, e2⟩, e3⟩ := h
        subst e2 e3
        cases r1 with
        | nil =>
          simp [path_components] at hp
          exact absurd hp hne
        | cons x r2 =>
          unfold path_components at hp
          by_cases hx : x = 47
          · simp [e1, hx]
          · rw [if_neg hx] at hp
            cases hq : path_components r2 with
            | nil => exact absurd hq (path_components_ne_nil r2)
            | cons q0 qs =>
              rw [hq] at hp
              simp at hp

theorem mbox_mask_loop_components :
    ∀ (s : List Nat) (newdir : Bool), mbox_mask_loop s newdir = true → 0 ∉ s →
      (newdir = true → ∀ comp ∈ (path_components s).dropLast, comp ≠ [46, 46]) ∧
      (∀ comp ∈ (path_components s).tail.dropLast, comp ≠ [46, 46]) := by
  intro s
  induction s with
  | nil =>
    intro newdir _ _
    simp [path_components]
  | cons c rest ih =>
    intro newdir hloop hnul
    have hc0 : c ≠ 0 := fun hx => hnul (hx ▸ List.mem_cons_self c rest)
    have hrest : 0 ∉ rest := fun hx => hnul (List.mem_cons_of_mem c hx)
    unfold mbox_mask_loop at hloop
    rw [if_neg hc0] at hloop
    by_cases hbad : newdir = true ∧ c = 46 ∧ rest.getD 0 0 = 46 ∧ rest.getD 1 0 = 47
    · rw [if_pos hbad] at hloop
      exact Bool.noConfusion hloop
    · rw [if_neg hbad] at hloop
      obtain ⟨i1, i2⟩ := ih _ hloop hrest
      unfold path_components
      by_cases h47 : c = 47
      · rw [if_pos h47]
        have i1' := i1 (by simp [h47])
        have hd : ([] :: path_components rest).dropLast = [] :: (path_components rest).dropLast := by
          cases hp : path_components rest with
          | nil => exact absurd hp (path_components_ne_nil rest)
          | cons a l => rfl
        constructor
        · intro _ comp hcomp
          rw [hd] at hcomp
          rcases List.mem_cons.mp hcomp with h1 | h1
          · rw [h1]
            simp
          · exact i1' comp h1
        · intro comp hcomp
          exact i1' comp hcomp
      · rw [if_neg h47]
        cases hp : path_components rest with
        | nil => exact absurd hp (path_components_ne_nil rest)
        | cons c0 cs =>
          rw [hp] at i2
          simp only [List.tail_cons] at i2 ⊢
          refine ⟨?_, i2⟩
          intro hnew comp hcomp
          cases cs with
          | nil => simp at hcomp
          | cons d ds =>
            rw [List.dropLast_cons₂] at hcomp
            rcases List.mem_cons.mp hcomp with h1 | h1
            · intro he
              rw [h1] at he
              simp only [List.cons.injEq] at he
              obtain ⟨e1, e2⟩ := he
              rw [e2] at hp
              obtain ⟨g1, g2⟩ := path_components_dot rest (d :: ds) hp (List.cons_ne_nil _ _)
              exact hbad ⟨hnew, e1, g1, g2⟩
            · exact i2 comp h1

/-- What the guard of `mbox_is_valid_mask` does establish without `FULL_FS_ACCESS`: an
accepted name (without NUL bytes) does not start with `/` or `~`, and none of its
components before the last is `..`. -/
theorem valid_mask_inner_components (mask : List Nat)
    (hvalid : mbox_is_valid_mask false mask = true) (hnul : 0 ∉ mask) :
    mask.getD 0 0 ≠ 47 ∧ mask.getD 0 0 ≠ 126 ∧
    ∀ comp ∈ (path_components mask).dropLast, comp ≠ cstr ".." := by
  unfold mbox_is_valid_mask at hvalid
  rw [if_neg (by decide)] at hvalid
  by_cases hfirst : mask.getD 0 0 = 47 ∨ mask.getD 0 0 = 126
  · rw [if_pos hfirst] at hvalid
    exact Bool.noConfusion hvalid
  · rw [if_neg hfirst] at hvalid
    exact ⟨fun hx => hfirst (Or.inl hx), fun hx => hfirst (Or.inr hx),
      (mbox_mask_loop_components mask true hvalid hnul).1 rfl⟩

/-- An example for `valid_mask_inner_components`: the accepted name `a/b/..`. -/
theorem valid_mask_inner_components_example :
    mbox_is_valid_mask false (cstr "a/b/..") = true ∧ 0 ∉ cstr "a/b/.." ∧
    (cstr "a/b/..").getD 0 0 ≠ 47 ∧ (cstr "a/b/..").getD 0 0 ≠ 126 ∧
    ∀ comp ∈ (path_components (cstr "a/b/..")).dropLast, comp ≠ cstr ".." :=
  ⟨by decide, by decide,
    valid_mask_inner_components (cstr "a/b/..") (by decide) (by decide)⟩

/-- The element behind the staging lines in a pass: the registry holds `hdr.X` (field 0,
decision NO), `hdr.Received` (field 1) and `hdr.Subject` (field 2), and the message has
the lines `Subject: a`, `Received: s`, `Subject: b`.  The run of `Subject` is the last
one and is not contiguous, so its record is filed under the field of the element behind
the staging lines, which is 0 in a fresh buffer: the field of `hdr.X`, which is
neither wanted nor in the message. -/
theorem past_element_record :
    pass_records (extraction_pass example_ext none
      [header_line "Subject" "a", header_line "Received" "s", header_line "Subject" "b"]
      (fresh_mail 1 [header_field "hdr.X" mail_cache_decision_type.NO,
        header_field "hdr.Received" mail_cache_decision_type.TEMP,
        header_field "hdr.Subject" mail_cache_decision_type.TEMP] (fun _ _ => 0))) =
      some [cache_record.mk 1 1 (uint32_bytes 2 ++ uint32_bytes 0 ++ cstr "Received: s\n"),
        cache_record.mk 1 0 (uint32_bytes 1 ++ uint32_bytes 3 ++ uint32_bytes 0 ++
          cstr "Subject: a\nSubject: b\n")] := by
  decide

end Dovecot
